import Mathlib

/-!
Verification of the intrusive binary-search-tree helpers of `rbtree.h`.

The C code manipulates `struct rb_node` records through pointers.  The
embedding makes the memory explicit: a pointer is an `Option Nat` (`none` is
`NULL`), the heap maps an address to the three link fields of the node stored
there, and the root handle `struct rb_root` is part of the state.  Every C
function becomes a function on this state.  Loops take a fuel argument that
bounds the number of iterations; running out of fuel and dereferencing `NULL`
both yield `none`.
-/

namespace RbTree

/-! ## Data model (`struct rb_node`, `struct rb_root`) -/

/-- The record `struct rb_node`: parent, left and right pointer. -/
structure rb_node where
  parent : Option Nat
  left : Option Nat
  right : Option Nat
deriving DecidableEq

/-- The record `struct rb_root`: pointer to the topmost node. -/
structure rb_root where
  node : Option Nat
deriving DecidableEq

/-- Memory: the node stored at every address and the root handle. -/
structure Mem where
  heap : Nat → rb_node
  root : rb_root

/-- The assignment `n->parent = v`. -/
def Mem.set_parent (m : Mem) (n : Nat) (v : Option Nat) : Mem :=
  { m with heap := fun k => if k = n then { m.heap k with parent := v } else m.heap k }

/-- The assignment `n->left = v`. -/
def Mem.set_left (m : Mem) (n : Nat) (v : Option Nat) : Mem :=
  { m with heap := fun k => if k = n then { m.heap k with left := v } else m.heap k }

/-- The assignment `n->right = v`. -/
def Mem.set_right (m : Mem) (n : Nat) (v : Option Nat) : Mem :=
  { m with heap := fun k => if k = n then { m.heap k with right := v } else m.heap k }

/-- The assignment `root->node = v`. -/
def Mem.set_root (m : Mem) (v : Option Nat) : Mem :=
  { m with root := { node := v } }

/-- A value of type `struct rb_node **`: the address of the root handle's
`node` field or of the `left` or `right` field of a node. -/
inductive Slot where
  | root : Slot
  | left : Nat → Slot
  | right : Nat → Slot
deriving DecidableEq

/-- Reading `*rb_link`. -/
def Mem.load (m : Mem) : Slot → Option Nat
  | Slot.root => m.root.node
  | Slot.left p => (m.heap p).left
  | Slot.right p => (m.heap p).right

/-- The assignment `*rb_link = v`. -/
def Mem.store (m : Mem) : Slot → Option Nat → Mem
  | Slot.root, v => m.set_root v
  | Slot.left p, v => m.set_left p v
  | Slot.right p, v => m.set_right p v

/-! ## The functions of `rbtree.h` -/

/-- `INIT_RB_ROOT`: `root->node = NULL`. -/
def INIT_RB_ROOT (m : Mem) : Mem :=
  m.set_root none

/-- `rb_empty`: `!root->node`. -/
def rb_empty (root : rb_root) : Bool :=
  root.node.isNone

/-- `rb_change_child`: redirect the slot of `parent` that holds `old_node`
(the left field when it holds `old_node`, the right field otherwise), or the
root handle when `parent` is `NULL`. -/
def rb_change_child (old_node : Nat) (new_node : Option Nat) (parent : Option Nat)
    (m : Mem) : Mem :=
  match parent with
  | some p =>
    if (m.heap p).left = some old_node then m.set_left p new_node
    else m.set_right p new_node
  | none => m.set_root new_node

/-- `rb_link_node`: initialise `node` as a leaf below `parent` and store it in
`*rb_link`. -/
def rb_link_node (node : Nat) (parent : Option Nat) (rb_link : Slot) (m : Mem) : Mem :=
  let m1 := m.set_parent node parent
  let m2 := m1.set_left node none
  let m3 := m2.set_right node none
  m3.store rb_link (some node)

/-- The loop `while (node->left) node = node->left;`.  The fuel bounds the
number of links followed. -/
def descend_left (heap : Nat → rb_node) : Nat → Nat → Option Nat
  | 0, node =>
    match (heap node).left with
    | none => some node
    | some _ => none
  | fuel + 1, node =>
    match (heap node).left with
    | none => some node
    | some l => descend_left heap fuel l

/-- The loop `while (node->right) node = node->right;`. -/
def descend_right (heap : Nat → rb_node) : Nat → Nat → Option Nat
  | 0, node =>
    match (heap node).right with
    | none => some node
    | some _ => none
  | fuel + 1, node =>
    match (heap node).right with
    | none => some node
    | some r => descend_right heap fuel r

/-- The loop `while (parent && parent->right == node) { node = parent;
parent = node->parent; }` of `rb_next`, returning the final `parent`. -/
def ascend_from_right (heap : Nat → rb_node) : Nat → Nat → Option Nat → Option (Option Nat)
  | _, _, none => some none
  | 0, node, some p =>
    if (heap p).right = some node then none else some (some p)
  | fuel + 1, node, some p =>
    if (heap p).right = some node then ascend_from_right heap fuel p (heap p).parent
    else some (some p)

/-- The loop `while (parent && parent->left == node) { node = parent;
parent = node->parent; }` of `rb_prev`, returning the final `parent`. -/
def ascend_from_left (heap : Nat → rb_node) : Nat → Nat → Option Nat → Option (Option Nat)
  | _, _, none => some none
  | 0, node, some p =>
    if (heap p).left = some node then none else some (some p)
  | fuel + 1, node, some p =>
    if (heap p).left = some node then ascend_from_left heap fuel p (heap p).parent
    else some (some p)

/-- `rb_first`: the leftmost node below the root handle, `NULL` for an empty
tree.  The outer option is `none` when the fuel does not suffice. -/
def rb_first (fuel : Nat) (m : Mem) : Option (Option Nat) :=
  match m.root.node with
  | none => some none
  | some node => (descend_left m.heap fuel node).map some

/-- `rb_last`: the rightmost node below the root handle. -/
def rb_last (fuel : Nat) (m : Mem) : Option (Option Nat) :=
  match m.root.node with
  | none => some none
  | some node => (descend_right m.heap fuel node).map some

/-- `rb_next`: leftmost node of the right subtree when there is a right child;
otherwise `NULL` when there is no parent; otherwise the result of the upward
loop. -/
def rb_next (fuel : Nat) (m : Mem) (node : Nat) : Option (Option Nat) :=
  match (m.heap node).right with
  | some r => (descend_left m.heap fuel r).map some
  | none =>
    match (m.heap node).parent with
    | none => some none
    | some p => ascend_from_right m.heap fuel node (some p)

/-- `rb_prev`: the mirror image of `rb_next`. -/
def rb_prev (fuel : Nat) (m : Mem) (node : Nat) : Option (Option Nat) :=
  match (m.heap node).left with
  | some l => (descend_right m.heap fuel l).map some
  | none =>
    match (m.heap node).parent with
    | none => some none
    | some p => ascend_from_left m.heap fuel node (some p)

/-- The statement `if (p) p->parent = v;`. -/
def Mem.set_parent_opt (m : Mem) (p : Option Nat) (v : Option Nat) : Mem :=
  match p with
  | some c => m.set_parent c v
  | none => m

/-- The lines "move right child of smallest one up" of `rb_erase_node`:
`if (smallest->right) smallest->right->parent = smallest->parent;` followed by
`rb_change_child(smallest, smallest->right, smallest->parent, root)`.  Every
read is performed on the memory as left by the preceding writes. -/
def erase_move_up (smallest : Nat) (m : Mem) : Mem :=
  let m1 := m.set_parent_opt (m.heap smallest).right (m.heap smallest).parent
  rb_change_child smallest (m1.heap smallest).right (m1.heap smallest).parent m1

/-- The lines "exchange node with smallest" of `rb_erase_node`.  The result is
`none` when `smallest->left` is `NULL` at the dereference
`smallest->left->parent`. -/
def erase_exchange (node smallest : Nat) (m : Mem) : Option Mem :=
  let m3 := m.set_parent smallest (m.heap node).parent
  let m4 := m3.set_left smallest (m3.heap node).left
  match (m4.heap smallest).left with
  | none => none
  | some sl =>
    let m5 := m4.set_parent sl (some smallest)
    let m6 := m5.set_right smallest (m5.heap node).right
    let m7 := m6.set_parent_opt (m6.heap smallest).right (some smallest)
    some (rb_change_child node (some smallest) (m7.heap node).parent m7)

/-- `rb_erase_node`. -/
def rb_erase_node (fuel : Nat) (node : Nat) (m : Mem) : Option Mem :=
  match (m.heap node).left, (m.heap node).right with
  | none, none =>
    some (rb_change_child node none (m.heap node).parent m)
  | some l, none =>
    let m1 := m.set_parent l (m.heap node).parent
    some (rb_change_child node (m1.heap node).left (m1.heap node).parent m1)
  | none, some r =>
    let m1 := m.set_parent r (m.heap node).parent
    some (rb_change_child node (m1.heap node).right (m1.heap node).parent m1)
  | some _, some r =>
    match descend_left m.heap fuel r with
    | none => none
    | some smallest => erase_exchange node smallest (erase_move_up smallest m)

/-- The caller's loop `for (n = rb_first(root); n; n = rb_next(n))`, collecting
the visited nodes.  `steps` bounds the number of visited nodes, `fuel` the
inner loops of `rb_next`. -/
def walk_next (fuel : Nat) (m : Mem) : Nat → Option Nat → Option (List Nat)
  | _, none => some []
  | 0, some _ => none
  | steps + 1, some n =>
    match rb_next fuel m n with
    | none => none
    | some nx => (walk_next fuel m steps nx).map (fun rest => n :: rest)

/-- In-order traversal through the API: `rb_first`, then `rb_next` until
`NULL`. -/
def traverse (fuel steps : Nat) (m : Mem) : Option (List Nat) :=
  match rb_first fuel m with
  | none => none
  | some start => walk_next fuel m steps start

/-! ## Abstract trees and the well-formedness of a memory -/

/-- A binary tree of node addresses: the shape a well-formed memory has. -/
inductive Tree where
  | nil : Tree
  | node : Tree → Nat → Tree → Tree
deriving DecidableEq

/-- Pointer to the topmost node of a tree. -/
def Tree.ptr : Tree → Option Nat
  | Tree.nil => none
  | Tree.node _ x _ => some x

/-- In-order listing: left subtree, node, right subtree. -/
def Tree.inorder : Tree → List Nat
  | Tree.nil => []
  | Tree.node l x r => l.inorder ++ x :: r.inorder

/-- Number of nodes on the longest downward path. -/
def Tree.height : Tree → Nat
  | Tree.nil => 0
  | Tree.node l _ r => max l.height r.height + 1

/-- The heap stores tree `t` below a node (or handle) `par`: every node's
left and right fields point to the tops of its subtrees and its parent field
to the node above. -/
def Shape (heap : Nat → rb_node) : Tree → Option Nat → Prop
  | Tree.nil, _ => True
  | Tree.node l x r, par =>
    (heap x).parent = par ∧ (heap x).left = l.ptr ∧ (heap x).right = r.ptr ∧
      Shape heap l (some x) ∧ Shape heap r (some x)

instance Shape.decide (heap : Nat → rb_node) : (t : Tree) → (par : Option Nat) →
    Decidable (Shape heap t par)
  | Tree.nil, _ => isTrue trivial
  | Tree.node l x r, par =>
    have := Shape.decide heap l (some x)
    have := Shape.decide heap r (some x)
    by unfold Shape; exact inferInstance

/-- Well-formed tree: the root handle points to the top of `t`, the heap has
the shape of `t` (parent, left and right links mutually consistent, root
without parent), and no node occurs twice (finite and acyclic by
construction, every node reachable from the root handle). -/
def Wf (m : Mem) (t : Tree) : Prop :=
  m.root.node = t.ptr ∧ Shape m.heap t none ∧ t.inorder.Nodup

instance Wf.decide (m : Mem) (t : Tree) : Decidable (Wf m t) := by
  unfold Wf; exact inferInstance

/-- Detach the leftmost node of the non-empty tree `node l x r`: the node
and the remaining tree, in which the right subtree of the leftmost node has
taken its place. -/
def split_min : Tree → Nat → Tree → Nat × Tree
  | Tree.nil, x, r => (x, r)
  | Tree.node ll lx lr, x, r => ((split_min ll lx lr).1, Tree.node (split_min ll lx lr).2 x r)

/-- The tree that takes the place of `node l x r` when `x` is removed: the
other subtree when one is empty, otherwise the leftmost node of `r` on top of
`l` and the rest of `r`. -/
def erase_top : Tree → Tree → Tree
  | Tree.nil, r => r
  | Tree.node ll lx lr, Tree.nil => Tree.node ll lx lr
  | Tree.node ll lx lr, Tree.node rl rx rr =>
    Tree.node (Tree.node ll lx lr) (split_min rl rx rr).1 (split_min rl rx rr).2

/-- One step of a downward path: the hole is the left child of `x` (whose
right subtree is `r`), or the right child of `x` (whose left subtree is `l`). -/
inductive Frame where
  | L : Nat → Tree → Frame
  | R : Tree → Nat → Frame
deriving DecidableEq

/-- Put a tree into the hole of a frame. -/
def Frame.plug : Frame → Tree → Tree
  | Frame.L x r, t => Tree.node t x r
  | Frame.R l x, t => Tree.node l x t

/-- The node of a frame. -/
def Frame.top : Frame → Nat
  | Frame.L x _ => x
  | Frame.R _ x => x

/-- Put a tree into the hole of a path (innermost frame first). -/
def fill : List Frame → Tree → Tree
  | [], t => t
  | f :: p, t => fill p (f.plug t)

/-- The node directly above the hole. -/
def path_par : List Frame → Option Nat
  | [] => none
  | f :: _ => some f.top

/-- The nodes listed before the hole in the in-order listing. -/
def before : List Frame → List Nat
  | [] => []
  | Frame.L _ _ :: p => before p
  | Frame.R l x :: p => before p ++ (l.inorder ++ [x])

/-- The nodes listed after the hole in the in-order listing. -/
def after : List Frame → List Nat
  | [] => []
  | Frame.L x r :: p => (x :: r.inorder) ++ after p
  | Frame.R _ _ :: p => after p

/-- The slot that holds the hole of a path. -/
def path_slot : List Frame → Slot
  | [] => Slot.root
  | Frame.L x _ :: _ => Slot.left x
  | Frame.R _ x :: _ => Slot.right x

/-- The memory stores the surroundings of a hole: the slot of the hole holds
`c`, and everything above and beside the hole has the shape of the path. -/
def ShapePath (m : Mem) : List Frame → Option Nat → Prop
  | [], c => m.root.node = c
  | Frame.L x r :: p, c =>
    (m.heap x).left = c ∧ (m.heap x).right = r.ptr ∧ Shape m.heap r (some x) ∧
      (m.heap x).parent = path_par p ∧ ShapePath m p (some x)
  | Frame.R l x :: p, c =>
    (m.heap x).right = c ∧ (m.heap x).left = l.ptr ∧ Shape m.heap l (some x) ∧
      (m.heap x).parent = path_par p ∧ ShapePath m p (some x)

/-- Nodes reached from a pointer by following child links: `false` follows
`left`, `true` follows `right`. -/
def follow (m : Mem) : List Bool → Option Nat → Option Nat
  | [], c => c
  | _ :: _, none => none
  | d :: ds, some n => follow m ds (if d then (m.heap n).right else (m.heap n).left)

/-- Node `x` is reachable from the root handle through child links. -/
def Reachable (m : Mem) (x : Nat) : Prop :=
  ∃ ds, follow m ds m.root.node = some x

/-- Two nodes follow one another in a listing. -/
def Adjacent (a b : Nat) (seq : List Nat) : Prop :=
  ∃ pre post, seq = pre ++ a :: b :: post

/-! ## A concrete memory

Seven nodes at the addresses 1 to 7, node 4 on top, all other addresses hold
nodes without links. -/

/-- Heap given by a finite table; every other address holds three `NULL`s. -/
def mk_heap (nodes : List (Nat × rb_node)) : Nat → rb_node :=
  fun k =>
    match nodes.lookup k with
    | some n => n
    | none => { parent := none, left := none, right := none }

/-- The memory of the tree `((1 2 3) 4 (5 6 7))`. -/
def ex_mem : Mem :=
  { heap := mk_heap [(4, ⟨none, some 2, some 6⟩), (2, ⟨some 4, some 1, some 3⟩),
      (6, ⟨some 4, some 5, some 7⟩), (1, ⟨some 2, none, none⟩), (3, ⟨some 2, none, none⟩),
      (5, ⟨some 6, none, none⟩), (7, ⟨some 6, none, none⟩)],
    root := ⟨some 4⟩ }

/-- A tree with a single node. -/
def leaf (x : Nat) : Tree :=
  Tree.node Tree.nil x Tree.nil

/-- The tree stored in `ex_mem`. -/
def ex_tree : Tree :=
  Tree.node (Tree.node (leaf 1) 2 (leaf 3)) 4 (Tree.node (leaf 5) 6 (leaf 7))

/-- Parent/child consistency of the nodes in the tree: the topmost node has
no parent, and every left or right child of a node reachable from the root
handle has that node as its parent. -/
def Consistent (m : Mem) : Prop :=
  (∀ r, m.root.node = some r → (m.heap r).parent = none) ∧
    ∀ a b, Reachable m a → ((m.heap a).left = some b ∨ (m.heap a).right = some b) →
      (m.heap b).parent = some a

/-- The memory with the empty tree: every address holds a node without
links, the root handle is `NULL`. -/
def empty_mem : Mem :=
  { heap := mk_heap [], root := ⟨none⟩ }

/-! ## Insertion by comparison descent and sequences of operations -/

/-- Modelled from the spec: the caller's comparison descent, whose code
(`common-treeops.h`) is not part of the sources.  Starting at the root slot,
go left when the new key is smaller than the key of the current node and
right otherwise, until the slot is empty; the result is the last node passed
(the parent) and the empty slot.  The key of a node is given by `key`, since
the keys are stored in the caller's entries. -/
def find_slot (key : Nat → Nat) (heap : Nat → rb_node) (k : Nat) :
    Nat → Option Nat → Option Nat → Slot → Option (Option Nat × Slot)
  | _, none, parent, slot => some (parent, slot)
  | 0, some _, _, _ => none
  | fuel + 1, some c, _, _ =>
    if k < key c then find_slot key heap k fuel (heap c).left (some c) (Slot.left c)
    else find_slot key heap k fuel (heap c).right (some c) (Slot.right c)

/-- Insertion: comparison descent followed by `rb_link_node`. -/
def insert_node (key : Nat → Nat) (fuel : Nat) (node : Nat) (m : Mem) : Option Mem :=
  match find_slot key m.heap (key node) fuel m.root.node none Slot.root with
  | none => none
  | some (parent, slot) => some (rb_link_node node parent slot m)

/-- An operation on the tree: insertion or removal of the node at an address. -/
inductive Op where
  | insert : Nat → Op
  | erase : Nat → Op
deriving DecidableEq

/-- Run a sequence of insertions and removals. -/
def run_ops (key : Nat → Nat) (fuel : Nat) : List Op → Mem → Option Mem
  | [], m => some m
  | Op.insert n :: ops, m =>
    match insert_node key fuel n m with
    | none => none
    | some m2 => run_ops key fuel ops m2
  | Op.erase n :: ops, m =>
    match rb_erase_node fuel n m with
    | none => none
    | some m2 => run_ops key fuel ops m2

/-- The nodes in the tree after a sequence of operations that starts with the
nodes `cur` in the tree. -/
def nodes_after : List Op → List Nat → List Nat
  | [], cur => cur
  | Op.insert n :: ops, cur => nodes_after ops (n :: cur)
  | Op.erase n :: ops, cur => nodes_after ops (cur.erase n)

/-- A sequence of operations respects the contract of the functions: only
nodes outside the tree are inserted, only nodes in the tree are erased. -/
def valid_ops : List Op → List Nat → Bool
  | [], _ => true
  | Op.insert n :: ops, cur => decide (n ∉ cur) && valid_ops ops (n :: cur)
  | Op.erase n :: ops, cur => decide (n ∈ cur) && valid_ops ops (cur.erase n)

/-- The keys along a listing of nodes are in non-decreasing order. -/
def KeySorted (key : Nat → Nat) (seq : List Nat) : Prop :=
  seq.Pairwise (fun a b => key a ≤ key b)

/-! ## The priority queue without rebalancing and the test's reference queue -/

/-- Modelled from the spec: `splay_prioqueue_insert_unbalanced`, whose code
(`common-prioqueue.h`, `splaytree.h`) is not part of the sources.  The spec
describes it as "link only, no splay": the slot is located by the comparison
descent and the item's node is attached with the link primitive.  An item is
identified with the address of its node, its value is `key item`. -/
def splay_prioqueue_insert_unbalanced (key : Nat → Nat) (fuel : Nat) (item : Nat) (m : Mem) :
    Option Mem :=
  insert_node key fuel item m

/-- Modelled from the spec: `splay_prioqueue_pop_unbalanced`, whose code is
not part of the sources.  The spec describes it as: locate the minimum via
`first`, remove it with the erase primitive without splaying, and return the
removed entry, or "empty" (`NULL`) when the queue has no nodes. -/
def splay_prioqueue_pop_unbalanced (fuel : Nat) (m : Mem) : Option (Mem × Option Nat) :=
  match rb_first fuel m with
  | none => none
  | some none => some (m, none)
  | some (some node) =>
    match rb_erase_node fuel node m with
    | none => none
    | some m2 => some (m2, some node)

/-- The loop `for (i = 0; i < queuelen; i++)` of `valuequeue_getmin` in the
test: `min_pos` is moved to index `i` when it is unset or
`valuequeue[i] < *min_pos`.  `cnt` is the number of iterations left. -/
def getmin_scan (valuequeue : List Nat) : Nat → Nat → Option Nat → Option Nat
  | 0, _, min_pos => min_pos
  | cnt + 1, i, min_pos =>
    match min_pos with
    | none => getmin_scan valuequeue cnt (i + 1) (some i)
    | some j =>
      if valuequeue.getD i 0 < valuequeue.getD j 0 then
        getmin_scan valuequeue cnt (i + 1) (some i)
      else getmin_scan valuequeue cnt (i + 1) (some j)

/-- `valuequeue_getmin` of the test: find the position of the minimum by a
linear scan, exchange that entry with the last one and return the last entry.
The list is the array `valuequeue[0 .. queuelen - 1]`; the result is the
returned value and the array after the exchange. -/
def valuequeue_getmin (valuequeue : List Nat) : Nat × List Nat :=
  match getmin_scan valuequeue valuequeue.length 0 none with
  | none => (0, valuequeue)
  | some j =>
    let t := valuequeue.getD (valuequeue.length - 1) 0
    let q1 := valuequeue.set (valuequeue.length - 1) (valuequeue.getD j 0)
    let q2 := q1.set j t
    (q2.getD (valuequeue.length - 1) 0, q2)

/-- An operation of the test's main loop: insert an item or pop. -/
inductive QOp where
  | insert : Nat → QOp
  | pop : QOp
deriving DecidableEq

/-- The queue side of the test's main loop: the items returned by the pops,
`none` for `NULL`. -/
def queue_run (key : Nat → Nat) (fuel : Nat) : List QOp → Mem → Option (Mem × List (Option Nat))
  | [], m => some (m, [])
  | QOp.insert item :: ops, m =>
    match splay_prioqueue_insert_unbalanced key fuel item m with
    | none => none
    | some m2 => queue_run key fuel ops m2
  | QOp.pop :: ops, m =>
    match splay_prioqueue_pop_unbalanced fuel m with
    | none => none
    | some (m2, item) =>
      match queue_run key fuel ops m2 with
      | none => none
      | some (m3, items) => some (m3, item :: items)

/-- The reference side of the test's main loop: an insertion stores the value
at `valuequeue[queuelen]` and increments `queuelen`; a pop with `queuelen != 0`
expects the value of `valuequeue_getmin` and decrements `queuelen`; a pop with
`queuelen == 0` expects `NULL`.  The result lists the expectation of every pop
and the final array. -/
def reference_run (key : Nat → Nat) : List QOp → List Nat → List (Option Nat) × List Nat
  | [], q => ([], q)
  | QOp.insert item :: ops, q => reference_run key ops (q ++ [key item])
  | QOp.pop :: ops, q =>
    if q.length ≠ 0 then
      ((some (valuequeue_getmin q).1) :: (reference_run key ops (valuequeue_getmin q).2.dropLast).1,
        (reference_run key ops (valuequeue_getmin q).2.dropLast).2)
    else (none :: (reference_run key ops q).1, (reference_run key ops q).2)

/-- The items inserted by a sequence of queue operations. -/
def inserted_items : List QOp → List Nat
  | [] => []
  | QOp.insert item :: ops => item :: inserted_items ops
  | QOp.pop :: ops => inserted_items ops

/-! ## The splay operation and the balanced priority queue

The splay functions (`splaytree.h`) and the priority-queue adapter
(`common-prioqueue.h`) are not part of the sources.  They are modelled from
the spec on trees of node addresses: a node is located by the path from the
root to it, as the spec's splay needs "no key comparison since the path is
already known structurally". -/

/-- Modelled from the spec: a single rotation of the edge between a node and
its parent, which is missing from the sources.  The frame holds the parent
and the parent's other subtree, the tree is the subtree of the node; the node
moves up, the parent becomes its child on the other side, and the in-order
sequence is preserved. -/
def rotate_up : Frame → Tree → Tree
  | Frame.L p c, Tree.node a x b => Tree.node a x (Tree.node b p c)
  | Frame.R c p, Tree.node a x b => Tree.node (Tree.node c p a) x b
  | f, Tree.nil => f.plug Tree.nil

/-- Modelled from the spec: one double step of the splay operation, which is
missing from the sources, for a node with parent frame `f1` and grandparent
frame `f2`.  Zig-zig (node and parent on the same side): "rotate
grandparent-parent then parent-node"; zig-zag (opposite sides): "rotate
parent-node then grandparent-parent". -/
def splay_step : Frame → Frame → Tree → Tree
  | Frame.L p c, Frame.L g d, x => rotate_up (Frame.L p (Tree.node c g d)) x
  | Frame.R c p, Frame.R d g, x => rotate_up (Frame.R (Tree.node d g c) p) x
  | Frame.R c p, Frame.L g d, x => rotate_up (Frame.L g d) (rotate_up (Frame.R c p) x)
  | Frame.L p c, Frame.R d g, x => rotate_up (Frame.R d g) (rotate_up (Frame.L p c) x)

/-- Modelled from the spec: `splay(node)`, which is missing from the sources:
"rotates node to the root through repeated application of" zig (the node is a
child of the root: single rotation), zig-zig and zig-zag. -/
def splay : List Frame → Tree → Tree
  | [], x => x
  | [f], x => rotate_up f x
  | f1 :: f2 :: rest, x => splay rest (splay_step f1 f2 x)

/-- Modelled from the spec: the descent of `first`, missing from the sources
for the splay tree: the path to the leftmost node and the subtree below it. -/
def min_path : Tree → List Frame → Option (List Frame × Tree)
  | Tree.nil, _ => none
  | Tree.node Tree.nil x r, p => some (p, Tree.node Tree.nil x r)
  | Tree.node (Tree.node ll lx lr) x r, p => min_path (Tree.node ll lx lr) (Frame.L x r :: p)

/-- Modelled from the spec: the join of the splay tree's erase, which is
missing from the sources: "join its left and right subtrees by splaying the
right subtree's minimum to its own root and attaching the left subtree as its
new left child". -/
def splay_join (l r : Tree) : Tree :=
  match min_path r [] with
  | none => l
  | some (p, x) =>
    match splay p x with
    | Tree.nil => l
    | Tree.node _ s r2 => Tree.node l s r2

/-- Modelled from the spec: erase of the splay tree, which is missing from
the sources: "splay it to the root, detach the root, then join its left and
right subtrees". -/
def splay_erase (p : List Frame) (x : Tree) : Tree :=
  match splay p x with
  | Tree.nil => Tree.nil
  | Tree.node l _ r => splay_join l r

/-- Modelled from the spec: the caller's comparison descent on the tree, which
is missing from the sources: the path to the empty slot for key `k`. -/
def descend_path (key : Nat → Nat) (k : Nat) : Tree → List Frame → List Frame
  | Tree.nil, p => p
  | Tree.node l c r, p =>
    if k < key c then descend_path key k l (Frame.L c r :: p)
    else descend_path key k r (Frame.R l c :: p)

/-- Modelled from the spec: `splay_prioqueue_insert_balanced`, which is
missing from the sources: "link then splay the new node to the root". -/
def splay_prioqueue_insert_balanced (key : Nat → Nat) (item : Nat) (queue : Tree) : Tree :=
  splay (descend_path key (key item) queue []) (leaf item)

/-- Modelled from the spec: `splay_prioqueue_pop_balanced`, which is missing
from the sources: "locate the minimum via first, remove it via erase", and
return the removed entry or "empty" when the queue has no nodes. -/
def splay_prioqueue_pop_balanced (queue : Tree) : Tree × Option Nat :=
  match min_path queue [] with
  | none => (queue, none)
  | some (p, x) => (splay_erase p x, x.ptr)

/-- Modelled from the spec: `splay_empty`, the emptiness query on the root
handle. -/
def splay_empty (queue : Tree) : Bool :=
  queue.ptr.isNone

/-- The first loop of the test: insert all items into the queue. -/
def insert_all (key : Nat → Nat) : List Nat → Tree → Tree
  | [], queue => queue
  | item :: items, queue => insert_all key items (splay_prioqueue_insert_balanced key item queue)

/-- The second loop of the test: pop `n` times, collecting the returned
items. -/
def pop_all : Nat → Tree → Tree × List (Option Nat)
  | 0, queue => (queue, [])
  | n + 1, queue =>
    ((pop_all n (splay_prioqueue_pop_balanced queue).1).1,
      (splay_prioqueue_pop_balanced queue).2 :: (pop_all n (splay_prioqueue_pop_balanced queue).1).2)

/-! ## Further definitions: root initialiser, entry recovery, key order, slots -/

/-- `DEFINE_RBROOT(root)`: `struct rb_root root = { NULL }`. -/
def DEFINE_RBROOT : rb_root :=
  { node := none }

/-- `container_of(ptr, type, member)`: `(char *)ptr - offsetof(type, member)`.
Addresses are natural numbers; `offsetof` comes from `stddef.h`, so the offset
of the member is an argument. -/
def container_of (ptr : Nat) (offset : Nat) : Nat :=
  ptr - offset

/-- `rb_entry(node, type, member)`: defined as `container_of(node, type,
member)`. -/
def rb_entry (node : Nat) (offset : Nat) : Nat :=
  container_of node offset

/-- The address of a member: the address of the record plus the offset of the
member (`&p->member`). -/
def member_address (p : Nat) (offset : Nat) : Nat :=
  p + offset

/-- The binary-search-tree order invariant: all keys in the left subtree of a
node are less than or equal to its key, all keys in its right subtree greater
than or equal. -/
def Bst (key : Nat → Nat) : Tree → Prop
  | Tree.nil => True
  | Tree.node l x r =>
    (∀ y ∈ l.inorder, key y ≤ key x) ∧ (∀ y ∈ r.inorder, key x ≤ key y) ∧ Bst key l ∧ Bst key r

instance Bst.decide (key : Nat → Nat) : (t : Tree) → Decidable (Bst key t)
  | Tree.nil => isTrue trivial
  | Tree.node l x r =>
    have := Bst.decide key l
    have := Bst.decide key r
    by unfold Bst; exact inferInstance

/-- The slot that refers to node `x`, as `rb_change_child` determines it: the
root handle when `x` has no parent, the left field of the parent when it holds
`x`, the right field of the parent otherwise. -/
def slot_of (m : Mem) (x : Nat) : Slot :=
  match (m.heap x).parent with
  | none => Slot.root
  | some p => if (m.heap p).left = some x then Slot.left p else Slot.right p

/-- The converse direction of the mutual consistency of the links, for the
nodes of a list: the node named by the parent field of a node has that node as
its left or right child. -/
def ChildOfParent (m : Mem) (nodes : List Nat) : Prop :=
  ∀ b ∈ nodes, ∀ a, (m.heap b).parent = some a →
    (m.heap a).left = some b ∨ (m.heap a).right = some b

/-! ## The red-black tree with rebalancing

`struct rb_node` of `rbtree.h` has no colour field, and the functions
`rb_insert_color` and `rb_erase_color`, which the documentation of
`rb_link_node` and `rb_erase_node` requires after every link and erase, are
not part of the sources.  The colour attribute and the two rebalancing
functions are modelled from the spec on trees whose nodes carry a colour; a
node is located by the path from the root to it, as the rebalancing walks
upward from the node.  The link structure of such a tree (`CTree.shape`) is
what the parent, left and right fields store, and the structural steps before
the rebalancing are the ones of `rb_link_node` and `rb_erase_node`. -/

/-- Modelled from the spec: the colour attribute (red | black) that the
red-black variant of a node carries; `struct rb_node` of the sources does not
declare it. -/
inductive Colour where
  | red : Colour
  | black : Colour
deriving DecidableEq

/-- Modelled from the spec: a tree of nodes with colour, left subtree,
address and right subtree; the record with a colour is missing from the
sources. -/
inductive CTree where
  | nil : CTree
  | node : Colour → CTree → Nat → CTree → CTree
deriving DecidableEq

/-- One step of a downward path in a coloured tree: the hole is the left
child of the node `x` with colour `c` and right subtree `r`, or its right
child. -/
inductive CFrame where
  | L : Colour → Nat → CTree → CFrame
  | R : Colour → CTree → Nat → CFrame
deriving DecidableEq

/-- Put a tree into the hole of a frame. -/
def CFrame.plug : CFrame → CTree → CTree
  | CFrame.L c x r, t => CTree.node c t x r
  | CFrame.R c l x, t => CTree.node c l x t

/-- The colour of the node of a frame. -/
def CFrame.colour : CFrame → Colour
  | CFrame.L c _ _ => c
  | CFrame.R c _ _ => c

/-- The subtree beside the hole of a frame. -/
def CFrame.sibling : CFrame → CTree
  | CFrame.L _ _ r => r
  | CFrame.R _ l _ => l

/-- Put a tree into the hole of a path (innermost frame first). -/
def cfill : List CFrame → CTree → CTree
  | [], t => t
  | f :: p, t => cfill p (f.plug t)

/-- The topmost node is red; an absent child counts as black. -/
def CTree.is_red : CTree → Bool
  | CTree.nil => false
  | CTree.node c _ _ _ => decide (c = Colour.red)

/-- Recolour the topmost node black. -/
def CTree.blacken : CTree → CTree
  | CTree.nil => CTree.nil
  | CTree.node _ l x r => CTree.node Colour.black l x r

/-- In-order listing of a coloured tree. -/
def CTree.inorder : CTree → List Nat
  | CTree.nil => []
  | CTree.node _ l x r => l.inorder ++ x :: r.inorder

/-- The link structure of a coloured tree: the tree of node addresses that
the parent, left and right fields of `struct rb_node` store. -/
def CTree.shape : CTree → Tree
  | CTree.nil => Tree.nil
  | CTree.node _ l x r => Tree.node l.shape x r.shape

/-- The link structure of a frame of a path. -/
def CFrame.shape : CFrame → Frame
  | CFrame.L _ x r => Frame.L x r.shape
  | CFrame.R _ l x => Frame.R l.shape x

/-- Condition (a): no red node has a red parent. -/
def CTree.no_red_red : CTree → Bool
  | CTree.nil => true
  | CTree.node c l _ r =>
    (decide (c = Colour.black) || (!l.is_red && !r.is_red)) && l.no_red_red && r.no_red_red

/-- The numbers of black nodes on the paths from the root to the absent-child
positions, one entry for every path. -/
def CTree.black_counts : CTree → List Nat
  | CTree.nil => [0]
  | CTree.node c l _ r =>
    (l.black_counts ++ r.black_counts).map (fun n => n + (if c = Colour.black then 1 else 0))

/-- The red-black invariants (a), (b) and (c) of a tree. -/
def RedBlack (t : CTree) : Prop :=
  t.no_red_red = true ∧ (∀ a ∈ t.black_counts, ∀ b ∈ t.black_counts, a = b) ∧ t.is_red = false

instance RedBlack.decide (t : CTree) : Decidable (RedBlack t) := by
  unfold RedBlack; exact inferInstance

/-- Modelled from the spec: the caller's comparison descent on the coloured
tree, which is missing from the sources: the path to the empty slot for key
`k` (left when `k` is smaller than the key of the current node, right
otherwise). -/
def rb_descend (key : Nat → Nat) (k : Nat) : CTree → List CFrame → List CFrame
  | CTree.nil, p => p
  | CTree.node c l x r, p =>
    if k < key x then rb_descend key k l (CFrame.L c x r :: p)
    else rb_descend key k r (CFrame.R c l x :: p)

/-- Modelled from the spec: the rotation of rebalance-after-insert, which is
missing from the sources, for a red node `t` with red parent frame `f1`,
black grandparent frame `f2` and black uncle: "rotate (uncle black, via a
single or double rotation)".  On the outer side a single rotation lifts the
parent, on the inner side a double rotation lifts the node; the lifted node
becomes black and the grandparent red. -/
def insert_rotate : CFrame → CFrame → CTree → CTree
  | CFrame.L _ p c, CFrame.L _ g u, t =>
    CTree.node Colour.black t p (CTree.node Colour.red c g u)
  | CFrame.R _ c p, CFrame.R _ u g, t =>
    CTree.node Colour.black (CTree.node Colour.red u g c) p t
  | CFrame.R _ c p, CFrame.L _ g u, CTree.node _ a x b =>
    CTree.node Colour.black (CTree.node Colour.red c p a) x (CTree.node Colour.red b g u)
  | CFrame.L _ p c, CFrame.R _ u g, CTree.node _ a x b =>
    CTree.node Colour.black (CTree.node Colour.red u g a) x (CTree.node Colour.red b p c)
  | f1, f2, CTree.nil => f2.plug (f1.plug CTree.nil)

/-- Modelled from the spec: the upward walk of rebalance-after-insert, which
is missing from the sources.  "While the current node's parent is red":
with a red uncle "recolor parent+uncle and continue from grandparent", with a
black uncle "rotate and terminate"; it "terminates when reaching a black
parent or the root". -/
def insert_fixup : List CFrame → CTree → CTree
  | [], t => t
  | [f], t => f.plug t
  | f1 :: f2 :: rest, t =>
    if f1.colour = Colour.black then cfill (f1 :: f2 :: rest) t
    else if f2.sibling.is_red then
      match f1, f2 with
      | CFrame.L _ p c, CFrame.L _ g u =>
        insert_fixup rest
          (CTree.node Colour.red (CTree.node Colour.black t p c) g u.blacken)
      | CFrame.R _ c p, CFrame.L _ g u =>
        insert_fixup rest
          (CTree.node Colour.red (CTree.node Colour.black c p t) g u.blacken)
      | CFrame.L _ p c, CFrame.R _ u g =>
        insert_fixup rest
          (CTree.node Colour.red u.blacken g (CTree.node Colour.black t p c))
      | CFrame.R _ c p, CFrame.R _ u g =>
        insert_fixup rest
          (CTree.node Colour.red u.blacken g (CTree.node Colour.black c p t))
    else cfill rest (insert_rotate f1 f2 t)

/-- Modelled from the spec: rebalance-after-insert (`rb_insert_color`), which
is missing from the sources: the upward walk, and "root is always recolored
black as a final step". -/
def rb_insert_color (p : List CFrame) (t : CTree) : CTree :=
  (insert_fixup p t).blacken

/-- Modelled from the spec: insertion into the red-black tree: comparison
descent, link as a leaf as `rb_link_node` does it on the links ("freshly
linked nodes are red"), then rebalance-after-insert. -/
def rb_insert (key : Nat → Nat) (node : Nat) (t : CTree) : CTree :=
  rb_insert_color (rb_descend key (key node) t [])
    (CTree.node Colour.red CTree.nil node CTree.nil)

/-- Modelled from the spec: one step of rebalance-after-delete, which is
missing from the sources, for a deficient left subtree `t` of a node `x` with
colour `c` and black sibling `s`.  "Black sibling with at least one red child
→ rotate and recolor to absorb the deficiency" (far child red: single
rotation; only the near child red: double rotation); "black sibling with black
children → recolor and propagate deficiency upward" (the sibling becomes red;
a red parent becomes black and absorbs the deficiency).  The result is the
new subtree and whether the deficiency remains above it. -/
def delete_left (c : Colour) (t : CTree) (x : Nat) : CTree → CTree × Bool
  | CTree.nil => (CTree.node c t x CTree.nil, true)
  | CTree.node _ sl sx sr =>
    if sr.is_red then
      (CTree.node c (CTree.node Colour.black t x sl) sx sr.blacken, false)
    else
      match sl with
      | CTree.node Colour.red sll slx slr =>
        (CTree.node c (CTree.node Colour.black t x sll) slx (CTree.node Colour.black slr sx sr),
          false)
      | _ =>
        (CTree.node Colour.black t x (CTree.node Colour.red sl sx sr),
          decide (c = Colour.black))

/-- Modelled from the spec: the mirror image of `delete_left`, for a deficient
right subtree. -/
def delete_right (c : Colour) (t : CTree) (x : Nat) : CTree → CTree × Bool
  | CTree.nil => (CTree.node c CTree.nil x t, true)
  | CTree.node _ sl sx sr =>
    if sl.is_red then
      (CTree.node c sl.blacken sx (CTree.node Colour.black sr x t), false)
    else
      match sr with
      | CTree.node Colour.red srl srx srr =>
        (CTree.node c (CTree.node Colour.black sl sx srl) srx (CTree.node Colour.black srr x t),
          false)
      | _ =>
        (CTree.node Colour.black (CTree.node Colour.red sl sx sr) x t,
          decide (c = Colour.black))

/-- Modelled from the spec: rebalance-after-delete (`rb_erase_color`), which
is missing from the sources, for the subtree `t` at the vacated position at
the end of path `p`.  It "walks upward resolving a double-black deficiency":
a red node at the position absorbs it by becoming black; "red sibling →
rotate", after which the sibling is black and the parent red; otherwise the
step for a black sibling; it "terminates at the root or upon absorbing the
deficiency". -/
def rb_erase_color : List CFrame → CTree → CTree
  | [], t => t.blacken
  | CFrame.L c x s :: rest, t =>
    if t.is_red then cfill (CFrame.L c x s :: rest) t.blacken
    else
      match s with
      | CTree.node Colour.red sl sx sr =>
        cfill rest (CTree.node Colour.black (delete_left Colour.red t x sl).1 sx sr)
      | _ =>
        if (delete_left c t x s).2 then rb_erase_color rest (delete_left c t x s).1
        else cfill rest (delete_left c t x s).1
  | CFrame.R c s x :: rest, t =>
    if t.is_red then cfill (CFrame.R c s x :: rest) t.blacken
    else
      match s with
      | CTree.node Colour.red sl sx sr =>
        cfill rest (CTree.node Colour.black sl sx (delete_right Colour.red t x sr).1)
      | _ =>
        if (delete_right c t x s).2 then rb_erase_color rest (delete_right c t x s).1
        else cfill rest (delete_right c t x s).1

/-- Modelled from the spec: the search of the in-order successor in the
coloured tree: the path to the leftmost node and the subtree below it. -/
def cmin_path : CTree → List CFrame → Option (List CFrame × CTree)
  | CTree.nil, _ => none
  | CTree.node c CTree.nil x r, p => some (p, CTree.node c CTree.nil x r)
  | CTree.node c (CTree.node lc ll lx lr) x r, p =>
    cmin_path (CTree.node lc ll lx lr) (CFrame.L c x r :: p)

/-- Modelled from the spec: the rebalancing decision after a structural
removal: "a structural removal of a red node requires no further fix-up",
"removal of a black node triggers rebalance-after-delete" at the vacated
position. -/
def erase_rebalance (removed : Colour) (p : List CFrame) (t : CTree) : CTree :=
  if removed = Colour.red then cfill p t else rb_erase_color p t

/-- Modelled from the spec: the structural part of erase on the coloured
tree for the node at the end of path `p`, as `rb_erase_node` performs it on
the links; the colours are missing from the sources.  Without children the
node is detached; with one child the child is spliced into its slot; with two
children the in-order successor takes the position and the colour of the
node, and its own right subtree moves into the gap it vacated.  The result is
the colour of the node removed from the physical structure, the path to the
vacated position and the subtree now at that position. -/
def rb_unlink (p : List CFrame) : CTree → Colour × List CFrame × CTree
  | CTree.nil => (Colour.red, p, CTree.nil)
  | CTree.node c CTree.nil _ r => (c, p, r)
  | CTree.node c (CTree.node lc ll lx lr) _ CTree.nil => (c, p, CTree.node lc ll lx lr)
  | CTree.node c (CTree.node lc ll lx lr) _ (CTree.node rc rl rx rr) =>
    match cmin_path (CTree.node rc rl rx rr) [] with
    | some (q, CTree.node sc _ s sr) =>
      (sc, q ++ CFrame.R c (CTree.node lc ll lx lr) s :: p, sr)
    | _ => (Colour.red, p, CTree.node lc ll lx lr)

/-- Modelled from the spec: erase of the node at the end of path `p` of the
red-black tree: the structural removal, then the rebalancing decided by the
colour of the node removed from the physical structure. -/
def rb_erase_at (p : List CFrame) (sub : CTree) : CTree :=
  erase_rebalance (rb_unlink p sub).1 (rb_unlink p sub).2.1 (rb_unlink p sub).2.2

/-- Modelled from the spec: the node to erase is known by its address; the
path to it and the subtree below it. -/
def rb_locate (x : Nat) : CTree → List CFrame → Option (List CFrame × CTree)
  | CTree.nil, _ => none
  | CTree.node c l y r, p =>
    if y = x then some (p, CTree.node c l y r)
    else
      match rb_locate x l (CFrame.L c y r :: p) with
      | some found => some found
      | none => rb_locate x r (CFrame.R c l y :: p)

/-- Modelled from the spec: erase of a node of the red-black tree followed by
rebalance-after-delete; a node that is not in the tree leaves it unchanged. -/
def rb_erase (x : Nat) (t : CTree) : CTree :=
  match rb_locate x t [] with
  | none => t
  | some (p, sub) => rb_erase_at p sub

section setters

variable (m : Mem) (n k : Nat) (v : Option Nat)

@[simp] theorem set_parent_parent :
    ((m.set_parent n v).heap k).parent = if k = n then v else (m.heap k).parent := by
  unfold Mem.set_parent; by_cases h : k = n <;> simp [h]

@[simp] theorem set_parent_left : ((m.set_parent n v).heap k).left = (m.heap k).left := by
  unfold Mem.set_parent; by_cases h : k = n <;> simp [h]

@[simp] theorem set_parent_right : ((m.set_parent n v).heap k).right = (m.heap k).right := by
  unfold Mem.set_parent; by_cases h : k = n <;> simp [h]

@[simp] theorem set_parent_root : (m.set_parent n v).root = m.root := rfl

@[simp] theorem set_left_left :
    ((m.set_left n v).heap k).left = if k = n then v else (m.heap k).left := by
  unfold Mem.set_left; by_cases h : k = n <;> simp [h]

@[simp] theorem set_left_parent : ((m.set_left n v).heap k).parent = (m.heap k).parent := by
  unfold Mem.set_left; by_cases h : k = n <;> simp [h]

@[simp] theorem set_left_right : ((m.set_left n v).heap k).right = (m.heap k).right := by
  unfold Mem.set_left; by_cases h : k = n <;> simp [h]

@[simp] theorem set_left_root : (m.set_left n v).root = m.root := rfl

@[simp] theorem set_right_right :
    ((m.set_right n v).heap k).right = if k = n then v else (m.heap k).right := by
  unfold Mem.set_right; by_cases h : k = n <;> simp [h]

@[simp] theorem set_right_parent : ((m.set_right n v).heap k).parent = (m.heap k).parent := by
  unfold Mem.set_right; by_cases h : k = n <;> simp [h]

@[simp] theorem set_right_left : ((m.set_right n v).heap k).left = (m.heap k).left := by
  unfold Mem.set_right; by_cases h : k = n <;> simp [h]

@[simp] theorem set_right_root : (m.set_right n v).root = m.root := rfl

@[simp] theorem set_root_heap : (m.set_root v).heap = m.heap := rfl

@[simp] theorem set_root_node : (m.set_root v).root.node = v := rfl

end setters

theorem rb_node_ext {a b : rb_node} (hp : a.parent = b.parent) (hl : a.left = b.left)
    (hr : a.right = b.right) : a = b := by
  cases a; cases b; simp_all

/-! ## Shape lemmas -/

theorem ptr_mem {t : Tree} {x : Nat} (h : t.ptr = some x) : x ∈ t.inorder := by
  cases t with
  | nil => simp [Tree.ptr] at h
  | node l y r =>
    simp only [Tree.ptr, Option.some.injEq] at h
    subst h
    simp [Tree.inorder]

theorem shape_congr {h1 h2 : Nat → rb_node} :
    ∀ (t : Tree) (par : Option Nat), (∀ n ∈ t.inorder, h2 n = h1 n) →
      Shape h1 t par → Shape h2 t par
  | Tree.nil, _, _, _ => trivial
  | Tree.node l x r, par, hagree, hs => by
    obtain ⟨hp, hl, hr, hsl, hsr⟩ := hs
    have hx : h2 x = h1 x := hagree x (by simp [Tree.inorder])
    refine ⟨by rw [hx]; exact hp, by rw [hx]; exact hl, by rw [hx]; exact hr, ?_, ?_⟩
    · exact shape_congr l (some x) (fun n hn => hagree n (by simp [Tree.inorder, hn])) hsl
    · exact shape_congr r (some x) (fun n hn => hagree n (by simp [Tree.inorder, hn])) hsr

theorem inorder_fill : ∀ (p : List Frame) (t : Tree),
    (fill p t).inorder = before p ++ (t.inorder ++ after p)
  | [], t => by simp [fill, before, after]
  | Frame.L x r :: p, t => by
    simp [fill, Frame.plug, before, after, inorder_fill p, Tree.inorder]
  | Frame.R l x :: p, t => by
    simp [fill, Frame.plug, before, after, inorder_fill p, Tree.inorder]

theorem shape_fill (m : Mem) : ∀ (p : List Frame) (t : Tree),
    (m.root.node = (fill p t).ptr ∧ Shape m.heap (fill p t) none) ↔
      (ShapePath m p t.ptr ∧ Shape m.heap t (path_par p))
  | [], t => by simp [fill, ShapePath, path_par]
  | Frame.L x r :: p, t => by
    rw [fill, shape_fill m p]
    simp only [Frame.plug, Shape, ShapePath, Tree.ptr, path_par, Frame.top]
    tauto
  | Frame.R l x :: p, t => by
    rw [fill, shape_fill m p]
    simp only [Frame.plug, Shape, ShapePath, Tree.ptr, path_par, Frame.top]
    tauto

theorem wf_fill (m : Mem) (p : List Frame) (t : Tree) :
    Wf m (fill p t) ↔
      (ShapePath m p t.ptr ∧ Shape m.heap t (path_par p) ∧
        (before p ++ (t.inorder ++ after p)).Nodup) := by
  unfold Wf
  rw [← and_assoc, shape_fill, inorder_fill, and_assoc]

theorem fill_append : ∀ (p q : List Frame) (t : Tree), fill (p ++ q) t = fill q (fill p t)
  | [], _, _ => rfl
  | f :: p, q, t => by
    simp only [List.cons_append, fill]
    exact fill_append p q (f.plug t)

theorem mem_split : ∀ (t : Tree) (x : Nat), x ∈ t.inorder →
    ∃ p l r, t = fill p (Tree.node l x r)
  | Tree.nil, x, h => by simp [Tree.inorder] at h
  | Tree.node l y r, x, h => by
    simp only [Tree.inorder, List.mem_append, List.mem_cons] at h
    rcases h with h | h | h
    · obtain ⟨p, l1, r1, e⟩ := mem_split l x h
      refine ⟨p ++ [Frame.L y r], l1, r1, ?_⟩
      rw [fill_append, ← e]
      rfl
    · subst h
      exact ⟨[], l, r, rfl⟩
    · obtain ⟨p, l1, r1, e⟩ := mem_split r x h
      refine ⟨p ++ [Frame.R l y], l1, r1, ?_⟩
      rw [fill_append, ← e]
      rfl

theorem set_parent_heap_ne (m : Mem) {n k : Nat} (v : Option Nat) (h : k ≠ n) :
    (m.set_parent n v).heap k = m.heap k := by
  apply rb_node_ext <;> simp [h]

theorem set_left_heap_ne (m : Mem) {n k : Nat} (v : Option Nat) (h : k ≠ n) :
    (m.set_left n v).heap k = m.heap k := by
  apply rb_node_ext <;> simp [h]

theorem set_right_heap_ne (m : Mem) {n k : Nat} (v : Option Nat) (h : k ≠ n) :
    (m.set_right n v).heap k = m.heap k := by
  apply rb_node_ext <;> simp [h]

theorem set_parent_opt_heap_ne (m : Mem) {k : Nat} (c v : Option Nat) (h : c ≠ some k) :
    (m.set_parent_opt c v).heap k = m.heap k := by
  cases c with
  | none => rfl
  | some n =>
    have : k ≠ n := fun e => h (by rw [e])
    exact set_parent_heap_ne m v this

@[simp] theorem set_parent_opt_root (m : Mem) (c v : Option Nat) :
    (m.set_parent_opt c v).root = m.root := by
  cases c <;> rfl

@[simp] theorem set_parent_opt_left (m : Mem) (c v : Option Nat) (k : Nat) :
    ((m.set_parent_opt c v).heap k).left = (m.heap k).left := by
  cases c <;> simp [Mem.set_parent_opt]

@[simp] theorem set_parent_opt_right (m : Mem) (c v : Option Nat) (k : Nat) :
    ((m.set_parent_opt c v).heap k).right = (m.heap k).right := by
  cases c <;> simp [Mem.set_parent_opt]

theorem set_parent_opt_parent (m : Mem) (c v : Option Nat) (k : Nat) :
    ((m.set_parent_opt c v).heap k).parent = if c = some k then v else (m.heap k).parent := by
  cases c with
  | none => simp [Mem.set_parent_opt]
  | some n =>
    simp only [Mem.set_parent_opt, set_parent_parent, Option.some.injEq]
    by_cases h : k = n
    · simp [h]
    · have : ¬ n = k := fun e => h e.symm
      simp [h, this]

theorem change_child_heap_ne (old_node : Nat) (new_node par : Option Nat) (m : Mem) {k : Nat}
    (h : par ≠ some k) : (rb_change_child old_node new_node par m).heap k = m.heap k := by
  cases par with
  | none => rfl
  | some q =>
    have hk : k ≠ q := fun e => h (by rw [e])
    unfold rb_change_child
    simp only
    split
    · exact set_left_heap_ne m _ hk
    · exact set_right_heap_ne m _ hk

@[simp] theorem change_child_parent (old_node : Nat) (new_node par : Option Nat) (m : Mem)
    (k : Nat) : ((rb_change_child old_node new_node par m).heap k).parent = (m.heap k).parent := by
  cases par with
  | none => rfl
  | some q =>
    unfold rb_change_child
    simp only
    split <;> simp

theorem change_child_root_some (old_node : Nat) (new_node : Option Nat) (q : Nat) (m : Mem) :
    (rb_change_child old_node new_node (some q) m).root = m.root := by
  unfold rb_change_child
  simp only
  split <;> rfl

theorem shapePath_congr {m1 m2 : Mem} (hroot : m2.root = m1.root) :
    ∀ (p : List Frame) (c : Option Nat), (∀ n ∈ before p ++ after p, m2.heap n = m1.heap n) →
      ShapePath m1 p c → ShapePath m2 p c
  | [], c, _, h => by simpa [ShapePath, hroot] using h
  | Frame.L x r :: p, c, hagree, h => by
    obtain ⟨h1, h2, h3, h4, h5⟩ := h
    have hx : m2.heap x = m1.heap x := hagree x (by simp [after])
    refine ⟨by rw [hx]; exact h1, by rw [hx]; exact h2, ?_, by rw [hx]; exact h4, ?_⟩
    · exact shape_congr r _ (fun n hn => hagree n (by simp [after, hn])) h3
    · refine shapePath_congr hroot p _ (fun n hn => hagree n ?_) h5
      simp only [before, after, List.mem_append, List.mem_cons] at hn ⊢
      tauto
  | Frame.R l x :: p, c, hagree, h => by
    obtain ⟨h1, h2, h3, h4, h5⟩ := h
    have hx : m2.heap x = m1.heap x := hagree x (by simp [before])
    refine ⟨by rw [hx]; exact h1, by rw [hx]; exact h2, ?_, by rw [hx]; exact h4, ?_⟩
    · exact shape_congr l _ (fun n hn => hagree n (by simp [before, hn])) h3
    · refine shapePath_congr hroot p _ (fun n hn => hagree n ?_) h5
      simp only [before, after, List.mem_append, List.mem_cons] at hn ⊢
      tauto

theorem shape_reparent (m : Mem) (t : Tree) (par new_par : Option Nat)
    (hs : Shape m.heap t par) (hnd : t.inorder.Nodup) :
    Shape (m.set_parent_opt t.ptr new_par).heap t new_par := by
  cases t with
  | nil => trivial
  | node l x r =>
    obtain ⟨_, hl, hr, hsl, hsr⟩ := hs
    simp only [Tree.inorder] at hnd
    have hxl : x ∉ l.inorder := by
      intro h
      exact (List.nodup_append.mp hnd).2.2 h (by simp)
    have hxr : x ∉ r.inorder := by
      have := (List.nodup_append.mp hnd).2.1
      exact (List.nodup_cons.mp this).1
    simp only [Tree.ptr, Mem.set_parent_opt]
    refine ⟨by simp, by simpa using hl, by simpa using hr, ?_, ?_⟩
    · exact shape_congr l _
        (fun n hn => set_parent_heap_ne m _ (fun e => hxl (e ▸ hn))) hsl
    · exact shape_congr r _
        (fun n hn => set_parent_heap_ne m _ (fun e => hxr (e ▸ hn))) hsr

theorem shapePath_change_child (m : Mem) (old_node : Nat) (new_node : Option Nat) :
    ∀ (p : List Frame), ShapePath m p (some old_node) → (before p ++ after p).Nodup →
      old_node ∉ before p ++ after p →
      ShapePath (rb_change_child old_node new_node (path_par p) m) p new_node
  | [], _, _, _ => by simp [ShapePath, path_par, rb_change_child]
  | Frame.L x r :: p, h, hnd, _ => by
    obtain ⟨h1, h2, h3, h4, h5⟩ := h
    simp only [before, after, List.cons_append] at hnd
    have hnd2 := List.nodup_middle.mp hnd
    have hx : x ∉ before p ++ (r.inorder ++ after p) := (List.nodup_cons.mp hnd2).1
    simp only [List.mem_append, not_or] at hx
    simp only [path_par, Frame.top, rb_change_child, h1, if_true]
    refine ⟨by simp, by simpa using h2, ?_, by simpa using h4, ?_⟩
    · exact shape_congr r _ (fun n hn => set_left_heap_ne m _ (fun e => hx.2.1 (e ▸ hn))) h3
    · refine @shapePath_congr m (m.set_left x new_node) rfl p _
        (fun n hn => set_left_heap_ne m _ (fun e => ?_)) h5
      subst e
      simp only [List.mem_append] at hn
      tauto
  | Frame.R l x :: p, h, hnd, hold => by
    obtain ⟨h1, h2, h3, h4, h5⟩ := h
    simp only [before, after, List.append_assoc, List.singleton_append] at hnd hold
    have hnd1 : (before p ++ (l.inorder ++ x :: after p)).Nodup := by simpa using hnd
    rw [← List.append_assoc] at hnd1
    have hnd2 := List.nodup_middle.mp hnd1
    have hx : x ∉ (before p ++ l.inorder) ++ after p := (List.nodup_cons.mp hnd2).1
    simp only [List.mem_append, not_or] at hx
    have hne : ¬ (m.heap x).left = some old_node := by
      rw [h2]
      intro e
      apply hold
      simp [ptr_mem e]
    simp only [path_par, Frame.top, rb_change_child, hne, if_false]
    refine ⟨by simp, by simpa using h2, ?_, by simpa using h4, ?_⟩
    · exact shape_congr l _ (fun n hn => set_right_heap_ne m _ (fun e => hx.1.2 (e ▸ hn))) h3
    · refine @shapePath_congr m (m.set_right x new_node) rfl p _
        (fun n hn => set_right_heap_ne m _ (fun e => ?_)) h5
      subst e
      simp only [List.mem_append] at hn
      tauto

theorem path_par_mem {p : List Frame} {q : Nat} (h : path_par p = some q) :
    q ∈ before p ++ after p := by
  cases p with
  | nil => simp [path_par] at h
  | cons f p =>
    simp only [path_par, Option.some.injEq] at h
    subst h
    cases f <;> simp [before, after, Frame.top]

/-- Replacing a node by one of its subtrees: the assignment `c->parent =
parent` (when `c` exists) followed by `rb_change_child`. -/
theorem splice (m : Mem) (p : List Frame) (x : Nat) (c : Tree)
    (hp : ShapePath m p (some x)) (hc : Shape m.heap c (some x))
    (hnd : (before p ++ (c.inorder ++ after p)).Nodup)
    (hx : x ∉ before p ++ (c.inorder ++ after p)) :
    ShapePath (rb_change_child x c.ptr (path_par p) (m.set_parent_opt c.ptr (path_par p))) p c.ptr ∧
      Shape (rb_change_child x c.ptr (path_par p) (m.set_parent_opt c.ptr (path_par p))).heap c
        (path_par p) := by
  have hndc : c.inorder.Nodup := (List.nodup_append.mp (List.nodup_append.mp hnd).2.1).1
  have hndp : (before p ++ after p).Nodup := by
    have := hnd
    rw [← List.append_assoc] at this
    have h2 := List.nodup_append.mp this
    have h3 := List.nodup_append.mp h2.1
    refine List.nodup_append.mpr ⟨h3.1, h2.2.1, ?_⟩
    intro a ha hb
    exact h2.2.2 (List.mem_append_left _ ha) hb
  have hdisj : ∀ n ∈ before p ++ after p, n ∉ c.inorder := by
    intro n hn hnc
    simp only [List.mem_append] at hn
    have h2 := List.nodup_append.mp hnd
    rcases hn with hn | hn
    · exact h2.2.2 hn (by simp [hnc])
    · have h3 := List.nodup_append.mp h2.2.1
      exact h3.2.2 hnc hn
  have hxp : x ∉ before p ++ after p := by
    simp only [List.mem_append, not_or] at hx ⊢
    tauto
  constructor
  · apply shapePath_change_child _ _ _ _ _ hndp hxp
    refine shapePath_congr (by simp) p _ (fun n hn => ?_) hp
    apply set_parent_opt_heap_ne
    intro e
    exact hdisj n hn (ptr_mem e)
  · refine shape_congr c _ (fun n hn => ?_) (shape_reparent m c _ _ hc hndc)
    apply change_child_heap_ne
    intro e
    exact hdisj n (path_par_mem e) hn

theorem before_append : ∀ (p q : List Frame), before (p ++ q) = before q ++ before p
  | [], q => by simp [before]
  | Frame.L x r :: p, q => by simp [before, before_append p q]
  | Frame.R l x :: p, q => by simp [before, before_append p q]

theorem after_append : ∀ (p q : List Frame), after (p ++ q) = after p ++ after q
  | [], q => by simp [after]
  | Frame.L x r :: p, q => by simp [after, after_append p q]
  | Frame.R l x :: p, q => by simp [after, after_append p q]

theorem height_fill_mono : ∀ (p : List Frame) (a b : Tree), a.height ≤ b.height →
    (fill p a).height ≤ (fill p b).height
  | [], _, _, h => h
  | Frame.L x r :: p, a, b, h => by
    apply height_fill_mono p
    simp only [Frame.plug, Tree.height]
    omega
  | Frame.R l x :: p, a, b, h => by
    apply height_fill_mono p
    simp only [Frame.plug, Tree.height]
    omega

theorem height_le_fill : ∀ (p : List Frame) (a : Tree), a.height ≤ (fill p a).height
  | [], _ => le_refl _
  | Frame.L x r :: p, a => by
    refine le_trans ?_ (height_le_fill p _)
    simp only [Frame.plug, Tree.height]
    omega
  | Frame.R l x :: p, a => by
    refine le_trans ?_ (height_le_fill p _)
    simp only [Frame.plug, Tree.height]
    omega

/-- The leftmost node sits at the end of a path of left steps. -/
theorem split_min_spine : ∀ (l : Tree) (x : Nat) (r : Tree), ∃ q sr,
    Tree.node l x r = fill q (Tree.node Tree.nil (split_min l x r).1 sr) ∧
      (split_min l x r).2 = fill q sr ∧ before q = []
  | Tree.nil, x, r => ⟨[], r, rfl, rfl, rfl⟩
  | Tree.node ll lx lr, x, r => by
    obtain ⟨q, sr, h1, h2, h3⟩ := split_min_spine ll lx lr
    refine ⟨q ++ [Frame.L x r], sr, ?_, ?_, ?_⟩
    · rw [fill_append]
      simp only [split_min]
      rw [← h1]; rfl
    · rw [fill_append]
      simp only [split_min]
      rw [← h2]; rfl
    · rw [before_append, h3]; rfl

theorem split_min_inorder : ∀ (l : Tree) (x : Nat) (r : Tree),
    (Tree.node l x r).inorder = (split_min l x r).1 :: (split_min l x r).2.inorder
  | Tree.nil, x, r => by simp [split_min, Tree.inorder]
  | Tree.node ll lx lr, x, r => by
    have ih := split_min_inorder ll lx lr
    simp only [Tree.inorder] at ih
    simp [split_min, Tree.inorder, ih]

theorem split_min_height : ∀ (l : Tree) (x : Nat) (r : Tree),
    (split_min l x r).2.height ≤ (Tree.node l x r).height
  | Tree.nil, x, r => by simp [split_min, Tree.height]
  | Tree.node ll lx lr, x, r => by
    have ih := split_min_height ll lx lr
    simp only [split_min, Tree.height] at ih ⊢
    omega

/-- The successor search of `rb_erase_node` and the loop of `rb_first` find
the leftmost node when the fuel covers the height. -/
theorem descend_left_split_min (heap : Nat → rb_node) : ∀ (l : Tree) (x : Nat) (r : Tree)
    (par : Option Nat) (fuel : Nat), Shape heap (Tree.node l x r) par →
      (Tree.node l x r).height ≤ fuel + 1 →
      descend_left heap fuel x = some (split_min l x r).1
  | Tree.nil, x, r, par, fuel, hs, _ => by
    have hl : (heap x).left = none := hs.2.1
    cases fuel <;> simp [descend_left, hl, split_min]
  | Tree.node ll lx lr, x, r, par, fuel, hs, hf => by
    have hl : (heap x).left = some lx := hs.2.1
    cases fuel with
    | zero =>
      simp only [Tree.height] at hf
      omega
    | succ f =>
      simp only [descend_left, hl, split_min]
      apply descend_left_split_min heap ll lx lr (some x) f hs.2.2.2.1
      simp only [Tree.height] at hf ⊢
      omega

theorem erase_top_inorder (l r : Tree) : (erase_top l r).inorder = l.inorder ++ r.inorder := by
  cases l with
  | nil => simp [erase_top, Tree.inorder]
  | node ll lx lr =>
    cases r with
    | nil => simp [erase_top, Tree.inorder]
    | node rl rx rr =>
      simp only [erase_top]
      rw [Tree.inorder, ← split_min_inorder]

theorem erase_top_height (l : Tree) (x : Nat) (r : Tree) :
    (erase_top l r).height ≤ (Tree.node l x r).height := by
  cases l with
  | nil => simp [erase_top, Tree.height]
  | node ll lx lr =>
    cases r with
    | nil => simp [erase_top, Tree.height]
    | node rl rx rr =>
      have := split_min_height rl rx rr
      simp only [erase_top, Tree.height] at this ⊢
      omega

theorem nodup_remove_mid {α : Type} {a c : List α} {x : α} {b d : List α}
    (h : (a ++ ((b ++ x :: c) ++ d)).Nodup) :
    (a ++ ((b ++ c) ++ d)).Nodup ∧ x ∉ a ++ ((b ++ c) ++ d) := by
  have e : a ++ ((b ++ x :: c) ++ d) = (a ++ b) ++ x :: (c ++ d) := by simp
  rw [e] at h
  have h2 := List.nodup_middle.mp h
  have h3 := List.nodup_cons.mp h2
  have e2 : a ++ ((b ++ c) ++ d) = (a ++ b) ++ (c ++ d) := by simp
  rw [e2]
  exact ⟨h3.2, h3.1⟩

/-- Removal of a node without left child (cases "no child" and "one child,
right" of `rb_erase_node`). -/
theorem erase_no_left (m : Mem) (p : List Frame) (x : Nat) (r : Tree) (fuel : Nat)
    (hwf : Wf m (fill p (Tree.node Tree.nil x r))) :
    ∃ m2, rb_erase_node fuel x m = some m2 ∧ Wf m2 (fill p r) := by
  rw [wf_fill] at hwf
  obtain ⟨hp, ⟨hpar, hl, hr, _, hsr⟩, hnd⟩ := hwf
  simp only [Tree.ptr] at hp hl
  simp only [Tree.inorder, List.nil_append] at hnd
  have hnd2 := @nodup_remove_mid _ (before p) r.inorder x [] (after p) (by simpa using hnd)
  simp only [List.nil_append] at hnd2
  have hsp := splice m p x r hp hsr hnd2.1 hnd2.2
  cases r with
  | nil =>
    simp only [Tree.ptr] at hr hsp
    refine ⟨rb_change_child x none (path_par p) m, ?_, ?_⟩
    · simp [rb_erase_node, hl, hr, hpar]
    · rw [wf_fill]
      exact ⟨hsp.1, hsp.2, hnd2.1⟩
  | node rl rx rr =>
    simp only [Tree.ptr] at hr hsp
    have hne : x ≠ rx := by
      intro e
      apply hnd2.2
      simp [Tree.inorder, e]
    refine ⟨_, ?_, by rw [wf_fill]; exact ⟨hsp.1, hsp.2, hnd2.1⟩⟩
    simp [rb_erase_node, hl, hr, hpar, hne, Mem.set_parent_opt]

/-- Removal of a node without right child (case "one child, left" of
`rb_erase_node`). -/
theorem erase_no_right (m : Mem) (p : List Frame) (x : Nat) (ll : Tree) (lx : Nat) (lr : Tree)
    (fuel : Nat) (hwf : Wf m (fill p (Tree.node (Tree.node ll lx lr) x Tree.nil))) :
    ∃ m2, rb_erase_node fuel x m = some m2 ∧ Wf m2 (fill p (Tree.node ll lx lr)) := by
  rw [wf_fill] at hwf
  obtain ⟨hp, ⟨hpar, hl, hr, hsl, _⟩, hnd⟩ := hwf
  simp only [Tree.ptr] at hp hl hr
  have hnd2 := @nodup_remove_mid _ (before p) [] x (Tree.node ll lx lr).inorder (after p)
    (by simpa [Tree.inorder] using hnd)
  simp only [List.append_nil] at hnd2
  have hsp := splice m p x (Tree.node ll lx lr) hp hsl hnd2.1 hnd2.2
  simp only [Tree.ptr] at hsp
  have hne : x ≠ lx := by
    intro e
    apply hnd2.2
    simp [Tree.inorder, e]
  refine ⟨_, ?_, by rw [wf_fill]; exact ⟨hsp.1, hsp.2, hnd2.1⟩⟩
  simp [rb_erase_node, hl, hr, hpar, hne, Mem.set_parent_opt]

/-- The lines "move right child of smallest one up": a node without left
child is taken out of the tree, its right subtree takes its place. -/
theorem move_up_wf (m : Mem) (p : List Frame) (s : Nat) (sr : Tree)
    (hwf : Wf m (fill p (Tree.node Tree.nil s sr))) :
    Wf (erase_move_up s m) (fill p sr) := by
  rw [wf_fill] at hwf
  obtain ⟨hp, ⟨hpar, hl, hr, _, hsr⟩, hnd⟩ := hwf
  simp only [Tree.ptr] at hp hl
  simp only [Tree.inorder, List.nil_append] at hnd
  have hnd2 := @nodup_remove_mid _ (before p) sr.inorder s [] (after p) (by simpa using hnd)
  simp only [List.nil_append] at hnd2
  have hsp := splice m p s sr hp hsr hnd2.1 hnd2.2
  have hne : sr.ptr ≠ some s := by
    intro e
    apply hnd2.2
    simp [ptr_mem e]
  have e : erase_move_up s m =
      rb_change_child s sr.ptr (path_par p) (m.set_parent_opt sr.ptr (path_par p)) := by
    simp [erase_move_up, hr, hpar, set_parent_opt_parent, hne]
  rw [e, wf_fill]
  exact ⟨hsp.1, hsp.2, hnd2.1⟩

theorem nodup_replace_mid {α : Type} {a b c d : List α} {x s : α}
    (h : (a ++ ((b ++ x :: c) ++ d)).Nodup) (hs : s ∉ a ++ ((b ++ x :: c) ++ d)) :
    (a ++ ((b ++ s :: c) ++ d)).Nodup := by
  have e : a ++ ((b ++ x :: c) ++ d) = (a ++ b) ++ x :: (c ++ d) := by simp
  have e2 : a ++ ((b ++ s :: c) ++ d) = (a ++ b) ++ s :: (c ++ d) := by simp
  rw [e] at h hs
  rw [e2]
  have h2 := List.nodup_cons.mp (List.nodup_middle.mp h)
  apply List.nodup_middle.mpr
  apply List.nodup_cons.mpr
  refine ⟨?_, h2.2⟩
  simp only [List.mem_append, List.mem_cons, not_or] at hs ⊢
  tauto

/-- The lines "exchange node with smallest": a node `s` outside the tree
takes the place of the node `x`, which has a left child. -/
theorem exchange_wf (m : Mem) (p : List Frame) (x s : Nat) (ll : Tree) (lx : Nat) (lr r : Tree)
    (hwf : Wf m (fill p (Tree.node (Tree.node ll lx lr) x r)))
    (hs : s ∉ before p ++ ((Tree.node (Tree.node ll lx lr) x r).inorder ++ after p)) :
    ∃ m2, erase_exchange x s m = some m2 ∧
      Wf m2 (fill p (Tree.node (Tree.node ll lx lr) s r)) := by
  rw [wf_fill] at hwf
  obtain ⟨hp, ⟨hpar, hl, hr, hsl, hsr⟩, hnd0⟩ := hwf
  obtain ⟨hlpar, hll, hlr, hsll, hslr⟩ := hsl
  have hnd1 := nodup_replace_mid hnd0 hs
  simp only [Tree.ptr] at hp hl
  simp only [Tree.inorder, List.mem_append, List.mem_cons, not_or] at hs
  have hnd := hnd0
  simp only [Tree.inorder, List.nodup_append, List.nodup_cons, List.mem_append, List.mem_cons,
    not_or] at hnd
  obtain ⟨hndb, ⟨⟨⟨hndll, ⟨hlx_lr, hndlr⟩, hd1⟩, ⟨hx_r, hndr⟩, hd2⟩, hnda, hd3⟩, hd4⟩ := hnd
  have hxs : x ≠ s := fun e => hs.2.1.2.1 e.symm
  have hlxs : lx ≠ s := fun e => hs.2.1.1.2.1 e.symm
  have hxlx : x ≠ lx := fun e => @hd2 lx (by simp) (by simp [e])
  have hrx : r.ptr ≠ some x := fun e => hx_r (ptr_mem e)
  have hrs : r.ptr ≠ some s := fun e => hs.2.1.2.2 (ptr_mem e)
  have hrlx : r.ptr ≠ some lx := fun e => @hd2 lx (by simp) (by simp [ptr_mem e])
  have hps : path_par p ≠ some s := by
    intro e
    have := path_par_mem e
    simp only [List.mem_append] at this
    tauto
  have hpath : ∀ n ∈ before p ++ after p,
      n ≠ s ∧ n ≠ lx ∧ n ≠ x ∧ r.ptr ≠ some n := by
    intro n hn
    simp only [List.mem_append] at hn
    refine ⟨?_, ?_, ?_, ?_⟩
    · rintro rfl; tauto
    · rintro rfl
      rcases hn with hn | hn
      · exact @hd4 n hn (by simp)
      · exact @hd3 n (by simp) hn
    · rintro rfl
      rcases hn with hn | hn
      · exact @hd4 n hn (by simp)
      · exact @hd3 n (by simp) hn
    · intro e
      have hnr := ptr_mem e
      rcases hn with hn | hn
      · exact @hd4 n hn (by simp [hnr])
      · exact @hd3 n (by simp [hnr]) hn
  have hinl : ∀ n ∈ ll.inorder ++ lr.inorder,
      n ≠ s ∧ n ≠ lx ∧ r.ptr ≠ some n ∧ path_par p ≠ some n := by
    intro n hn
    simp only [List.mem_append] at hn
    refine ⟨?_, ?_, ?_, ?_⟩
    · rintro rfl; tauto
    · rintro rfl
      rcases hn with hn | hn
      · exact @hd1 n hn (by simp)
      · exact hlx_lr hn
    · intro e
      have hnr := ptr_mem e
      rcases hn with hn | hn
      · exact @hd2 n (by simp [hn]) (by simp [hnr])
      · exact @hd2 n (by simp [hn]) (by simp [hnr])
    · intro e
      have hnp := path_par_mem e
      simp only [List.mem_append] at hnp
      rcases hnp with hnp | hnp
      · rcases hn with hn | hn
        · exact @hd4 n hnp (by simp [hn])
        · exact @hd4 n hnp (by simp [hn])
      · rcases hn with hn | hn
        · exact @hd3 n (by simp [hn]) hnp
        · exact @hd3 n (by simp [hn]) hnp
  have hinr : ∀ n ∈ r.inorder, n ≠ s ∧ n ≠ lx ∧ path_par p ≠ some n := by
    intro n hn
    refine ⟨?_, ?_, ?_⟩
    · rintro rfl; tauto
    · rintro rfl
      exact @hd2 n (by simp) (by simp [hn])
    · intro e
      have hnp := path_par_mem e
      simp only [List.mem_append] at hnp
      rcases hnp with hnp | hnp
      · exact @hd4 n hnp (by simp [hn])
      · exact @hd3 n (by simp [hn]) hnp
  have hplx : path_par p ≠ some lx := by
    intro e
    have hnp := path_par_mem e
    exact (hpath lx hnp).2.1 rfl
  let m7 := ((((m.set_parent s (path_par p)).set_left s (some lx)).set_parent lx
    (some s)).set_right s r.ptr).set_parent_opt r.ptr (some s)
  have hm7 : ShapePath m7 p (some x) := by
    refine shapePath_congr (by simp [m7]) p _ (fun n hn => ?_) hp
    obtain ⟨h1, h2, h3, h4⟩ := hpath n hn
    apply rb_node_ext <;> simp [m7, set_parent_opt_parent, h1, h2, h3, h4]
  refine ⟨rb_change_child x (some s) (path_par p) m7, ?_, ?_⟩
  · simp [erase_exchange, hpar, hl, hr, set_parent_opt_parent, hxs, hxlx, hrx, m7]
  · rw [wf_fill]
    refine ⟨?_, ⟨?_, ?_, ?_, ⟨?_, ?_, ?_, ?_, ?_⟩, ?_⟩, ?_⟩
    · apply shapePath_change_child m7 x (some s) p hm7
      · exact List.nodup_append.mpr ⟨hndb, hnda, fun a ha hb => @hd4 a ha (by simp [hb])⟩
      · intro h
        exact (hpath x h).2.2.1 rfl
    · simp [m7, set_parent_opt_parent, hrs, hlxs.symm]
    · rw [change_child_heap_ne _ _ _ _ hps]
      simp [m7, Tree.ptr]
    · rw [change_child_heap_ne _ _ _ _ hps]
      simp [m7]
    · simp [m7, set_parent_opt_parent, hrlx]
    · rw [change_child_heap_ne _ _ _ _ hplx]
      simp [m7, hlxs, hll]
    · rw [change_child_heap_ne _ _ _ _ hplx]
      simp [m7, hlxs, hlr]
    · refine shape_congr ll _ (fun n hn => ?_) hsll
      obtain ⟨h1, h2, h3, h4⟩ := hinl n (by simp [hn])
      rw [change_child_heap_ne _ _ _ _ h4]
      apply rb_node_ext <;> simp [m7, set_parent_opt_parent, h1, h2, h3]
    · refine shape_congr lr _ (fun n hn => ?_) hslr
      obtain ⟨h1, h2, h3, h4⟩ := hinl n (by simp [hn])
      rw [change_child_heap_ne _ _ _ _ h4]
      apply rb_node_ext <;> simp [m7, set_parent_opt_parent, h1, h2, h3]
    · refine shape_congr r _ (fun n hn => ?_) (shape_reparent m r _ (some s) hsr hndr)
      obtain ⟨h1, h2, h3⟩ := hinr n hn
      rw [change_child_heap_ne _ _ _ _ h3]
      apply rb_node_ext <;> simp [m7, set_parent_opt_parent, h1, h2]
    · exact hnd1

/-- Removal of the node in focus: `rb_erase_node` returns and leaves a
well-formed memory whose tree has `erase_top l r` in place of `node l x r`. -/
theorem erase_focus (m : Mem) (p : List Frame) (l : Tree) (x : Nat) (r : Tree) (fuel : Nat)
    (hwf : Wf m (fill p (Tree.node l x r))) (hfuel : r.height ≤ fuel + 1) :
    ∃ m2, rb_erase_node fuel x m = some m2 ∧ Wf m2 (fill p (erase_top l r)) := by
  cases l with
  | nil => exact erase_no_left m p x r fuel hwf
  | node ll lx lr =>
    cases r with
    | nil => exact erase_no_right m p x ll lx lr fuel hwf
    | node rl rx rr =>
      have hwf0 := hwf
      rw [wf_fill] at hwf0
      obtain ⟨_, ⟨_, hl, hr, _, hsr⟩, _⟩ := hwf0
      simp only [Tree.ptr] at hl hr
      have hdesc := descend_left_split_min m.heap rl rx rr (some x) fuel hsr hfuel
      obtain ⟨q, sr, e1, e2, _⟩ := split_min_spine rl rx rr
      have eP : ∀ t, fill p (Tree.node (Tree.node ll lx lr) x (fill q t)) =
          fill (q ++ Frame.R (Tree.node ll lx lr) x :: p) t := by
        intro t
        rw [fill_append]
        rfl
      have hwf1 : Wf m (fill (q ++ Frame.R (Tree.node ll lx lr) x :: p)
          (Tree.node Tree.nil (split_min rl rx rr).1 sr)) := by
        rw [← eP, ← e1]
        exact hwf
      have hmove := move_up_wf m _ _ _ hwf1
      have hnotin : (split_min rl rx rr).1 ∉
          (fill (q ++ Frame.R (Tree.node ll lx lr) x :: p) sr).inorder := by
        have hnd := hwf1.2.2
        rw [inorder_fill] at hnd ⊢
        have := @nodup_remove_mid _ (before (q ++ Frame.R (Tree.node ll lx lr) x :: p))
          sr.inorder (split_min rl rx rr).1 [] (after (q ++ Frame.R (Tree.node ll lx lr) x :: p))
          (by simpa [Tree.inorder] using hnd)
        simpa using this.2
      rw [← eP, ← e2] at hmove hnotin
      rw [inorder_fill] at hnotin
      obtain ⟨m2, hm2, hwf2⟩ := exchange_wf _ p x _ ll lx lr _ hmove hnotin
      refine ⟨m2, ?_, hwf2⟩
      simp only [rb_erase_node, hl, hr, hdesc]
      exact hm2

theorem erase_list {α : Type} [DecidableEq α] {a b c d : List α} {x : α}
    (h : (a ++ ((b ++ x :: c) ++ d)).Nodup) :
    (a ++ ((b ++ x :: c) ++ d)).erase x = a ++ ((b ++ c) ++ d) := by
  have e : a ++ ((b ++ x :: c) ++ d) = (a ++ b) ++ x :: (c ++ d) := by simp
  have e2 : a ++ ((b ++ c) ++ d) = (a ++ b) ++ (c ++ d) := by simp
  rw [e] at h
  rw [e, e2]
  have hx : x ∉ a ++ b := by
    intro hx
    exact (List.nodup_append.mp h).2.2 hx (by simp)
  rw [List.erase_append_right _ hx]
  simp

/-- Removal from a well-formed tree: `rb_erase_node` returns, and the memory
is again well-formed for a tree whose in-order listing is the former one
without `x`. -/
theorem erase_wf (m : Mem) (t : Tree) (x : Nat) (fuel : Nat) (hwf : Wf m t)
    (hx : x ∈ t.inorder) (hfuel : t.height ≤ fuel) :
    ∃ m2 t2, rb_erase_node fuel x m = some m2 ∧ Wf m2 t2 ∧
      t2.inorder = t.inorder.erase x ∧ t2.height ≤ t.height := by
  obtain ⟨p, l, r, e⟩ := mem_split t x hx
  subst e
  have hr : r.height ≤ fuel + 1 := by
    have h1 := height_le_fill p (Tree.node l x r)
    simp only [Tree.height] at h1
    omega
  obtain ⟨m2, h1, h2⟩ := erase_focus m p l x r fuel hwf hr
  refine ⟨m2, fill p (erase_top l r), h1, h2, ?_, ?_⟩
  · have hnd := hwf.2.2
    rw [inorder_fill] at hnd ⊢
    rw [inorder_fill, erase_top_inorder]
    simp only [Tree.inorder] at hnd ⊢
    exact (erase_list hnd).symm
  · exact height_fill_mono p _ _ (erase_top_height l x r)

/-! ## Traversal -/

theorem length_add_height_le : ∀ (p : List Frame) (t : Tree),
    p.length + t.height ≤ (fill p t).height
  | [], _ => by simp [fill]
  | Frame.L x r :: p, t => by
    have := length_add_height_le p (Tree.node t x r)
    simp only [fill, Frame.plug, Tree.height, List.length_cons] at this ⊢
    omega
  | Frame.R l x :: p, t => by
    have := length_add_height_le p (Tree.node l x t)
    simp only [fill, Frame.plug, Tree.height, List.length_cons] at this ⊢
    omega

theorem descend_left_head (heap : Nat → rb_node) (l : Tree) (x : Nat) (r : Tree)
    (par : Option Nat) (fuel : Nat) (hs : Shape heap (Tree.node l x r) par)
    (hf : (Tree.node l x r).height ≤ fuel + 1) :
    (descend_left heap fuel x).map some = some (Tree.node l x r).inorder.head? := by
  rw [descend_left_split_min heap l x r par fuel hs hf, split_min_inorder]
  rfl

theorem descend_right_last (heap : Nat → rb_node) : ∀ (r : Tree) (l : Tree) (x : Nat)
    (par : Option Nat) (fuel : Nat), Shape heap (Tree.node l x r) par →
      (Tree.node l x r).height ≤ fuel + 1 →
      (descend_right heap fuel x).map some = some (Tree.node l x r).inorder.getLast?
  | Tree.nil, l, x, par, fuel, hs, _ => by
    have hr : (heap x).right = none := hs.2.2.1
    cases fuel <;> simp [descend_right, hr, Tree.inorder]
  | Tree.node rl rx rr, l, x, par, fuel, hs, hf => by
    have hr : (heap x).right = some rx := hs.2.2.1
    cases fuel with
    | zero =>
      simp only [Tree.height] at hf
      omega
    | succ f =>
      simp only [descend_right, hr]
      rw [descend_right_last heap rr rl rx (some x) f hs.2.2.2.2
        (by simp only [Tree.height] at hf ⊢; omega)]
      have e : (Tree.node l x (Tree.node rl rx rr)).inorder =
          (l.inorder ++ [x]) ++ (Tree.node rl rx rr).inorder := by simp [Tree.inorder]
      rw [e, List.getLast?_append_of_ne_nil _ (by simp [Tree.inorder])]

theorem nodup_path_tail_L {p : List Frame} {y : Nat} {r : Tree}
    (h : (before (Frame.L y r :: p) ++ after (Frame.L y r :: p)).Nodup) :
    (before p ++ after p).Nodup ∧ y ∉ before p ++ after p := by
  have e : before (Frame.L y r :: p) ++ after (Frame.L y r :: p) =
      before p ++ (([] ++ y :: r.inorder) ++ after p) := by simp [before, after]
  rw [e] at h
  have h1 := nodup_remove_mid h
  have h2 := List.nodup_append.mp h1.1
  have h3 := List.nodup_append.mp h2.2.1
  simp only [List.nil_append, List.mem_append, not_or] at h1 h2 h3 ⊢
  refine ⟨List.nodup_append.mpr ⟨h2.1, h3.2.1, ?_⟩, h1.2.1, h1.2.2.2⟩
  intro a ha hb
  exact h2.2.2 ha (by simp [hb])

theorem nodup_path_tail_R {p : List Frame} {y : Nat} {l : Tree}
    (h : (before (Frame.R l y :: p) ++ after (Frame.R l y :: p)).Nodup) :
    (before p ++ after p).Nodup ∧ y ∉ before p ++ after p := by
  have e : before (Frame.R l y :: p) ++ after (Frame.R l y :: p) =
      before p ++ ((l.inorder ++ y :: []) ++ after p) := by simp [before, after]
  rw [e] at h
  have h1 := nodup_remove_mid h
  have h2 := List.nodup_append.mp h1.1
  have h3 := List.nodup_append.mp h2.2.1
  simp only [List.append_nil, List.mem_append, not_or] at h1 h2 h3 ⊢
  refine ⟨List.nodup_append.mpr ⟨h2.1, h3.2.1, ?_⟩, h1.2.1, h1.2.2.2⟩
  intro a ha hb
  exact h2.2.2 ha (by simp [hb])

/-- The upward loop of `rb_next` stops at the first node after the hole. -/
theorem ascend_from_right_after (m : Mem) : ∀ (p : List Frame) (node : Nat) (fuel : Nat),
    ShapePath m p (some node) → (before p ++ after p).Nodup → node ∉ before p ++ after p →
      p.length ≤ fuel →
      ascend_from_right m.heap fuel node (path_par p) = some (after p).head?
  | [], node, fuel, _, _, _, _ => by
    cases fuel <;> simp [path_par, ascend_from_right, after]
  | Frame.L y r :: p, node, fuel, hp, _, hn, _ => by
    have hr : ¬ (m.heap y).right = some node := by
      rw [hp.2.1]
      intro e
      apply hn
      simp [after, ptr_mem e]
    cases fuel <;> simp [path_par, Frame.top, ascend_from_right, hr, after]
  | Frame.R l y :: p, node, fuel, hp, hnd, _, hf => by
    have hr : (m.heap y).right = some node := hp.1
    have hy : (m.heap y).parent = path_par p := hp.2.2.2.1
    cases fuel with
    | zero => simp at hf
    | succ f =>
      simp only [path_par, Frame.top, ascend_from_right, hr, if_true, hy, after]
      have h2 := nodup_path_tail_R hnd
      exact ascend_from_right_after m p y f hp.2.2.2.2 h2.1 h2.2
        (by simp only [List.length_cons] at hf; omega)

/-- The upward loop of `rb_prev` stops at the last node before the hole. -/
theorem ascend_from_left_before (m : Mem) : ∀ (p : List Frame) (node : Nat) (fuel : Nat),
    ShapePath m p (some node) → (before p ++ after p).Nodup → node ∉ before p ++ after p →
      p.length ≤ fuel →
      ascend_from_left m.heap fuel node (path_par p) = some (before p).getLast?
  | [], node, fuel, _, _, _, _ => by
    cases fuel <;> simp [path_par, ascend_from_left, before]
  | Frame.R l y :: p, node, fuel, hp, _, hn, _ => by
    have hr : ¬ (m.heap y).left = some node := by
      rw [hp.2.1]
      intro e
      apply hn
      simp [before, ptr_mem e]
    have e : before (Frame.R l y :: p) = (before p ++ l.inorder) ++ [y] := by simp [before]
    cases fuel <;>
      simp only [path_par, Frame.top, ascend_from_left, hr, if_false, e, List.getLast?_concat]
  | Frame.L y r :: p, node, fuel, hp, hnd, _, hf => by
    have hr : (m.heap y).left = some node := hp.1
    have hy : (m.heap y).parent = path_par p := hp.2.2.2.1
    cases fuel with
    | zero => simp at hf
    | succ f =>
      simp only [path_par, Frame.top, ascend_from_left, hr, if_true, hy, before]
      have h2 := nodup_path_tail_L hnd
      exact ascend_from_left_before m p y f hp.2.2.2.2 h2.1 h2.2
        (by simp only [List.length_cons] at hf; omega)

theorem focus_facts (m : Mem) (p : List Frame) (l : Tree) (x : Nat) (r : Tree) (fuel : Nat)
    (hwf : Wf m (fill p (Tree.node l x r)))
    (hf : (fill p (Tree.node l x r)).height ≤ fuel + 1) :
    ShapePath m p (some x) ∧ (before p ++ after p).Nodup ∧ x ∉ before p ++ after p ∧
      p.length ≤ fuel ∧ l.height ≤ fuel ∧ r.height ≤ fuel := by
  have hwf0 := hwf
  rw [wf_fill] at hwf0
  obtain ⟨hp, _, hnd⟩ := hwf0
  have h1 := length_add_height_le p (Tree.node l x r)
  simp only [Tree.height] at h1
  have h2 := nodup_remove_mid hnd
  refine ⟨hp, ?_, ?_, by omega, by omega, by omega⟩
  · have h3 := List.nodup_append.mp h2.1
    have h4 := List.nodup_append.mp h3.2.1
    refine List.nodup_append.mpr ⟨h3.1, h4.2.1, ?_⟩
    intro a ha hb
    exact h3.2.2 ha (by simp [hb])
  · have := h2.2
    simp only [List.mem_append, not_or] at this ⊢
    tauto

/-- `rb_next` returns the node listed after `x`: the first node of the right
subtree, or else the first node after the subtree of `x`. -/
theorem next_focus (m : Mem) (p : List Frame) (l : Tree) (x : Nat) (r : Tree) (fuel : Nat)
    (hwf : Wf m (fill p (Tree.node l x r)))
    (hf : (fill p (Tree.node l x r)).height ≤ fuel + 1) :
    rb_next fuel m x = some (r.inorder ++ after p).head? := by
  obtain ⟨hp, hnd, hx, hlen, _, hrh⟩ := focus_facts m p l x r fuel hwf hf
  rw [wf_fill] at hwf
  obtain ⟨_, ⟨hpar, _, hr, _, hsr⟩, _⟩ := hwf
  cases r with
  | nil =>
    simp only [Tree.ptr] at hr
    simp only [rb_next, hr, hpar, Tree.inorder, List.nil_append]
    cases hpp : path_par p with
    | none =>
      cases p with
      | nil => simp [after]
      | cons f p => simp [path_par] at hpp
    | some q =>
      simp only
      rw [← hpp]
      exact ascend_from_right_after m p x fuel hp hnd hx hlen
  | node rl rx rr =>
    simp only [Tree.ptr] at hr
    simp only [rb_next, hr]
    rw [descend_left_head m.heap rl rx rr (some x) fuel hsr (by omega)]
    simp [Tree.inorder]

/-- `rb_prev` returns the node listed before `x`. -/
theorem prev_focus (m : Mem) (p : List Frame) (l : Tree) (x : Nat) (r : Tree) (fuel : Nat)
    (hwf : Wf m (fill p (Tree.node l x r)))
    (hf : (fill p (Tree.node l x r)).height ≤ fuel + 1) :
    rb_prev fuel m x = some (before p ++ l.inorder).getLast? := by
  obtain ⟨hp, hnd, hx, hlen, hlh, _⟩ := focus_facts m p l x r fuel hwf hf
  rw [wf_fill] at hwf
  obtain ⟨_, ⟨hpar, hl, _, hsl, _⟩, _⟩ := hwf
  cases l with
  | nil =>
    simp only [Tree.ptr] at hl
    simp only [rb_prev, hl, hpar, Tree.inorder, List.append_nil]
    cases hpp : path_par p with
    | none =>
      cases p with
      | nil => simp [before]
      | cons f p => simp [path_par] at hpp
    | some q =>
      simp only
      rw [← hpp]
      exact ascend_from_left_before m p x fuel hp hnd hx hlen
  | node ll lx lr =>
    simp only [Tree.ptr] at hl
    simp only [rb_prev, hl]
    rw [descend_right_last m.heap lr ll lx (some x) fuel hsl (by omega)]
    rw [List.getLast?_append_of_ne_nil _ (by simp [Tree.inorder])]

theorem focus_of_split (t : Tree) (x : Nat) (pre post : List Nat) (hnd : t.inorder.Nodup)
    (e : t.inorder = pre ++ x :: post) :
    ∃ p l r, t = fill p (Tree.node l x r) ∧ pre = before p ++ l.inorder ∧
      post = r.inorder ++ after p := by
  have hx : x ∈ t.inorder := by rw [e]; simp
  obtain ⟨p, l, r, ht⟩ := mem_split t x hx
  refine ⟨p, l, r, ht, ?_⟩
  subst ht
  rw [inorder_fill] at e hnd
  have e2 : before p ++ ((Tree.node l x r).inorder ++ after p) =
      (before p ++ l.inorder) ++ x :: (r.inorder ++ after p) := by simp [Tree.inorder]
  rw [e2] at e hnd
  have h1 := List.nodup_cons.mp (List.nodup_middle.mp hnd)
  have hx1 : x ∉ before p ++ l.inorder := fun h => h1.1 (List.mem_append_left _ h)
  have hx2 : x ∉ r.inorder ++ after p := fun h => h1.1 (List.mem_append_right _ h)
  have h2 := (List.append_cons_inj_of_not_mem hx1 hx2).mp e
  exact ⟨h2.1.symm, h2.2.2.symm⟩

/-- `rb_next` in terms of the in-order listing. -/
theorem next_list (m : Mem) (t : Tree) (x : Nat) (pre post : List Nat) (fuel : Nat)
    (hwf : Wf m t) (e : t.inorder = pre ++ x :: post) (hf : t.height ≤ fuel + 1) :
    rb_next fuel m x = some post.head? := by
  obtain ⟨p, l, r, ht, _, hpost⟩ := focus_of_split t x pre post hwf.2.2 e
  subst ht
  rw [hpost]
  exact next_focus m p l x r fuel hwf hf

/-- `rb_prev` in terms of the in-order listing. -/
theorem prev_list (m : Mem) (t : Tree) (x : Nat) (pre post : List Nat) (fuel : Nat)
    (hwf : Wf m t) (e : t.inorder = pre ++ x :: post) (hf : t.height ≤ fuel + 1) :
    rb_prev fuel m x = some pre.getLast? := by
  obtain ⟨p, l, r, ht, hpre, _⟩ := focus_of_split t x pre post hwf.2.2 e
  subst ht
  rw [hpre]
  exact prev_focus m p l x r fuel hwf hf

theorem first_list (m : Mem) (t : Tree) (fuel : Nat) (hwf : Wf m t) (hf : t.height ≤ fuel + 1) :
    rb_first fuel m = some t.inorder.head? := by
  obtain ⟨hroot, hs, _⟩ := hwf
  cases t with
  | nil => simp [rb_first, hroot, Tree.ptr, Tree.inorder]
  | node l x r =>
    simp only [rb_first, hroot, Tree.ptr]
    exact descend_left_head m.heap l x r none fuel hs hf

theorem last_list (m : Mem) (t : Tree) (fuel : Nat) (hwf : Wf m t) (hf : t.height ≤ fuel + 1) :
    rb_last fuel m = some t.inorder.getLast? := by
  obtain ⟨hroot, hs, _⟩ := hwf
  cases t with
  | nil => simp [rb_last, hroot, Tree.ptr, Tree.inorder]
  | node l x r =>
    simp only [rb_last, hroot, Tree.ptr]
    exact descend_right_last m.heap r l x none fuel hs hf

theorem walk_next_list (m : Mem) (t : Tree) (fuel : Nat) (hwf : Wf m t)
    (hf : t.height ≤ fuel + 1) : ∀ (post pre : List Nat) (steps : Nat),
      t.inorder = pre ++ post → post.length ≤ steps →
      walk_next fuel m steps post.head? = some post
  | [], _, steps, _, _ => by cases steps <;> simp [walk_next]
  | x :: post, pre, steps, e, hs => by
    cases steps with
    | zero => simp at hs
    | succ k =>
      simp only [List.head?_cons, walk_next]
      rw [next_list m t x pre post fuel hwf e hf]
      simp only
      rw [walk_next_list m t fuel hwf hf post (pre ++ [x]) k (by simpa using e)
        (by simp only [List.length_cons] at hs; omega)]
      rfl

/-- The loop over `rb_first` and `rb_next` lists the nodes in order. -/
theorem traverse_list (m : Mem) (t : Tree) (fuel steps : Nat) (hwf : Wf m t)
    (hf : t.height ≤ fuel + 1) (hs : t.inorder.length ≤ steps) :
    traverse fuel steps m = some t.inorder := by
  simp only [traverse, first_list m t fuel hwf hf]
  exact walk_next_list m t fuel hwf hf t.inorder [] steps rfl hs

/-! ## Reachability -/

theorem follow_none (m : Mem) : ∀ (ds : List Bool), follow m ds none = none
  | [] => rfl
  | _ :: _ => rfl

theorem follow_shape (m : Mem) (y : Nat) : ∀ (ds : List Bool) (t : Tree) (par : Option Nat),
    Shape m.heap t par → follow m ds t.ptr = some y → y ∈ t.inorder
  | [], _, _, _, h => ptr_mem h
  | d :: ds, Tree.nil, _, _, h => by simp [Tree.ptr, follow] at h
  | d :: ds, Tree.node l x r, _, hs, h => by
    simp only [Tree.ptr, follow] at h
    cases d with
    | true =>
      simp only [if_true, hs.2.2.1] at h
      have := follow_shape m y ds r (some x) hs.2.2.2.2 h
      simp [Tree.inorder, this]
    | false =>
      simp only [Bool.false_eq_true, if_false, hs.2.1] at h
      have := follow_shape m y ds l (some x) hs.2.2.2.1 h
      simp [Tree.inorder, this]

theorem mem_follow (m : Mem) (y : Nat) : ∀ (t : Tree) (par : Option Nat),
    Shape m.heap t par → y ∈ t.inorder → ∃ ds, follow m ds t.ptr = some y
  | Tree.nil, _, _, h => by simp [Tree.inorder] at h
  | Tree.node l x r, _, hs, h => by
    simp only [Tree.inorder, List.mem_append, List.mem_cons] at h
    rcases h with h | h | h
    · obtain ⟨ds, hd⟩ := mem_follow m y l (some x) hs.2.2.2.1 h
      exact ⟨false :: ds, by simp only [follow, Tree.ptr, hs.2.1]; simpa using hd⟩
    · exact ⟨[], by simp [follow, Tree.ptr, h]⟩
    · obtain ⟨ds, hd⟩ := mem_follow m y r (some x) hs.2.2.2.2 h
      exact ⟨true :: ds, by simp only [follow, Tree.ptr, hs.2.2.1]; simpa using hd⟩

/-- In a well-formed memory the nodes reachable from the root handle are the
nodes of the tree. -/
theorem reachable_iff (m : Mem) (t : Tree) (hwf : Wf m t) (y : Nat) :
    Reachable m y ↔ y ∈ t.inorder := by
  unfold Reachable
  rw [hwf.1]
  constructor
  · rintro ⟨ds, h⟩
    exact follow_shape m y ds t none hwf.2.1 h
  · exact mem_follow m y t none hwf.2.1

theorem split_at_index {α : Type} : ∀ (l : List α) (i : Nat) (a : α), l[i]? = some a →
    ∃ pre post, l = pre ++ a :: post ∧ post.head? = l[i + 1]?
  | [], i, a, h => by simp at h
  | b :: l, 0, a, h => by
    simp only [List.getElem?_cons_zero, Option.some.injEq] at h
    subst h
    refine ⟨[], l, rfl, ?_⟩
    cases l <;> simp
  | b :: l, i + 1, a, h => by
    simp only [List.getElem?_cons_succ] at h
    obtain ⟨pre, post, e, hh⟩ := split_at_index l i a h
    exact ⟨b :: pre, post, by simp [e], by simpa using hh⟩

/-! ## Linking a new leaf -/

theorem shapePath_store (m : Mem) (c1 c2 : Option Nat) : ∀ (p : List Frame),
    ShapePath m p c1 → (before p ++ after p).Nodup →
      ShapePath (m.store (path_slot p) c2) p c2
  | [], _, _ => by simp [ShapePath, path_slot, Mem.store]
  | Frame.L x r :: p, h, hnd => by
    obtain ⟨_, h2, h3, h4, h5⟩ := h
    have hx := (nodup_path_tail_L hnd).2
    simp only [before, after, List.cons_append] at hnd
    have hnd2 := List.nodup_cons.mp (List.nodup_middle.mp hnd)
    have hxr : x ∉ r.inorder := fun h => hnd2.1 (by simp [h])
    simp only [path_slot, Mem.store]
    refine ⟨by simp, by simpa using h2, ?_, by simpa using h4, ?_⟩
    · exact shape_congr r _ (fun n hn => set_left_heap_ne m _ (fun e => hxr (e ▸ hn))) h3
    · refine @shapePath_congr m (m.set_left x c2) rfl p _
        (fun n hn => set_left_heap_ne m _ (fun e => ?_)) h5
      exact hx (e ▸ hn)
  | Frame.R l x :: p, h, hnd => by
    obtain ⟨_, h2, h3, h4, h5⟩ := h
    have hx := (nodup_path_tail_R hnd).2
    have hxl : x ∉ l.inorder := by
      intro hm
      have e : before (Frame.R l x :: p) ++ after (Frame.R l x :: p) =
          before p ++ ((l.inorder ++ x :: []) ++ after p) := by simp [before, after]
      rw [e] at hnd
      exact (nodup_remove_mid hnd).2 (by simp [hm])
    simp only [path_slot, Mem.store]
    refine ⟨by simp, by simpa using h2, ?_, by simpa using h4, ?_⟩
    · exact shape_congr l _ (fun n hn => set_right_heap_ne m _ (fun e => hxl (e ▸ hn))) h3
    · refine @shapePath_congr m (m.set_right x c2) rfl p _
        (fun n hn => set_right_heap_ne m _ (fun e => ?_)) h5
      exact hx (e ▸ hn)

theorem store_heap_ne (m : Mem) (p : List Frame) (c : Option Nat) {k : Nat}
    (h : path_par p ≠ some k) : (m.store (path_slot p) c).heap k = m.heap k := by
  cases p with
  | nil => rfl
  | cons f p =>
    cases f with
    | L x r =>
      apply set_left_heap_ne
      intro e
      exact h (by simp [path_par, Frame.top, e])
    | R l x =>
      apply set_right_heap_ne
      intro e
      exact h (by simp [path_par, Frame.top, e])

/-- Linking a node that is not in the tree into the empty slot at the end of
a path yields the tree with that node as a leaf in the hole. -/
theorem link_wf (m : Mem) (p : List Frame) (n : Nat) (hwf : Wf m (fill p Tree.nil))
    (hn : n ∉ (fill p Tree.nil).inorder) :
    Wf (rb_link_node n (path_par p) (path_slot p) m) (fill p (leaf n)) := by
  rw [inorder_fill] at hn
  rw [wf_fill] at hwf ⊢
  obtain ⟨hp, _, hnd⟩ := hwf
  simp only [Tree.inorder, List.nil_append] at hn hnd
  have hpn : path_par p ≠ some n := fun e => hn (path_par_mem e)
  have h3 : ShapePath (((m.set_parent n (path_par p)).set_left n none).set_right n none) p none := by
    refine @shapePath_congr m (((m.set_parent n (path_par p)).set_left n none).set_right n none)
      rfl p _ (fun k hk => ?_) hp
    have hkn : k ≠ n := fun e => hn (e ▸ hk)
    apply rb_node_ext <;> simp [hkn]
  refine ⟨?_, ?_, ?_⟩
  · exact shapePath_store _ none (some n) p h3 hnd
  · simp only [leaf, Shape, Tree.ptr, rb_link_node, and_true]
    rw [store_heap_ne _ _ _ hpn]
    simp
  · simp only [leaf, Tree.inorder, List.nil_append]
    have e : before p ++ ([n] ++ after p) = before p ++ n :: after p := by simp
    rw [e]
    apply List.nodup_middle.mpr
    exact List.nodup_cons.mpr ⟨hn, hnd⟩

theorem shape_ptr_parent {heap : Nat → rb_node} {t : Tree} {par : Option Nat} {q : Nat}
    (hs : Shape heap t par) (h : t.ptr = some q) : (heap q).parent = par := by
  cases t with
  | nil => simp [Tree.ptr] at h
  | node l x r =>
    simp only [Tree.ptr, Option.some.injEq] at h
    subst h
    exact hs.1

/-- In a stored tree every child pointer of a node leads to a node of the
tree whose parent pointer leads back, and every parent pointer leads to a
node of the tree or to the node above the tree. -/
theorem shape_links (heap : Nat → rb_node) : ∀ (t : Tree) (par : Option Nat),
    Shape heap t par → ∀ y ∈ t.inorder,
      (∀ q, ((heap y).left = some q ∨ (heap y).right = some q) →
        q ∈ t.inorder ∧ (heap q).parent = some y) ∧
      (∀ q, (heap y).parent = some q → (par = some q ∨ q ∈ t.inorder))
  | Tree.nil, _, _, y, hy => by simp [Tree.inorder] at hy
  | Tree.node l x r, par, hs, y, hy => by
    obtain ⟨hpar, hl, hr, hsl, hsr⟩ := hs
    simp only [Tree.inorder, List.mem_append, List.mem_cons] at hy ⊢
    rcases hy with hy | hy | hy
    · obtain ⟨h1, h2⟩ := shape_links heap l (some x) hsl y hy
      refine ⟨fun q hq => ⟨Or.inl (h1 q hq).1, (h1 q hq).2⟩, fun q hq => ?_⟩
      rcases h2 q hq with h | h
      · simp only [Option.some.injEq] at h
        exact Or.inr (Or.inr (Or.inl h.symm))
      · exact Or.inr (Or.inl h)
    · subst hy
      refine ⟨fun q hq => ?_, fun q hq => Or.inl (by rw [← hpar, hq])⟩
      rcases hq with hq | hq
      · rw [hl] at hq
        exact ⟨Or.inl (ptr_mem hq), shape_ptr_parent hsl hq⟩
      · rw [hr] at hq
        exact ⟨Or.inr (Or.inr (ptr_mem hq)), shape_ptr_parent hsr hq⟩
    · obtain ⟨h1, h2⟩ := shape_links heap r (some x) hsr y hy
      refine ⟨fun q hq => ⟨Or.inr (Or.inr (h1 q hq).1), (h1 q hq).2⟩, fun q hq => ?_⟩
      rcases h2 q hq with h | h
      · simp only [Option.some.injEq] at h
        exact Or.inr (Or.inr (Or.inl h.symm))
      · exact Or.inr (Or.inr (Or.inr h))

/-- A well-formed memory is parent/child consistent. -/
theorem wf_consistent (m : Mem) (t : Tree) (hwf : Wf m t) : Consistent m := by
  constructor
  · intro r hr
    rw [hwf.1] at hr
    exact shape_ptr_parent hwf.2.1 hr
  · intro a b ha hab
    rw [reachable_iff m t hwf] at ha
    exact ((shape_links m.heap t none hwf.2.1 a ha).1 b hab).2

theorem height_fill_succ : ∀ (p : List Frame) (a b : Tree), a.height ≤ b.height + 1 →
    (fill p a).height ≤ (fill p b).height + 1
  | [], _, _, h => h
  | Frame.L x r :: p, a, b, h => by
    apply height_fill_succ p
    simp only [Frame.plug, Tree.height]
    omega
  | Frame.R l x :: p, a, b, h => by
    apply height_fill_succ p
    simp only [Frame.plug, Tree.height]
    omega

theorem ptr_eq_none {t : Tree} (h : t.ptr = none) : t = Tree.nil := by
  cases t with
  | nil => rfl
  | node l x r => simp [Tree.ptr] at h

/-- Linking into the empty left slot of a node of the tree. -/
theorem link_left_wf (m : Mem) (t : Tree) (n p : Nat) (hwf : Wf m t) (hn : n ∉ t.inorder)
    (hp : p ∈ t.inorder) (hslot : (m.heap p).left = none) :
    ∃ t2 pre post, Wf (rb_link_node n (some p) (Slot.left p) m) t2 ∧
      t.inorder = pre ++ p :: post ∧ t2.inorder = pre ++ n :: p :: post ∧
      t2.height ≤ t.height + 1 := by
  obtain ⟨path, l, r, e⟩ := mem_split t p hp
  subst e
  have hl : l = Tree.nil := by
    have h := hwf
    rw [wf_fill] at h
    exact ptr_eq_none (by rw [← h.2.1.2.1, hslot])
  subst hl
  have h2 := link_wf m (Frame.L p r :: path) n hwf hn
  refine ⟨_, before path, r.inorder ++ after path, h2, ?_, ?_, ?_⟩
  · rw [inorder_fill]; simp [Tree.inorder]
  · rw [inorder_fill]; simp [Tree.inorder, before, after, leaf]
  · exact height_fill_succ (Frame.L p r :: path) (leaf n) Tree.nil (by simp [leaf, Tree.height])

/-- Linking into the empty right slot of a node of the tree. -/
theorem link_right_wf (m : Mem) (t : Tree) (n p : Nat) (hwf : Wf m t) (hn : n ∉ t.inorder)
    (hp : p ∈ t.inorder) (hslot : (m.heap p).right = none) :
    ∃ t2 pre post, Wf (rb_link_node n (some p) (Slot.right p) m) t2 ∧
      t.inorder = pre ++ p :: post ∧ t2.inorder = pre ++ p :: n :: post ∧
      t2.height ≤ t.height + 1 := by
  obtain ⟨path, l, r, e⟩ := mem_split t p hp
  subst e
  have hr : r = Tree.nil := by
    have h := hwf
    rw [wf_fill] at h
    exact ptr_eq_none (by rw [← h.2.1.2.2.1, hslot])
  subst hr
  have h2 := link_wf m (Frame.R l p :: path) n hwf hn
  refine ⟨_, before path ++ l.inorder, after path, h2, ?_, ?_, ?_⟩
  · rw [inorder_fill]; simp [Tree.inorder]
  · rw [inorder_fill]; simp [Tree.inorder, before, after, leaf]
  · exact height_fill_succ (Frame.R l p :: path) (leaf n) Tree.nil (by simp [leaf, Tree.height])

/-- Linking into the root slot of an empty tree. -/
theorem link_root_wf (m : Mem) (n : Nat) (hwf : Wf m Tree.nil) :
    Wf (rb_link_node n none Slot.root m) (leaf n) :=
  link_wf m [] n hwf (by simp [fill, Tree.inorder])

/-! ## Removal keeps the in-order sequence -/

/-- C1: for a well-formed tree and a node `x` in it, `rb_erase_node` returns,
and the in-order sequence obtained through `rb_first` and repeated `rb_next`
afterwards is the sequence before the call with `x` deleted: every other node
is present exactly once, in unchanged relative order, and `rb_next` and
`rb_prev` of every surviving node return its neighbours in the shortened
sequence. -/
theorem erase_node_inorder (m : Mem) (t : Tree) (x : Nat) (fuel steps : Nat)
    (hwf : Wf m t) (hx : x ∈ t.inorder) (hfuel : t.height ≤ fuel)
    (hsteps : t.inorder.length ≤ steps) :
    traverse fuel steps m = some t.inorder ∧
    ∃ m2, rb_erase_node fuel x m = some m2 ∧
      traverse fuel steps m2 = some (t.inorder.erase x) ∧
      (t.inorder.erase x).Nodup ∧ (t.inorder.erase x).Sublist t.inorder ∧
      (∀ y, y ∈ t.inorder.erase x ↔ (y ∈ t.inorder ∧ y ≠ x)) ∧
      (∀ c pre post, t.inorder.erase x = pre ++ c :: post →
        rb_next fuel m2 c = some post.head? ∧ rb_prev fuel m2 c = some pre.getLast?) := by
  refine ⟨traverse_list m t fuel steps hwf (by omega) hsteps, ?_⟩
  obtain ⟨m2, t2, h1, h2, h3, h4⟩ := erase_wf m t x fuel hwf hx hfuel
  refine ⟨m2, h1, ?_, ?_, List.erase_sublist x t.inorder, ?_, ?_⟩
  · rw [← h3]
    apply traverse_list m2 t2 fuel steps h2 (by omega)
    rw [h3]
    exact le_trans ((List.erase_sublist x t.inorder).length_le) hsteps
  · exact hwf.2.2.erase x
  · intro y
    rw [hwf.2.2.mem_erase_iff]
    tauto
  · intro c pre post e
    rw [← h3] at e
    exact ⟨next_list m2 t2 c pre post fuel h2 e (by omega),
      prev_list m2 t2 c pre post fuel h2 e (by omega)⟩

/-- C1, at the tree `((1 2 3) 4 (5 6 7))` and its top node. -/
theorem erase_node_inorder_witness :
    Wf ex_mem ex_tree ∧ 4 ∈ ex_tree.inorder ∧
    (traverse 3 7 ex_mem = some ex_tree.inorder ∧
    ∃ m2, rb_erase_node 3 4 ex_mem = some m2 ∧
      traverse 3 7 m2 = some (ex_tree.inorder.erase 4) ∧
      (ex_tree.inorder.erase 4).Nodup ∧ (ex_tree.inorder.erase 4).Sublist ex_tree.inorder ∧
      (∀ y, y ∈ ex_tree.inorder.erase 4 ↔ (y ∈ ex_tree.inorder ∧ y ≠ 4)) ∧
      (∀ c pre post, ex_tree.inorder.erase 4 = pre ++ c :: post →
        rb_next 3 m2 c = some post.head? ∧ rb_prev 3 m2 c = some pre.getLast?)) :=
  ⟨by decide, by decide,
    erase_node_inorder ex_mem ex_tree 4 3 7 (by decide) (by decide) (by decide) (by decide)⟩

/-! ## Successor and predecessor -/

/-- C5: in a well-formed tree `rb_next(a) == b` exactly when `rb_prev(b) == a`,
for all nodes `a`, `b` of the tree; and for every pair `a`, `b` adjacent in the
in-order sequence, `rb_next(a) == b` and `rb_prev(b) == a`. -/
theorem next_prev_duality (m : Mem) (t : Tree) (fuel : Nat) (hwf : Wf m t)
    (hf : t.height ≤ fuel) :
    (∀ a b, a ∈ t.inorder → b ∈ t.inorder →
      (rb_next fuel m a = some (some b) ↔ rb_prev fuel m b = some (some a))) ∧
    (∀ a b, Adjacent a b t.inorder →
      rb_next fuel m a = some (some b) ∧ rb_prev fuel m b = some (some a)) := by
  have hadj : ∀ a b, Adjacent a b t.inorder →
      rb_next fuel m a = some (some b) ∧ rb_prev fuel m b = some (some a) := by
    rintro a b ⟨pre, post, e⟩
    constructor
    · rw [next_list m t a pre (b :: post) fuel hwf e (by omega)]
      rfl
    · rw [prev_list m t b (pre ++ [a]) post fuel hwf (by simpa using e) (by omega)]
      simp
  refine ⟨?_, hadj⟩
  intro a b ha hb
  constructor
  · intro h
    obtain ⟨pre, post, e⟩ := List.append_of_mem ha
    rw [next_list m t a pre post fuel hwf e (by omega)] at h
    simp only [Option.some.injEq] at h
    obtain ⟨post2, e2⟩ := List.head?_eq_some_iff.mp h
    subst e2
    exact (hadj a b ⟨pre, post2, e⟩).2
  · intro h
    obtain ⟨pre, post, e⟩ := List.append_of_mem hb
    rw [prev_list m t b pre post fuel hwf e (by omega)] at h
    simp only [Option.some.injEq] at h
    obtain ⟨pre2, e2⟩ := List.getLast?_eq_some_iff.mp h
    subst e2
    exact (hadj a b ⟨pre2, post, by simpa using e⟩).1

/-- C5, at the tree `((1 2 3) 4 (5 6 7))`. -/
theorem next_prev_duality_witness :
    Wf ex_mem ex_tree ∧
    ((∀ a b, a ∈ ex_tree.inorder → b ∈ ex_tree.inorder →
      (rb_next 3 ex_mem a = some (some b) ↔ rb_prev 3 ex_mem b = some (some a))) ∧
    (∀ a b, Adjacent a b ex_tree.inorder →
      rb_next 3 ex_mem a = some (some b) ∧ rb_prev 3 ex_mem b = some (some a))) :=
  ⟨by decide, next_prev_duality ex_mem ex_tree 3 (by decide) (by decide)⟩

/-- C6: for a well-formed tree with at least one node, `rb_first` returns the
first and `rb_last` the last element of the in-order listing, `rb_next` of the
i-th element returns the (i+1)-th, `rb_next` of the last and `rb_prev` of the
first element return `NULL`, and `rb_first` followed by repeated `rb_next`
visits every node of the tree exactly once. -/
theorem traversal_enumerates (m : Mem) (t : Tree) (fuel steps : Nat) (hwf : Wf m t)
    (hne : t.inorder ≠ []) (hf : t.height ≤ fuel) (hs : t.inorder.length ≤ steps) :
    (∃ a z, t.inorder.head? = some a ∧ t.inorder.getLast? = some z ∧
      rb_first fuel m = some (some a) ∧ rb_last fuel m = some (some z) ∧
      rb_next fuel m z = some none ∧ rb_prev fuel m a = some none) ∧
    (∀ i a, t.inorder[i]? = some a → rb_next fuel m a = some t.inorder[i + 1]?) ∧
    traverse fuel steps m = some t.inorder ∧ t.inorder.Nodup ∧
    (∀ y, Reachable m y ↔ y ∈ t.inorder) := by
  refine ⟨?_, ?_, traverse_list m t fuel steps hwf (by omega) hs, hwf.2.2,
    reachable_iff m t hwf⟩
  · obtain ⟨a, rest, e⟩ := List.exists_cons_of_ne_nil hne
    obtain ⟨z, hz⟩ : ∃ z, t.inorder.getLast? = some z := by
      cases h : t.inorder.getLast? with
      | none => exact absurd (List.getLast?_eq_none_iff.mp h) hne
      | some z => exact ⟨z, rfl⟩
    obtain ⟨ini, e2⟩ := List.getLast?_eq_some_iff.mp hz
    refine ⟨a, z, by rw [e]; rfl, hz, ?_, ?_, ?_, ?_⟩
    · rw [first_list m t fuel hwf (by omega), e]; rfl
    · rw [last_list m t fuel hwf (by omega), hz]
    · rw [next_list m t z ini [] fuel hwf e2 (by omega)]; rfl
    · rw [prev_list m t a [] rest fuel hwf (by simpa using e) (by omega)]; rfl
  · intro i a h
    obtain ⟨pre, post, e, hh⟩ := split_at_index t.inorder i a h
    rw [next_list m t a pre post fuel hwf e (by omega), hh]

/-- C6, at the tree `((1 2 3) 4 (5 6 7))`. -/
theorem traversal_enumerates_witness :
    Wf ex_mem ex_tree ∧ ex_tree.inorder ≠ [] ∧
    ((∃ a z, ex_tree.inorder.head? = some a ∧ ex_tree.inorder.getLast? = some z ∧
      rb_first 3 ex_mem = some (some a) ∧ rb_last 3 ex_mem = some (some z) ∧
      rb_next 3 ex_mem z = some none ∧ rb_prev 3 ex_mem a = some none) ∧
    (∀ i a, ex_tree.inorder[i]? = some a → rb_next 3 ex_mem a = some ex_tree.inorder[i + 1]?) ∧
    traverse 3 7 ex_mem = some ex_tree.inorder ∧ ex_tree.inorder.Nodup ∧
    (∀ y, Reachable ex_mem y ↔ y ∈ ex_tree.inorder)) :=
  ⟨by decide, by decide,
    traversal_enumerates ex_mem ex_tree 3 7 (by decide) (by decide) (by decide) (by decide)⟩

/-! ## Consistency and dangling references -/

/-- C7: after `rb_erase_node(x, root)` on a well-formed tree containing `x`,
neither the root handle nor the parent, left or right field of any node that
remains in the tree refers to `x`, and `x` is not reachable from the root
handle; the nodes that remain are the former nodes other than `x`. -/
theorem erase_no_dangling (m : Mem) (t : Tree) (x : Nat) (fuel : Nat) (hwf : Wf m t)
    (hx : x ∈ t.inorder) (hf : t.height ≤ fuel) :
    ∃ m2, rb_erase_node fuel x m = some m2 ∧ m2.root.node ≠ some x ∧
      (∀ y, Reachable m2 y → (m2.heap y).parent ≠ some x ∧ (m2.heap y).left ≠ some x ∧
        (m2.heap y).right ≠ some x) ∧
      ¬ Reachable m2 x ∧ (∀ y, Reachable m2 y ↔ (y ∈ t.inorder ∧ y ≠ x)) := by
  obtain ⟨m2, t2, h1, h2, h3, _⟩ := erase_wf m t x fuel hwf hx hf
  have hx2 : x ∉ t2.inorder := by
    rw [h3]
    exact fun h => (hwf.2.2.mem_erase_iff.mp h).1 rfl
  refine ⟨m2, h1, ?_, ?_, ?_, ?_⟩
  · rw [h2.1]
    exact fun e => hx2 (ptr_mem e)
  · intro y hy
    rw [reachable_iff m2 t2 h2] at hy
    obtain ⟨hc, hpar⟩ := shape_links m2.heap t2 none h2.2.1 y hy
    refine ⟨fun e => ?_, fun e => hx2 (hc x (Or.inl e)).1, fun e => hx2 (hc x (Or.inr e)).1⟩
    rcases hpar x e with h | h
    · simp at h
    · exact hx2 h
  · rw [reachable_iff m2 t2 h2]
    exact hx2
  · intro y
    rw [reachable_iff m2 t2 h2, h3, hwf.2.2.mem_erase_iff]
    tauto

/-- C7, at the tree `((1 2 3) 4 (5 6 7))` and its top node. -/
theorem erase_no_dangling_witness :
    Wf ex_mem ex_tree ∧ 4 ∈ ex_tree.inorder ∧
    ∃ m2, rb_erase_node 3 4 ex_mem = some m2 ∧ m2.root.node ≠ some 4 ∧
      (∀ y, Reachable m2 y → (m2.heap y).parent ≠ some 4 ∧ (m2.heap y).left ≠ some 4 ∧
        (m2.heap y).right ≠ some 4) ∧
      ¬ Reachable m2 4 ∧ (∀ y, Reachable m2 y ↔ (y ∈ ex_tree.inorder ∧ y ≠ 4)) :=
  ⟨by decide, by decide,
    erase_no_dangling ex_mem ex_tree 4 3 (by decide) (by decide) (by decide)⟩

/-- C3: parent/child consistency is kept by every operation on a well-formed
tree: it holds before the call, after `rb_erase_node` of a node of the tree,
after `rb_link_node` of a new node into an empty left or right slot of a node
of the tree, and after `rb_link_node` into the root slot of an empty tree. -/
theorem consistency_invariant (m : Mem) (t : Tree) (hwf : Wf m t) :
    Consistent m ∧
    (∀ x fuel, x ∈ t.inorder → t.height ≤ fuel →
      ∃ m2, rb_erase_node fuel x m = some m2 ∧ Consistent m2) ∧
    (∀ n p, n ∉ t.inorder → p ∈ t.inorder →
      ((m.heap p).left = none → Consistent (rb_link_node n (some p) (Slot.left p) m)) ∧
      ((m.heap p).right = none → Consistent (rb_link_node n (some p) (Slot.right p) m))) ∧
    (∀ n, t = Tree.nil → Consistent (rb_link_node n none Slot.root m)) := by
  refine ⟨wf_consistent m t hwf, ?_, ?_, ?_⟩
  · intro x fuel hx hf
    obtain ⟨m2, t2, h1, h2, _, _⟩ := erase_wf m t x fuel hwf hx hf
    exact ⟨m2, h1, wf_consistent m2 t2 h2⟩
  · intro n p hn hp
    constructor
    · intro hslot
      obtain ⟨t2, _, _, h2, _⟩ := link_left_wf m t n p hwf hn hp hslot
      exact wf_consistent _ t2 h2
    · intro hslot
      obtain ⟨t2, _, _, h2, _⟩ := link_right_wf m t n p hwf hn hp hslot
      exact wf_consistent _ t2 h2
  · intro n ht
    subst ht
    exact wf_consistent _ _ (link_root_wf m n hwf)

/-- C3, at the tree `((1 2 3) 4 (5 6 7))` (removal of node 4, linking of
node 8 below node 1) and at the empty tree (linking of node 1 at the root). -/
theorem consistency_invariant_witness :
    (Wf ex_mem ex_tree ∧ Consistent ex_mem ∧
      (∃ m2, rb_erase_node 3 4 ex_mem = some m2 ∧ Consistent m2) ∧
      Consistent (rb_link_node 8 (some 1) (Slot.left 1) ex_mem) ∧
      Consistent (rb_link_node 8 (some 1) (Slot.right 1) ex_mem)) ∧
    (Wf empty_mem Tree.nil ∧ Consistent (rb_link_node 1 none Slot.root empty_mem)) :=
  ⟨⟨by decide, (consistency_invariant ex_mem ex_tree (by decide)).1,
      (consistency_invariant ex_mem ex_tree (by decide)).2.1 4 3 (by decide) (by decide),
      ((consistency_invariant ex_mem ex_tree (by decide)).2.2.1 8 1 (by decide)
        (by decide)).1 (by decide),
      ((consistency_invariant ex_mem ex_tree (by decide)).2.2.1 8 1 (by decide)
        (by decide)).2 (by decide)⟩,
    ⟨by decide, (consistency_invariant empty_mem Tree.nil (by decide)).2.2.2 1 rfl⟩⟩

/-! ## Linking -/

/-- C8: `rb_link_node(node, parent, rb_link)`, for a slot that is not a field
of the new node itself, leaves `node.parent == parent`, `node.left == NULL`,
`node.right == NULL` and `*rb_link == node`; the parent field of every other
node and every slot other than `*rb_link` (root handle, left and right fields
of the other nodes) are unchanged.  When the tree is well-formed, `node` is not
in it and the slot is an empty slot of `parent` (or the root slot of an empty
tree with `parent == NULL`), the in-order sequence afterwards is the previous
one with `node` inserted immediately before `parent` (left slot) or
immediately after `parent` (right slot). -/
theorem link_node_effect (m : Mem) (node : Nat) (parent : Option Nat) (rb_link : Slot)
    (hslot : rb_link ≠ Slot.left node ∧ rb_link ≠ Slot.right node) :
    ((rb_link_node node parent rb_link m).heap node).parent = parent ∧
    ((rb_link_node node parent rb_link m).heap node).left = none ∧
    ((rb_link_node node parent rb_link m).heap node).right = none ∧
    (rb_link_node node parent rb_link m).load rb_link = some node ∧
    (∀ k, k ≠ node →
      ((rb_link_node node parent rb_link m).heap k).parent = (m.heap k).parent) ∧
    (∀ s, s ≠ rb_link → s ≠ Slot.left node → s ≠ Slot.right node →
      (rb_link_node node parent rb_link m).load s = m.load s) ∧
    (∀ t p fuel steps, Wf m t → node ∉ t.inorder → p ∈ t.inorder → parent = some p →
      m.load rb_link = none → t.height + 1 ≤ fuel → t.inorder.length + 1 ≤ steps →
      ∃ pre post, traverse fuel steps m = some (pre ++ p :: post) ∧
        (rb_link = Slot.left p →
          traverse fuel steps (rb_link_node node parent rb_link m) =
            some (pre ++ node :: p :: post)) ∧
        (rb_link = Slot.right p →
          traverse fuel steps (rb_link_node node parent rb_link m) =
            some (pre ++ p :: node :: post))) ∧
    (∀ fuel steps, Wf m Tree.nil → parent = none → rb_link = Slot.root → 1 ≤ steps →
      traverse fuel steps m = some [] ∧
      traverse fuel steps (rb_link_node node parent rb_link m) = some [node]) := by
  obtain ⟨hs1, hs2⟩ := hslot
  refine ⟨?_, ?_, ?_, ?_, ?_, ?_, ?_, ?_⟩
  · cases rb_link <;> simp [rb_link_node, Mem.store]
  · cases rb_link with
    | root => simp [rb_link_node, Mem.store]
    | left q =>
      have : node ≠ q := fun e => hs1 (by rw [e])
      simp [rb_link_node, Mem.store, this]
    | right q => simp [rb_link_node, Mem.store]
  · cases rb_link with
    | root => simp [rb_link_node, Mem.store]
    | left q => simp [rb_link_node, Mem.store]
    | right q =>
      have : node ≠ q := fun e => hs2 (by rw [e])
      simp [rb_link_node, Mem.store, this]
  · cases rb_link <;> simp [rb_link_node, Mem.store, Mem.load]
  · intro k hk
    cases rb_link <;> simp [rb_link_node, Mem.store, hk]
  · intro s h1 h2 h3
    cases s with
    | root =>
      cases rb_link with
      | root => exact absurd rfl h1
      | left q => simp [rb_link_node, Mem.store, Mem.load]
      | right q => simp [rb_link_node, Mem.store, Mem.load]
    | left k =>
      have hk : k ≠ node := fun e => h2 (by rw [e])
      cases rb_link with
      | root => simp [rb_link_node, Mem.store, Mem.load, hk]
      | left q =>
        have : k ≠ q := fun e => h1 (by rw [e])
        simp [rb_link_node, Mem.store, Mem.load, hk, this]
      | right q => simp [rb_link_node, Mem.store, Mem.load, hk]
    | right k =>
      have hk : k ≠ node := fun e => h3 (by rw [e])
      cases rb_link with
      | root => simp [rb_link_node, Mem.store, Mem.load, hk]
      | left q => simp [rb_link_node, Mem.store, Mem.load, hk]
      | right q =>
        have : k ≠ q := fun e => h1 (by rw [e])
        simp [rb_link_node, Mem.store, Mem.load, hk, this]
  · intro t p fuel steps hwf hn hp hpar hempty hf hst
    subst hpar
    obtain ⟨pre, post, e⟩ := List.append_of_mem hp
    have hnd := hwf.2.2
    rw [e] at hnd
    have hnd2 := List.nodup_cons.mp (List.nodup_middle.mp hnd)
    have hp1 : p ∉ pre := fun h => hnd2.1 (List.mem_append_left _ h)
    have hp2 : p ∉ post := fun h => hnd2.1 (List.mem_append_right _ h)
    refine ⟨pre, post, ?_, ?_, ?_⟩
    · rw [← e]
      exact traverse_list m t fuel steps hwf (by omega) (by omega)
    · intro hl
      subst hl
      obtain ⟨t2, pre2, post2, h1, h2, h3, h4⟩ := link_left_wf m t node p hwf hn hp hempty
      rw [e] at h2
      obtain ⟨e1, _, e2⟩ := (List.append_cons_inj_of_not_mem hp1 hp2).mp h2
      subst e1 e2
      rw [← h3]
      apply traverse_list _ t2 fuel steps h1 (by omega)
      rw [h3]
      have := congrArg List.length e
      simp only [List.length_append, List.length_cons] at this ⊢
      omega
    · intro hr
      subst hr
      obtain ⟨t2, pre2, post2, h1, h2, h3, h4⟩ := link_right_wf m t node p hwf hn hp hempty
      rw [e] at h2
      obtain ⟨e1, _, e2⟩ := (List.append_cons_inj_of_not_mem hp1 hp2).mp h2
      subst e1 e2
      rw [← h3]
      apply traverse_list _ t2 fuel steps h1 (by omega)
      rw [h3]
      have := congrArg List.length e
      simp only [List.length_append, List.length_cons] at this ⊢
      omega
  · intro fuel steps hwf hpar hroot hst
    subst hpar hroot
    constructor
    · exact traverse_list m Tree.nil fuel steps hwf (by simp [Tree.height]) (by simp [Tree.inorder])
    · exact traverse_list _ (leaf node) fuel steps (link_root_wf m node hwf)
        (by simp [leaf, Tree.height]) (by simpa [leaf, Tree.inorder] using hst)

/-- C8, linking node 8 into the right slot of node 7 of the tree
`((1 2 3) 4 (5 6 7))`. -/
theorem link_node_effect_witness :
    (Slot.right 7 ≠ Slot.left 8 ∧ Slot.right 7 ≠ Slot.right 8) ∧ Wf ex_mem ex_tree ∧
    8 ∉ ex_tree.inorder ∧ ex_mem.load (Slot.right 7) = none ∧
    ∃ pre post, traverse 4 8 ex_mem = some (pre ++ 7 :: post) ∧
      traverse 4 8 (rb_link_node 8 (some 7) (Slot.right 7) ex_mem) =
        some (pre ++ 7 :: 8 :: post) := by
  refine ⟨by decide, by decide, by decide, by decide, ?_⟩
  obtain ⟨pre, post, h1, _, h3⟩ :=
    (link_node_effect ex_mem 8 (some 7) (Slot.right 7) (by decide)).2.2.2.2.2.2.1
      ex_tree 7 4 8 (by decide) (by decide) (by decide) rfl (by decide) (by decide) (by decide)
  exact ⟨pre, post, h1, h3 rfl⟩

/-! ## Sequences of insertions and removals -/

theorem height_le_length : ∀ (t : Tree), t.height ≤ t.inorder.length
  | Tree.nil => by simp [Tree.height]
  | Tree.node l x r => by
    have h1 := height_le_length l
    have h2 := height_le_length r
    simp only [Tree.height, Tree.inorder, List.length_append, List.length_cons]
    omega

theorem sorted_mid (key : Nat → Nat) {a l r d : List Nat} {c : Nat}
    (h : KeySorted key (a ++ ((l ++ c :: r) ++ d))) :
    (∀ y ∈ l, key y ≤ key c) ∧ (∀ y ∈ r, key c ≤ key y) := by
  have h1 := (List.pairwise_append.mp h).2.1
  have h2 := (List.pairwise_append.mp h1).1
  have h3 := List.pairwise_append.mp h2
  exact ⟨fun y hy => h3.2.2 y hy c (List.mem_cons_self _ _),
    fun y hy => (List.pairwise_cons.mp h3.2.1).1 y hy⟩

/-- The comparison descent ends at an empty slot of the tree, with all nodes
listed before the slot having keys at most `k` and all nodes listed after it
having keys above `k`. -/
theorem find_slot_spec (key : Nat → Nat) (m : Mem) (k : Nat) : ∀ (sub : Tree) (p : List Frame)
    (fuel : Nat), Shape m.heap sub (path_par p) →
      KeySorted key (before p ++ (sub.inorder ++ after p)) →
      (∀ y ∈ before p, key y ≤ k) → (∀ y ∈ after p, k < key y) → sub.height ≤ fuel →
      ∃ p2, find_slot key m.heap k fuel sub.ptr (path_par p) (path_slot p) =
          some (path_par p2, path_slot p2) ∧
        fill p2 Tree.nil = fill p sub ∧
        (∀ y ∈ before p2, key y ≤ k) ∧ (∀ y ∈ after p2, k < key y)
  | Tree.nil, p, fuel, _, _, hb, ha, _ => by
    refine ⟨p, ?_, rfl, hb, ha⟩
    cases fuel <;> simp [Tree.ptr, find_slot]
  | Tree.node l c r, p, fuel, hs, hsort, hb, ha, hf => by
    obtain ⟨_, hl, hr, hsl, hsr⟩ := hs
    cases fuel with
    | zero => simp [Tree.height] at hf
    | succ f =>
      simp only [Tree.height] at hf
      simp only [Tree.inorder] at hsort
      obtain ⟨hlc, hcr⟩ := sorted_mid key hsort
      by_cases hk : k < key c
      · have e : before (Frame.L c r :: p) ++ (l.inorder ++ after (Frame.L c r :: p)) =
            before p ++ ((l.inorder ++ c :: r.inorder) ++ after p) := by simp [before, after]
        have ih := find_slot_spec key m k l (Frame.L c r :: p) f hsl
          (by rw [e]; exact hsort)
          (by simpa [before] using hb)
          (by
            intro y hy
            simp only [after, List.cons_append, List.mem_cons, List.mem_append] at hy
            rcases hy with hy | hy | hy
            · rw [hy]; exact hk
            · have := hcr y hy
              omega
            · exact ha y hy)
          (by omega)
        obtain ⟨p2, h1, h2, h3, h4⟩ := ih
        refine ⟨p2, ?_, h2, h3, h4⟩
        simp only [Tree.ptr, find_slot, hk, if_true, hl]
        exact h1
      · have e : before (Frame.R l c :: p) ++ (r.inorder ++ after (Frame.R l c :: p)) =
            before p ++ ((l.inorder ++ c :: r.inorder) ++ after p) := by simp [before, after]
        have ih := find_slot_spec key m k r (Frame.R l c :: p) f hsr
          (by rw [e]; exact hsort)
          (by
            intro y hy
            simp only [before, List.mem_append, List.mem_cons, List.not_mem_nil,
              or_false] at hy
            rcases hy with hy | hy | hy
            · exact hb y hy
            · have := hlc y hy
              omega
            · rw [hy]; omega)
          (by simpa [after] using ha)
          (by omega)
        obtain ⟨p2, h1, h2, h3, h4⟩ := ih
        refine ⟨p2, ?_, h2, h3, h4⟩
        simp only [Tree.ptr, find_slot, hk, if_false, hr]
        exact h1

/-- Insertion by descent into a well-formed tree with sorted keys: the call
returns, the memory is well-formed for a tree that has the new node in
addition, and the keys are still sorted. -/
theorem insert_wf (key : Nat → Nat) (m : Mem) (t : Tree) (n fuel : Nat) (hwf : Wf m t)
    (hsort : KeySorted key t.inorder) (hn : n ∉ t.inorder) (hf : t.height ≤ fuel) :
    ∃ m2 t2, insert_node key fuel n m = some m2 ∧ Wf m2 t2 ∧ KeySorted key t2.inorder ∧
      t2.inorder.Perm (n :: t.inorder) ∧ t2.height ≤ t.height + 1 := by
  obtain ⟨p2, h1, h2, h3, h4⟩ := find_slot_spec key m (key n) t [] fuel hwf.2.1
    (by simpa [before, after] using hsort) (by simp [before]) (by simp [after]) hf
  simp only [fill] at h2
  subst h2
  refine ⟨rb_link_node n (path_par p2) (path_slot p2) m, fill p2 (leaf n), ?_,
    link_wf m p2 n hwf hn, ?_, ?_, ?_⟩
  · simp only [insert_node, hwf.1]
    change find_slot key m.heap (key n) fuel (fill p2 Tree.nil).ptr none Slot.root =
      some (path_par p2, path_slot p2) at h1
    rw [h1]
  · rw [inorder_fill] at hsort ⊢
    simp only [Tree.inorder, List.nil_append, leaf, List.cons_append] at hsort ⊢
    have hs := List.pairwise_append.mp hsort
    simp only [KeySorted, List.pairwise_append, List.pairwise_cons, List.mem_cons]
    refine ⟨hs.1, ⟨fun y hy => le_of_lt (h4 y hy), hs.2.1⟩, ?_⟩
    intro a ha b hb
    rcases hb with hb | hb
    · rw [hb]; exact h3 a ha
    · exact hs.2.2 a ha b hb
  · rw [inorder_fill, inorder_fill]
    simp only [Tree.inorder, List.nil_append, leaf, List.cons_append]
    exact List.perm_middle
  · exact height_fill_succ p2 (leaf n) Tree.nil (by simp [leaf, Tree.height])

/-- Invariant of a valid sequence of operations: the run returns, the memory
stays well-formed, the keys stay sorted and the tree holds the nodes inserted
and not erased. -/
theorem run_ops_inv (key : Nat → Nat) (fuel : Nat) : ∀ (ops : List Op) (m : Mem) (t : Tree)
    (cur : List Nat), Wf m t → KeySorted key t.inorder → t.inorder.Perm cur →
      valid_ops ops cur = true → cur.length + ops.length ≤ fuel →
      ∃ m2 t2, run_ops key fuel ops m = some m2 ∧ Wf m2 t2 ∧ KeySorted key t2.inorder ∧
        t2.inorder.Perm (nodes_after ops cur) ∧ t2.inorder.length ≤ fuel
  | [], m, t, cur, hwf, hsort, hperm, _, hf => by
    refine ⟨m, t, rfl, hwf, hsort, hperm, ?_⟩
    rw [hperm.length_eq]
    omega
  | Op.insert n :: ops, m, t, cur, hwf, hsort, hperm, hv, hf => by
    simp only [valid_ops, Bool.and_eq_true, decide_eq_true_eq] at hv
    simp only [List.length_cons] at hf
    have hlen := hperm.length_eq
    have hh := height_le_length t
    have hn : n ∉ t.inorder := fun h => hv.1 (hperm.mem_iff.mp h)
    obtain ⟨m1, t1, h1, h2, h3, h4, _⟩ := insert_wf key m t n fuel hwf hsort hn (by omega)
    obtain ⟨m2, t2, h6, h7⟩ := run_ops_inv key fuel ops m1 t1 (n :: cur) h2 h3
      (h4.trans (List.Perm.cons n hperm)) hv.2 (by simp only [List.length_cons]; omega)
    refine ⟨m2, t2, ?_, h7⟩
    simp only [run_ops, h1]
    exact h6
  | Op.erase n :: ops, m, t, cur, hwf, hsort, hperm, hv, hf => by
    simp only [valid_ops, Bool.and_eq_true, decide_eq_true_eq] at hv
    simp only [List.length_cons] at hf
    have hlen := hperm.length_eq
    have hh := height_le_length t
    have hn : n ∈ t.inorder := hperm.mem_iff.mpr hv.1
    obtain ⟨m1, t1, h1, h2, h3, _⟩ := erase_wf m t n fuel hwf hn (by omega)
    have hle : (cur.erase n).length ≤ cur.length := (List.erase_sublist n cur).length_le
    obtain ⟨m2, t2, h6, h7⟩ := run_ops_inv key fuel ops m1 t1 (cur.erase n) h2
      (by rw [h3]; exact List.Pairwise.sublist (List.erase_sublist n t.inorder) hsort)
      (by rw [h3]; exact hperm.erase n) hv.2 (by omega)
    refine ⟨m2, t2, ?_, h7⟩
    simp only [run_ops, h1]
    exact h6

theorem valid_ops_take : ∀ (ops : List Op) (cur : List Nat) (k : Nat),
    valid_ops ops cur = true → valid_ops (ops.take k) cur = true
  | [], _, k, _ => by simp [valid_ops]
  | _ :: _, _, 0, _ => by simp [valid_ops]
  | Op.insert n :: ops, cur, k + 1, h => by
    simp only [valid_ops, Bool.and_eq_true, decide_eq_true_eq, List.take_succ_cons] at h ⊢
    exact ⟨h.1, valid_ops_take ops _ k h.2⟩
  | Op.erase n :: ops, cur, k + 1, h => by
    simp only [valid_ops, Bool.and_eq_true, decide_eq_true_eq, List.take_succ_cons] at h ⊢
    exact ⟨h.1, valid_ops_take ops _ k h.2⟩

theorem wf_init (m0 : Mem) : Wf (INIT_RB_ROOT m0) Tree.nil := by
  simp [Wf, INIT_RB_ROOT, Tree.ptr, Shape, Tree.inorder]

/-- C2: starting from an empty root, after every operation of a sequence of
insertions (comparison descent, then `rb_link_node`) of nodes not in the tree
and removals (`rb_erase_node`) of nodes in the tree, the traversal by
`rb_first` and repeated `rb_next` yields the keys in non-decreasing order and
visits exactly the nodes inserted and not yet erased. -/
theorem ops_keep_order (key : Nat → Nat) (m0 : Mem) (ops : List Op) (fuel : Nat)
    (hv : valid_ops ops [] = true) (hf : ops.length ≤ fuel) :
    ∀ k, ∃ m2 seq, run_ops key fuel (ops.take k) (INIT_RB_ROOT m0) = some m2 ∧
      traverse fuel fuel m2 = some seq ∧ (seq.map key).Sorted (fun a b => a ≤ b) ∧
      seq.Perm (nodes_after (ops.take k) []) := by
  intro k
  have hlen : (ops.take k).length ≤ ops.length := by simp
  obtain ⟨m2, t2, h1, h2, h3, h4, h5⟩ := run_ops_inv key fuel (ops.take k) (INIT_RB_ROOT m0)
    Tree.nil [] (wf_init m0) (by simp [KeySorted, Tree.inorder]) (by simp [Tree.inorder])
    (valid_ops_take ops [] k hv) (by simp only [List.length_nil]; omega)
  refine ⟨m2, t2.inorder, h1, ?_, ?_, h4⟩
  · exact traverse_list m2 t2 fuel fuel h2 (by have := height_le_length t2; omega) h5
  · exact List.pairwise_map.mpr h3

/-- C2, for the sequence insert 5, insert 3, insert 8, erase 5, insert 1 with
every node carrying its address as key. -/
theorem ops_keep_order_witness :
    valid_ops [Op.insert 5, Op.insert 3, Op.insert 8, Op.erase 5, Op.insert 1] [] = true ∧
    ∀ k, ∃ m2 seq, run_ops id 5
        ([Op.insert 5, Op.insert 3, Op.insert 8, Op.erase 5, Op.insert 1].take k)
        (INIT_RB_ROOT empty_mem) = some m2 ∧
      traverse 5 5 m2 = some seq ∧ (seq.map id).Sorted (fun a b => a ≤ b) ∧
      seq.Perm (nodes_after
        ([Op.insert 5, Op.insert 3, Op.insert 8, Op.erase 5, Op.insert 1].take k) []) :=
  ⟨by decide, ops_keep_order id empty_mem
    [Op.insert 5, Op.insert 3, Op.insert 8, Op.erase 5, Op.insert 1] 5 (by decide) (by decide)⟩

/-! ## Round trip -/

theorem nodes_after_append : ∀ (a b : List Op) (cur : List Nat),
    nodes_after (a ++ b) cur = nodes_after b (nodes_after a cur)
  | [], _, _ => rfl
  | Op.insert n :: a, b, cur => by simp [nodes_after, nodes_after_append a b]
  | Op.erase n :: a, b, cur => by simp [nodes_after, nodes_after_append a b]

theorem valid_ops_append : ∀ (a b : List Op) (cur : List Nat),
    valid_ops (a ++ b) cur = (valid_ops a cur && valid_ops b (nodes_after a cur))
  | [], _, _ => by simp [valid_ops, nodes_after]
  | Op.insert n :: a, b, cur => by
    simp [valid_ops, nodes_after, valid_ops_append a b, Bool.and_assoc]
  | Op.erase n :: a, b, cur => by
    simp [valid_ops, nodes_after, valid_ops_append a b, Bool.and_assoc]

theorem valid_inserts : ∀ (ns cur : List Nat), (ns ++ cur).Nodup →
    valid_ops (ns.map Op.insert) cur = true ∧
      (nodes_after (ns.map Op.insert) cur).Perm (ns ++ cur)
  | [], cur, _ => by simp [valid_ops, nodes_after]
  | n :: ns, cur, h => by
    simp only [List.cons_append, List.nodup_cons] at h
    have h2 : (ns ++ n :: cur).Nodup := by
      apply List.nodup_middle.mpr
      exact List.nodup_cons.mpr h
    obtain ⟨ih1, ih2⟩ := valid_inserts ns (n :: cur) h2
    simp only [List.map_cons, valid_ops, nodes_after, Bool.and_eq_true, decide_eq_true_eq]
    refine ⟨⟨fun hc => h.1 (List.mem_append_right _ hc), ih1⟩, ?_⟩
    exact ih2.trans List.perm_middle

theorem valid_erases : ∀ (σ cur : List Nat), σ.Nodup → (∀ y ∈ σ, y ∈ cur) →
    valid_ops (σ.map Op.erase) cur = true ∧
      (nodes_after (σ.map Op.erase) cur).length + σ.length = cur.length
  | [], cur, _, _ => by simp [valid_ops, nodes_after]
  | s :: σ, cur, hnd, hsub => by
    have hs : s ∈ cur := hsub s (List.mem_cons_self _ _)
    have h2 := List.nodup_cons.mp hnd
    obtain ⟨ih1, ih2⟩ := valid_erases σ (cur.erase s) h2.2 (by
      intro y hy
      have hne : y ≠ s := fun e => h2.1 (e ▸ hy)
      exact (List.mem_erase_of_ne hne).mpr (hsub y (List.mem_cons_of_mem _ hy)))
    simp only [List.map_cons, valid_ops, nodes_after, Bool.and_eq_true, decide_eq_true_eq,
      List.length_cons]
    refine ⟨⟨hs, ih1⟩, ?_⟩
    have := List.length_erase_of_mem hs
    have hpos : 0 < cur.length := List.length_pos_of_mem hs
    omega

theorem inorder_eq_nil {t : Tree} (h : t.inorder = []) : t = Tree.nil := by
  cases t with
  | nil => rfl
  | node l x r => simp [Tree.inorder] at h

/-- C4: inserting `N` distinct nodes into an empty tree (comparison descent,
then `rb_link_node`) and erasing all of them with `rb_erase_node` in any order
leaves the tree empty: `rb_empty(root)` is true and `root->node` is `NULL`. -/
theorem insert_erase_round_trip (key : Nat → Nat) (m0 : Mem) (ns σ : List Nat) (fuel : Nat)
    (hnd : ns.Nodup) (hperm : σ.Perm ns) (hf : 2 * ns.length ≤ fuel) :
    ∃ m2, run_ops key fuel (ns.map Op.insert ++ σ.map Op.erase) (INIT_RB_ROOT m0) = some m2 ∧
      rb_empty m2.root = true ∧ m2.root.node = none := by
  obtain ⟨hv1, hp1⟩ := valid_inserts ns [] (by simpa using hnd)
  simp only [List.append_nil] at hp1
  obtain ⟨hv2, hl2⟩ := valid_erases σ (nodes_after (ns.map Op.insert) []) (hperm.nodup_iff.mpr hnd)
    (fun y hy => hp1.mem_iff.mpr (hperm.mem_iff.mp hy))
  have hv : valid_ops (ns.map Op.insert ++ σ.map Op.erase) [] = true := by
    rw [valid_ops_append, hv1, hv2]
    rfl
  obtain ⟨m2, t2, h1, h2, _, h4, _⟩ := run_ops_inv key fuel
    (ns.map Op.insert ++ σ.map Op.erase) (INIT_RB_ROOT m0) Tree.nil [] (wf_init m0)
    (by simp [KeySorted, Tree.inorder]) (by simp [Tree.inorder]) hv
    (by
      have := hperm.length_eq
      simp only [List.length_nil, List.length_append, List.length_map]
      omega)
  have hnil : nodes_after (ns.map Op.insert ++ σ.map Op.erase) [] = [] := by
    rw [nodes_after_append]
    apply List.length_eq_zero.mp
    have := hperm.length_eq
    have := hp1.length_eq
    omega
  rw [hnil] at h4
  have ht : t2 = Tree.nil := inorder_eq_nil (List.Perm.eq_nil h4)
  subst ht
  have hroot : m2.root.node = none := h2.1
  exact ⟨m2, h1, by simp [rb_empty, hroot], hroot⟩

/-- C4, for the nodes 5, 3, 8, 1 erased in the order 3, 1, 8, 5. -/
theorem insert_erase_round_trip_witness :
    [5, 3, 8, 1].Nodup ∧ [3, 1, 8, 5].Perm [5, 3, 8, 1] ∧
    ∃ m2, run_ops id 8 ([5, 3, 8, 1].map Op.insert ++ [3, 1, 8, 5].map Op.erase)
        (INIT_RB_ROOT empty_mem) = some m2 ∧
      rb_empty m2.root = true ∧ m2.root.node = none :=
  ⟨by decide, by decide,
    insert_erase_round_trip id empty_mem [5, 3, 8, 1] [3, 1, 8, 5] 8 (by decide) (by decide)
      (by decide)⟩

/-! ## The priority queue against the reference queue -/

theorem getmin_scan_some (q : List Nat) : ∀ (cnt i j : Nat), j < i → i + cnt = q.length →
    (∀ k, k < i → q.getD j 0 ≤ q.getD k 0) →
    ∃ j2, getmin_scan q cnt i (some j) = some j2 ∧ j2 < q.length ∧
      ∀ k, k < q.length → q.getD j2 0 ≤ q.getD k 0
  | 0, i, j, hj, hi, hmin => by
    refine ⟨j, rfl, by omega, ?_⟩
    intro k hk
    exact hmin k (by omega)
  | cnt + 1, i, j, hj, hi, hmin => by
    simp only [getmin_scan]
    split
    · rename_i hlt
      apply getmin_scan_some q cnt (i + 1) i (by omega) (by omega)
      intro k hk
      by_cases hki : k = i
      · rw [hki]
      · have := hmin k (by omega)
        omega
    · rename_i hge
      apply getmin_scan_some q cnt (i + 1) j (by omega) (by omega)
      intro k hk
      by_cases hki : k = i
      · rw [hki]; omega
      · exact hmin k (by omega)

/-- The scan of `valuequeue_getmin` finds a position of the minimum. -/
theorem getmin_scan_spec (q : List Nat) (hq : q ≠ []) :
    ∃ j, getmin_scan q q.length 0 none = some j ∧ j < q.length ∧
      ∀ k, k < q.length → q.getD j 0 ≤ q.getD k 0 := by
  have hpos : 0 < q.length := List.length_pos.mpr hq
  obtain ⟨n, hn⟩ : ∃ n, q.length = n + 1 := ⟨q.length - 1, by omega⟩
  rw [hn]
  simp only [getmin_scan]
  have := getmin_scan_some q n 1 0 (by omega) (by omega) (by
    intro k hk
    have : k = 0 := by omega
    rw [this])
  rw [hn] at this
  exact this

/-- The value returned by `valuequeue_getmin` is the minimum of the array, and
the array after the exchange holds the other entries followed by that
value. -/
theorem valuequeue_getmin_spec (q : List Nat) (hq : q ≠ []) :
    (valuequeue_getmin q).1 ∈ q ∧ (∀ w ∈ q, (valuequeue_getmin q).1 ≤ w) ∧
      ((valuequeue_getmin q).2.dropLast ++ [(valuequeue_getmin q).1]).Perm q := by
  obtain ⟨j, hscan, hj, hmin⟩ := getmin_scan_spec q hq
  have hpos : 0 < q.length := List.length_pos.mpr hq
  have hlast : q.length - 1 < q.length := by omega
  have e1 : ∀ k (hk : k < q.length), q.getD k 0 = q[k] := fun k hk => List.getD_eq_getElem q 0 hk
  have hval : (valuequeue_getmin q).1 = q[j] := by
    have ej := e1 j hj
    have el := e1 _ hlast
    simp only [valuequeue_getmin, hscan, ej, el]
    rw [List.getD_eq_getElem _ 0 (by simpa using hlast)]
    by_cases hjl : j = q.length - 1
    · subst hjl
      simp
    · rw [List.getElem_set_ne hjl, List.getElem_set_self]
  have hq2 : (valuequeue_getmin q).2 =
      (q.set (q.length - 1) q[j]).set j q[q.length - 1] := by
    have ej := e1 j hj
    have el := e1 _ hlast
    simp only [valuequeue_getmin, hscan, ej, el]
  have hperm : ((q.set (q.length - 1) q[j]).set j q[q.length - 1]).Perm q := by
    rw [List.perm_iff_count]
    intro b
    have hj1 : j < (q.set (q.length - 1) q[j]).length := by simpa using hj
    rw [List.count_set _ _ _ _ hj1, List.count_set _ _ _ _ hlast]
    have h1 := List.boole_getElem_le_count b q (q.length - 1) hlast
    have h2 : (q.set (q.length - 1) q[j])[j] = q[j] := by
      rw [List.getElem_set]
      split <;> rfl
    rw [h2]
    generalize (if q[q.length - 1] == b then 1 else 0) = A at h1 ⊢
    generalize (if q[j] == b then 1 else 0) = B
    omega
  refine ⟨?_, ?_, ?_⟩
  · rw [hval]
    exact List.getElem_mem hj
  · intro w hw
    obtain ⟨k, hk, rfl⟩ := List.getElem_of_mem hw
    rw [hval]
    have := hmin k hk
    rwa [e1 j hj, e1 k hk] at this
  · rw [hq2]
    have hne : (q.set (q.length - 1) q[j]).set j q[q.length - 1] ≠ [] := by
      intro h
      have := congrArg List.length h
      simp only [List.length_set, List.length_nil] at this
      omega
    have hl : ((q.set (q.length - 1) q[j]).set j q[q.length - 1]).getLast hne =
        (valuequeue_getmin q).1 := by
      rw [hval, List.getLast_eq_getElem]
      simp only [List.length_set]
      by_cases hjl : j = q.length - 1
      · subst hjl
        simp
      · rw [List.getElem_set_ne hjl, List.getElem_set_self]
    rw [← hl, List.dropLast_append_getLast hne]
    exact hperm

/-- Invariant of the test's main loop: the queue memory stays well-formed
with sorted keys, its values are those of the reference array, and every pop
returns what the reference expects. -/
theorem queue_run_inv (key : Nat → Nat) (fuel : Nat) : ∀ (ops : List QOp) (m : Mem) (t : Tree)
    (q : List Nat), Wf m t → KeySorted key t.inorder → (t.inorder.map key).Perm q →
      (inserted_items ops).Nodup → (∀ x ∈ inserted_items ops, x ∉ t.inorder) →
      t.inorder.length + ops.length ≤ fuel →
      ∃ m2 t2 items, queue_run key fuel ops m = some (m2, items) ∧ Wf m2 t2 ∧
        items.map (Option.map key) = (reference_run key ops q).1 ∧
        (t2.inorder.map key).Perm (reference_run key ops q).2 ∧
        t2.inorder.length ≤ fuel ∧
        (∀ x ∈ t2.inorder, x ∈ t.inorder ∨ x ∈ inserted_items ops) ∧
        (∀ item, some item ∈ items → item ∈ t.inorder ∨ item ∈ inserted_items ops) ∧
        (∀ item, some item ∈ items → item ∉ t2.inorder)
  | [], m, t, q, hwf, _, hperm, _, _, hf => by
    refine ⟨m, t, [], rfl, hwf, rfl, hperm, by omega, fun x hx => Or.inl hx, ?_, ?_⟩
    · intro item h; simp at h
    · intro item h; simp at h
  | QOp.insert item :: ops, m, t, q, hwf, hsort, hperm, hnd, hfresh, hf => by
    simp only [inserted_items, List.nodup_cons, List.mem_cons] at hnd hfresh
    simp only [List.length_cons] at hf
    have hh := height_le_length t
    have hn : item ∉ t.inorder := hfresh item (Or.inl rfl)
    obtain ⟨m1, t1, h1, h2, h3, h4, _⟩ := insert_wf key m t item fuel hwf hsort hn (by omega)
    have hlen1 := h4.length_eq
    simp only [List.length_cons] at hlen1
    obtain ⟨m2, t2, items, r1, r2, r3, r4, r5, r6, r7, r8⟩ :=
      queue_run_inv key fuel ops m1 t1 (q ++ [key item]) h2 h3
        (by
          have := (h4.map key).trans (List.Perm.cons (key item) hperm)
          exact this.trans (List.perm_append_singleton (key item) q).symm)
        hnd.2
        (by
          intro x hx hx1
          rcases List.mem_cons.mp (h4.mem_iff.mp hx1) with e | e
          · exact hnd.1 (e ▸ hx)
          · exact hfresh x (Or.inr hx) e)
        (by omega)
    refine ⟨m2, t2, items, ?_, r2, r3, r4, r5, ?_, ?_, r8⟩
    · simp only [queue_run, splay_prioqueue_insert_unbalanced, h1]
      exact r1
    · intro x hx
      rcases r6 x hx with h | h
      · rcases List.mem_cons.mp (h4.mem_iff.mp h) with e | e
        · exact Or.inr (by simp [inserted_items, e])
        · exact Or.inl e
      · exact Or.inr (by simp [inserted_items, h])
    · intro x hx
      rcases r7 x hx with h | h
      · rcases List.mem_cons.mp (h4.mem_iff.mp h) with e | e
        · exact Or.inr (by simp [inserted_items, e])
        · exact Or.inl e
      · exact Or.inr (by simp [inserted_items, h])
  | QOp.pop :: ops, m, t, q, hwf, hsort, hperm, hnd, hfresh, hf => by
    simp only [inserted_items] at hnd hfresh
    simp only [List.length_cons] at hf
    have hh := height_le_length t
    have hfirst := first_list m t fuel hwf (by omega)
    cases hin : t.inorder with
    | nil =>
      rw [hin] at hperm hfirst
      have hq : q = [] := by
        have := hperm.length_eq
        simp only [List.map_nil, List.length_nil] at this
        exact List.length_eq_zero.mp this.symm
      subst hq
      obtain ⟨m2, t2, items, r1, r2, r3, r4, r5, r6, r7, r8⟩ :=
        queue_run_inv key fuel ops m t [] hwf hsort (by rw [hin]; simp) hnd hfresh (by omega)
      refine ⟨m2, t2, none :: items, ?_, r2, ?_, ?_, r5, ?_, ?_, ?_⟩
      · simp only [queue_run, splay_prioqueue_pop_unbalanced, hfirst, List.head?_nil, r1]
      · simp [reference_run, r3]
      · simpa [reference_run] using r4
      · intro x hx
        rw [← hin]
        exact r6 x hx
      · intro x hx
        rw [← hin]
        simp only [List.mem_cons, reduceCtorEq, false_or] at hx
        exact r7 x hx
      · intro x hx
        simp only [List.mem_cons, reduceCtorEq, false_or] at hx
        exact r8 x hx
    | cons h tl =>
      rw [hin] at hperm hfirst
      have hhin : h ∈ t.inorder := by rw [hin]; simp
      obtain ⟨m1, t1, h1, h2, h3, _⟩ := erase_wf m t h fuel hwf hhin (by omega)
      have ht1 : t1.inorder = tl := by rw [h3, hin]; simp
      have hlen : t.inorder.length = tl.length + 1 := by rw [hin]; simp
      have hnd0 := hwf.2.2
      rw [hin] at hnd0 hsort
      have hq : q ≠ [] := by
        intro e
        subst e
        have := hperm.length_eq
        simp at this
      obtain ⟨g1, g2, g3⟩ := valuequeue_getmin_spec q hq
      have hkey : key h = (valuequeue_getmin q).1 := by
        have a1 : (valuequeue_getmin q).1 ≤ key h :=
          g2 (key h) (hperm.mem_iff.mp (by simp))
        have a2 : key h ≤ (valuequeue_getmin q).1 := by
          have := hperm.mem_iff.mpr g1
          simp only [List.map_cons, List.mem_cons, List.mem_map] at this
          rcases this with e | ⟨x, hx, e⟩
          · omega
          · have := (List.pairwise_cons.mp hsort).1 x hx
            omega
        omega
      have hp1 : (t1.inorder.map key).Perm (valuequeue_getmin q).2.dropLast := by
        rw [ht1]
        have e1 := g3.trans hperm.symm
        rw [← hkey] at e1
        have e2 := (List.perm_append_singleton (key h) (valuequeue_getmin q).2.dropLast).symm.trans e1
        simp only [List.map_cons] at e2
        exact (List.Perm.cons_inv e2).symm
      obtain ⟨m2, t2, items, r1, r2, r3, r4, r5, r6, r7, r8⟩ :=
        queue_run_inv key fuel ops m1 t1 (valuequeue_getmin q).2.dropLast h2
          (by rw [ht1]; exact (List.pairwise_cons.mp hsort).2) hp1 hnd
          (by
            intro x hx hx1
            rw [ht1] at hx1
            exact hfresh x hx (by rw [hin]; simp [hx1]))
          (by rw [ht1]; omega)
      have hqlen : q.length ≠ 0 := fun e => hq (List.length_eq_zero.mp e)
      refine ⟨m2, t2, some h :: items, ?_, r2, ?_, ?_, r5, ?_, ?_, ?_⟩
      · simp only [queue_run, splay_prioqueue_pop_unbalanced, hfirst, List.head?_cons, h1, r1]
      · simp [reference_run, hqlen, r3, hkey]
      · simpa [reference_run, hqlen] using r4
      · intro x hx
        rcases r6 x hx with e | e
        · rw [ht1] at e
          exact Or.inl (by simp [e])
        · exact Or.inr e
      · intro x hx
        simp only [List.mem_cons, Option.some.injEq] at hx
        rcases hx with e | e
        · exact Or.inl (by simp [e])
        · rcases r7 x e with e2 | e2
          · rw [ht1] at e2
            exact Or.inl (by simp [e2])
          · exact Or.inr e2
      · intro x hx hx2
        simp only [List.mem_cons, Option.some.injEq] at hx
        rcases hx with e | e
        · subst e
          rcases r6 x hx2 with e2 | e2
          · rw [ht1] at e2
            exact (List.nodup_cons.mp hnd0).1 e2
          · exact hfresh x e2 hhin
        · exact r8 x e hx2

theorem reference_run_length (key : Nat → Nat) : ∀ (ops : List QOp) (q : List Nat),
    (reference_run key ops q).2.length + ((reference_run key ops q).1.filterMap id).length =
      q.length + (inserted_items ops).length
  | [], q => by simp [reference_run, inserted_items]
  | QOp.insert item :: ops, q => by
    have ih := reference_run_length key ops (q ++ [key item])
    simp only [reference_run, inserted_items, List.length_cons, List.length_append,
      List.length_nil] at ih ⊢
    omega
  | QOp.pop :: ops, q => by
    by_cases hq : q.length ≠ 0
    · have hne : q ≠ [] := fun e => hq (by rw [e]; rfl)
      have ih := reference_run_length key ops (valuequeue_getmin q).2.dropLast
      have hl := (valuequeue_getmin_spec q hne).2.2.length_eq
      simp only [List.length_append, List.length_cons, List.length_nil] at hl
      rw [reference_run, if_pos hq]
      simp only [inserted_items, List.filterMap_cons, id, List.length_cons] at ih ⊢
      omega
    · have ih := reference_run_length key ops q
      rw [reference_run, if_neg hq]
      simp only [inserted_items, List.filterMap_cons, id] at ih ⊢
      exact ih

theorem filterMap_map_key (key : Nat → Nat) : ∀ (items : List (Option Nat)),
    ((items.map (Option.map key)).filterMap id).length = (items.filterMap id).length
  | [] => rfl
  | none :: items => by
    simpa [List.filterMap_cons] using filterMap_map_key key items
  | some a :: items => by
    simpa [List.filterMap_cons] using filterMap_map_key key items

/-- C10: for every interleaving of `splay_prioqueue_insert_unbalanced` (of
pairwise distinct items) and `splay_prioqueue_pop_unbalanced` on a freshly
initialised queue, the run returns; every pop returns what the test's
reference queue expects, that is an item whose value is the value found by
the linear scan of `valuequeue_getmin` when the queue is non-empty and `NULL`
when it is empty; the popped items are no longer in the queue, whose values
stay those of the reference array; and when every inserted item has been
popped the root is empty. -/
theorem queue_agrees_with_reference (key : Nat → Nat) (m0 : Mem) (ops : List QOp) (fuel : Nat)
    (hnd : (inserted_items ops).Nodup) (hf : ops.length ≤ fuel) :
    ∃ m2 items seq, queue_run key fuel ops (INIT_RB_ROOT m0) = some (m2, items) ∧
      items.map (Option.map key) = (reference_run key ops []).1 ∧
      traverse fuel fuel m2 = some seq ∧ (seq.map key).Perm (reference_run key ops []).2 ∧
      (∀ item, some item ∈ items → item ∈ inserted_items ops ∧ item ∉ seq) ∧
      ((items.filterMap id).length = (inserted_items ops).length →
        rb_empty m2.root = true ∧ m2.root.node = none) := by
  obtain ⟨m2, t2, items, r1, r2, r3, r4, r5, _, r7, r8⟩ :=
    queue_run_inv key fuel ops (INIT_RB_ROOT m0) Tree.nil [] (wf_init m0)
      (by simp [KeySorted, Tree.inorder]) (by simp [Tree.inorder]) hnd
      (by simp [Tree.inorder]) (by simp only [Tree.inorder, List.length_nil]; omega)
  refine ⟨m2, items, t2.inorder, r1, r3, ?_, r4, ?_, ?_⟩
  · exact traverse_list m2 t2 fuel fuel r2 (by have := height_le_length t2; omega) r5
  · intro item h
    refine ⟨?_, r8 item h⟩
    rcases r7 item h with e | e
    · simp [Tree.inorder] at e
    · exact e
  · intro hall
    have hl := reference_run_length key ops []
    rw [← r3, filterMap_map_key, hall] at hl
    have hlen := r4.length_eq
    simp only [List.length_map, List.length_nil] at hlen hl
    have ht : t2 = Tree.nil := inorder_eq_nil (List.length_eq_zero.mp (by omega))
    subst ht
    have hroot : m2.root.node = none := r2.1
    exact ⟨by simp [rb_empty, hroot], hroot⟩

/-- C10, for the run insert 5, insert 3, pop, pop, pop, insert 4, pop with
every item carrying its address as value. -/
theorem queue_agrees_with_reference_witness :
    (inserted_items [QOp.insert 5, QOp.insert 3, QOp.pop, QOp.pop, QOp.pop, QOp.insert 4,
      QOp.pop]).Nodup ∧
    (reference_run id [QOp.insert 5, QOp.insert 3, QOp.pop, QOp.pop, QOp.pop, QOp.insert 4,
      QOp.pop] []).1 = [some 3, some 5, none, some 4] ∧
    ∃ m2 items seq, queue_run id 7 [QOp.insert 5, QOp.insert 3, QOp.pop, QOp.pop, QOp.pop,
        QOp.insert 4, QOp.pop] (INIT_RB_ROOT empty_mem) = some (m2, items) ∧
      items.map (Option.map id) = (reference_run id [QOp.insert 5, QOp.insert 3, QOp.pop,
        QOp.pop, QOp.pop, QOp.insert 4, QOp.pop] []).1 ∧
      traverse 7 7 m2 = some seq ∧
      (seq.map id).Perm (reference_run id [QOp.insert 5, QOp.insert 3, QOp.pop, QOp.pop,
        QOp.pop, QOp.insert 4, QOp.pop] []).2 ∧
      (∀ item, some item ∈ items →
        item ∈ inserted_items [QOp.insert 5, QOp.insert 3, QOp.pop, QOp.pop, QOp.pop,
          QOp.insert 4, QOp.pop] ∧ item ∉ seq) ∧
      ((items.filterMap id).length = (inserted_items [QOp.insert 5, QOp.insert 3, QOp.pop,
          QOp.pop, QOp.pop, QOp.insert 4, QOp.pop]).length →
        rb_empty m2.root = true ∧ m2.root.node = none) :=
  ⟨by decide, by decide,
    queue_agrees_with_reference id empty_mem
      [QOp.insert 5, QOp.insert 3, QOp.pop, QOp.pop, QOp.pop, QOp.insert 4, QOp.pop] 7
      (by decide) (by decide)⟩

/-! ## The balanced priority queue -/

theorem rotate_up_inorder (f : Frame) (x : Tree) :
    (rotate_up f x).inorder = (f.plug x).inorder := by
  cases f <;> cases x <;> simp [rotate_up, Frame.plug, Tree.inorder]

theorem splay_step_inorder (f1 f2 : Frame) (x : Tree) :
    (splay_step f1 f2 x).inorder = (f2.plug (f1.plug x)).inorder := by
  cases f1 <;> cases f2 <;> cases x <;>
    simp [splay_step, rotate_up, Frame.plug, Tree.inorder]

/-- Splaying preserves the in-order sequence. -/
theorem splay_inorder : ∀ (p : List Frame) (x : Tree), (splay p x).inorder = (fill p x).inorder
  | [], _ => rfl
  | [f], x => by simp [splay, fill, rotate_up_inorder]
  | f1 :: f2 :: rest, x => by
    rw [splay, splay_inorder rest, inorder_fill, splay_step_inorder]
    simp only [fill]
    rw [inorder_fill]

/-- Splaying a node without left child along a path of left steps leaves it
without left child: it is the minimum. -/
theorem splay_min_shape : ∀ (p : List Frame) (x : Nat) (b : Tree), before p = [] →
    ∃ b2, splay p (Tree.node Tree.nil x b) = Tree.node Tree.nil x b2
  | [], x, b, _ => ⟨b, rfl⟩
  | [Frame.L q c], x, b, _ => ⟨_, rfl⟩
  | [Frame.R c q], x, b, h => by simp [before] at h
  | Frame.L q c :: Frame.L g d :: rest, x, b, h => by
    simp only [splay, splay_step, rotate_up]
    exact splay_min_shape rest x _ (by simpa [before] using h)
  | Frame.L q c :: Frame.R d g :: rest, x, b, h => by simp [before] at h
  | Frame.R c q :: f2 :: rest, x, b, h => by simp [before] at h

theorem min_path_spec : ∀ (t : Tree) (p : List Frame), t ≠ Tree.nil →
    ∃ q s b, min_path t p = some (q, Tree.node Tree.nil s b) ∧
      fill q (Tree.node Tree.nil s b) = fill p t ∧ before q = before p
  | Tree.nil, _, h => absurd rfl h
  | Tree.node Tree.nil x r, p, _ => ⟨p, x, r, rfl, rfl, rfl⟩
  | Tree.node (Tree.node ll lx lr) x r, p, _ => by
    obtain ⟨q, s, b, h1, h2, h3⟩ :=
      min_path_spec (Tree.node ll lx lr) (Frame.L x r :: p) (by simp)
    exact ⟨q, s, b, by rw [min_path]; exact h1, h2, h3⟩

theorem splay_join_inorder (l r : Tree) : (splay_join l r).inorder = l.inorder ++ r.inorder := by
  cases r with
  | nil => simp [splay_join, min_path, Tree.inorder]
  | node rl rx rr =>
    obtain ⟨q, s, b, h1, h2, h3⟩ := min_path_spec (Tree.node rl rx rr) [] (by simp)
    obtain ⟨b2, hb⟩ := splay_min_shape q s b (by simpa [before] using h3)
    have hin := splay_inorder q (Tree.node Tree.nil s b)
    rw [hb, h2] at hin
    simp only [fill] at hin
    simp only [splay_join, h1, hb]
    rw [← hin]
    simp [Tree.inorder]

/-- A pop returns the first node of the in-order sequence and leaves the
rest, or returns "empty" on the empty queue. -/
theorem pop_balanced_spec (t : Tree) :
    (t.inorder = [] → splay_prioqueue_pop_balanced t = (t, none)) ∧
    (∀ h tl, t.inorder = h :: tl →
      (splay_prioqueue_pop_balanced t).2 = some h ∧
      (splay_prioqueue_pop_balanced t).1.inorder = tl) := by
  constructor
  · intro h
    rw [inorder_eq_nil h]
    rfl
  · intro h tl hin
    have hne : t ≠ Tree.nil := by
      intro e
      rw [e] at hin
      simp [Tree.inorder] at hin
    obtain ⟨q, s, b, h1, h2, h3⟩ := min_path_spec t [] hne
    obtain ⟨b2, hb⟩ := splay_min_shape q s b (by simpa [before] using h3)
    have hs := splay_inorder q (Tree.node Tree.nil s b)
    rw [hb, h2] at hs
    simp only [fill] at hs
    rw [hin] at hs
    simp only [Tree.inorder, List.nil_append, List.cons.injEq] at hs
    simp only [splay_prioqueue_pop_balanced, h1, splay_erase, hb, Tree.ptr, splay_join_inorder,
      Tree.inorder, List.nil_append]
    exact ⟨by rw [hs.1], hs.2⟩

theorem pop_all_spec : ∀ (l : List Nat) (t : Tree), t.inorder = l →
    (pop_all l.length t).2 = l.map some ∧ (pop_all l.length t).1.inorder = []
  | [], t, h => by simp [pop_all, h]
  | a :: l, t, h => by
    obtain ⟨h1, h2⟩ := (pop_balanced_spec t).2 a l h
    obtain ⟨h3, h4⟩ := pop_all_spec l (splay_prioqueue_pop_balanced t).1 h2
    simp only [List.length_cons, pop_all, h1, h3, List.map_cons, h4, and_self]

theorem descend_path_spec (key : Nat → Nat) (k : Nat) : ∀ (sub : Tree) (p : List Frame),
    KeySorted key (before p ++ (sub.inorder ++ after p)) →
      (∀ y ∈ before p, key y ≤ k) → (∀ y ∈ after p, k < key y) →
      fill (descend_path key k sub p) Tree.nil = fill p sub ∧
        (∀ y ∈ before (descend_path key k sub p), key y ≤ k) ∧
        (∀ y ∈ after (descend_path key k sub p), k < key y)
  | Tree.nil, p, _, hb, ha => ⟨rfl, hb, ha⟩
  | Tree.node l c r, p, hsort, hb, ha => by
    simp only [Tree.inorder] at hsort
    obtain ⟨hlc, hcr⟩ := sorted_mid key hsort
    by_cases hk : k < key c
    · have e : before (Frame.L c r :: p) ++ (l.inorder ++ after (Frame.L c r :: p)) =
          before p ++ ((l.inorder ++ c :: r.inorder) ++ after p) := by simp [before, after]
      have ih := descend_path_spec key k l (Frame.L c r :: p) (by rw [e]; exact hsort)
        (by simpa [before] using hb)
        (by
          intro y hy
          simp only [after, List.cons_append, List.mem_cons, List.mem_append] at hy
          rcases hy with hy | hy | hy
          · rw [hy]; exact hk
          · have := hcr y hy
            omega
          · exact ha y hy)
      simp only [descend_path, hk, if_true]
      exact ih
    · have e : before (Frame.R l c :: p) ++ (r.inorder ++ after (Frame.R l c :: p)) =
          before p ++ ((l.inorder ++ c :: r.inorder) ++ after p) := by simp [before, after]
      have ih := descend_path_spec key k r (Frame.R l c :: p) (by rw [e]; exact hsort)
        (by
          intro y hy
          simp only [before, List.mem_append, List.mem_cons, List.not_mem_nil,
            or_false] at hy
          rcases hy with hy | hy | hy
          · exact hb y hy
          · have := hlc y hy
            omega
          · rw [hy]; omega)
        (by simpa [after] using ha)
      simp only [descend_path, hk, if_false]
      exact ih

theorem insert_balanced_spec (key : Nat → Nat) (item : Nat) (t : Tree)
    (hsort : KeySorted key t.inorder) :
    KeySorted key (splay_prioqueue_insert_balanced key item t).inorder ∧
      (splay_prioqueue_insert_balanced key item t).inorder.Perm (item :: t.inorder) := by
  obtain ⟨h1, h2, h3⟩ := descend_path_spec key (key item) t []
    (by simpa [before, after] using hsort) (by simp [before]) (by simp [after])
  simp only [fill] at h1
  have hin : t.inorder =
      before (descend_path key (key item) t []) ++ after (descend_path key (key item) t []) := by
    have e := congrArg Tree.inorder h1
    rw [inorder_fill] at e
    simpa [Tree.inorder] using e.symm
  simp only [splay_prioqueue_insert_balanced, splay_inorder, inorder_fill, leaf, Tree.inorder,
    List.nil_append, List.cons_append]
  rw [hin] at hsort ⊢
  constructor
  · have hs := List.pairwise_append.mp hsort
    simp only [KeySorted, List.pairwise_append, List.pairwise_cons, List.mem_cons]
    refine ⟨hs.1, ⟨fun y hy => le_of_lt (h3 y hy), hs.2.1⟩, ?_⟩
    intro a ha b hb
    rcases hb with hb | hb
    · rw [hb]; exact h2 a ha
    · exact hs.2.2 a ha b hb
  · exact List.perm_middle

theorem insert_all_spec (key : Nat → Nat) : ∀ (items : List Nat) (t : Tree),
    KeySorted key t.inorder →
      KeySorted key (insert_all key items t).inorder ∧
        (insert_all key items t).inorder.Perm (items ++ t.inorder)
  | [], t, h => ⟨h, by simp [insert_all]⟩
  | item :: items, t, h => by
    obtain ⟨h1, h2⟩ := insert_balanced_spec key item t h
    obtain ⟨h3, h4⟩ := insert_all_spec key items _ h1
    refine ⟨h3, h4.trans ?_⟩
    exact ((List.Perm.append_left items h2).trans List.perm_middle)

/-- C9: for every list of items whose values are a permutation of
`0 .. n - 1`, inserting all of them into an empty queue with
`splay_prioqueue_insert_balanced` and popping `n` times with
`splay_prioqueue_pop_balanced` returns non-`NULL` items whose values are
`0, 1, ..., n - 1` in this order, and the queue is empty afterwards. -/
theorem balanced_queue_sorts (key : Nat → Nat) (items : List Nat) (n : Nat)
    (hperm : (items.map key).Perm (List.range n)) :
    ((pop_all n (insert_all key items Tree.nil)).2.map (Option.map key) =
        (List.range n).map some) ∧
      (∀ r ∈ (pop_all n (insert_all key items Tree.nil)).2, r ≠ none) ∧
      (pop_all n (insert_all key items Tree.nil)).1 = Tree.nil ∧
      splay_empty (pop_all n (insert_all key items Tree.nil)).1 = true := by
  obtain ⟨h1, h2⟩ := insert_all_spec key items Tree.nil (by simp [KeySorted, Tree.inorder])
  simp only [Tree.inorder, List.append_nil] at h2
  have hlen : (insert_all key items Tree.nil).inorder.length = n := by
    have a := h2.length_eq
    have b := hperm.length_eq
    simp only [List.length_map, List.length_range] at b
    omega
  obtain ⟨h3, h4⟩ := pop_all_spec _ (insert_all key items Tree.nil) rfl
  rw [hlen] at h3 h4
  have hkeys : (insert_all key items Tree.nil).inorder.map key = List.range n := by
    apply List.eq_of_perm_of_sorted ((h2.map key).trans hperm) (List.pairwise_map.mpr h1)
    exact List.sorted_le_range n
  have hnil := inorder_eq_nil h4
  refine ⟨?_, ?_, hnil, by rw [hnil]; rfl⟩
  · rw [h3, ← hkeys]
    simp [List.map_map, Function.comp_def]
  · intro r hr
    rw [h3] at hr
    obtain ⟨a, _, e⟩ := List.mem_map.mp hr
    rw [← e]
    simp

/-- C9, for the items 2, 0, 3, 1 carrying their address as value. -/
theorem balanced_queue_sorts_witness :
    ([2, 0, 3, 1].map id).Perm (List.range 4) ∧
    (((pop_all 4 (insert_all id [2, 0, 3, 1] Tree.nil)).2.map (Option.map id) =
        (List.range 4).map some) ∧
      (∀ r ∈ (pop_all 4 (insert_all id [2, 0, 3, 1] Tree.nil)).2, r ≠ none) ∧
      (pop_all 4 (insert_all id [2, 0, 3, 1] Tree.nil)).1 = Tree.nil ∧
      splay_empty (pop_all 4 (insert_all id [2, 0, 3, 1] Tree.nil)).1 = true) :=
  ⟨by decide, balanced_queue_sorts id [2, 0, 3, 1] 4 (by decide)⟩

/-! ## The empty tree -/

/-- C12: after `INIT_RB_ROOT(root)`, and for a root defined with
`DEFINE_RBROOT`, `rb_empty(root)` is true and `rb_first(root)` and
`rb_last(root)` return `NULL`; for every root, `rb_empty(root)` is true exactly
when `root->node` is `NULL`; and after `rb_link_node(node, NULL, &root->node)`
`rb_empty(root)` is false and `rb_first(root) == rb_last(root) == node`. -/
theorem empty_tree_state (m : Mem) (fuel : Nat) (node : Nat) :
    (rb_empty (INIT_RB_ROOT m).root = true ∧ rb_first fuel (INIT_RB_ROOT m) = some none ∧
      rb_last fuel (INIT_RB_ROOT m) = some none) ∧
    (rb_empty DEFINE_RBROOT = true ∧
      rb_first fuel { heap := m.heap, root := DEFINE_RBROOT } = some none ∧
      rb_last fuel { heap := m.heap, root := DEFINE_RBROOT } = some none) ∧
    (∀ root : rb_root, rb_empty root = true ↔ root.node = none) ∧
    (rb_empty (rb_link_node node none Slot.root (INIT_RB_ROOT m)).root = false ∧
      rb_first fuel (rb_link_node node none Slot.root (INIT_RB_ROOT m)) = some (some node) ∧
      rb_last fuel (rb_link_node node none Slot.root (INIT_RB_ROOT m)) = some (some node)) := by
  refine ⟨⟨rfl, rfl, rfl⟩, ⟨rfl, rfl, rfl⟩, ?_, ?_, ?_, ?_⟩
  · intro root
    cases h : root.node <;> simp [rb_empty, h]
  · rfl
  · cases fuel <;>
      simp [rb_first, rb_link_node, Mem.store, INIT_RB_ROOT, descend_left]
  · cases fuel <;>
      simp [rb_last, rb_link_node, Mem.store, INIT_RB_ROOT, descend_right]

/-! ## Entry recovery -/

/-- C13: `container_of` applied to the address of a member returns the
address of the record, `(p + offsetof) - offsetof == p`, for every record
address and every member offset; `rb_entry` is the same computation; in
particular for member `b` of `struct teststruct {int a; int b;}`, whose
offset is the size of `a`. -/
theorem container_of_member (p offset sizeof_int : Nat) :
    container_of (member_address p offset) offset = p ∧
    rb_entry (member_address p offset) offset = p ∧
    (∀ node, rb_entry node offset = container_of node offset) ∧
    container_of (member_address p sizeof_int) sizeof_int = p := by
  simp [container_of, rb_entry, member_address]

/-! ## Minimum and maximum -/

theorem bst_sorted (key : Nat → Nat) : ∀ (t : Tree), Bst key t → KeySorted key t.inorder
  | Tree.nil, _ => by simp [KeySorted, Tree.inorder]
  | Tree.node l x r, h => by
    obtain ⟨hl, hr, hbl, hbr⟩ := h
    have ihl := bst_sorted key l hbl
    have ihr := bst_sorted key r hbr
    simp only [KeySorted, Tree.inorder, List.pairwise_append, List.pairwise_cons,
      List.mem_cons] at ihl ihr ⊢
    refine ⟨ihl, ⟨hr, ihr⟩, ?_⟩
    intro a ha b hb
    rcases hb with hb | hb
    · rw [hb]; exact hl a ha
    · exact le_trans (hl a ha) (hr b hb)

/-- C17: for a non-empty well-formed tree whose keys satisfy the
binary-search-tree order invariant, `rb_first` returns a node of the tree
whose key is less than or equal to the key of every node in the tree, and
`rb_last` one whose key is greater than or equal to the key of every node. -/
theorem first_is_minimum (key : Nat → Nat) (m : Mem) (t : Tree) (fuel : Nat) (hwf : Wf m t)
    (hne : t.inorder ≠ []) (hbst : Bst key t) (hf : t.height ≤ fuel) :
    ∃ a z, rb_first fuel m = some (some a) ∧ rb_last fuel m = some (some z) ∧
      Reachable m a ∧ Reachable m z ∧
      (∀ y, Reachable m y → key a ≤ key y) ∧ (∀ y, Reachable m y → key y ≤ key z) := by
  have hsort := bst_sorted key t hbst
  obtain ⟨a, rest, e⟩ := List.exists_cons_of_ne_nil hne
  obtain ⟨z, hz⟩ : ∃ z, t.inorder.getLast? = some z := by
    cases h : t.inorder.getLast? with
    | none => exact absurd (List.getLast?_eq_none_iff.mp h) hne
    | some z => exact ⟨z, rfl⟩
  obtain ⟨ini, e2⟩ := List.getLast?_eq_some_iff.mp hz
  refine ⟨a, z, ?_, ?_, ?_, ?_, ?_, ?_⟩
  · rw [first_list m t fuel hwf (by omega), e]; rfl
  · rw [last_list m t fuel hwf (by omega), hz]
  · rw [reachable_iff m t hwf, e]; simp
  · rw [reachable_iff m t hwf, e2]; simp
  · intro y hy
    rw [reachable_iff m t hwf, e] at hy
    rw [e] at hsort
    rcases List.mem_cons.mp hy with h | h
    · rw [h]
    · exact (List.pairwise_cons.mp hsort).1 y h
  · intro y hy
    rw [reachable_iff m t hwf, e2] at hy
    rw [e2] at hsort
    rcases List.mem_append.mp hy with h | h
    · exact (List.pairwise_append.mp hsort).2.2 y h z (by simp)
    · simp only [List.mem_singleton] at h
      rw [h]

/-- C17, at the tree `((1 2 3) 4 (5 6 7))` with every node carrying its
address as key. -/
theorem first_is_minimum_witness :
    Wf ex_mem ex_tree ∧ ex_tree.inorder ≠ [] ∧ Bst id ex_tree ∧
    ∃ a z, rb_first 3 ex_mem = some (some a) ∧ rb_last 3 ex_mem = some (some z) ∧
      Reachable ex_mem a ∧ Reachable ex_mem z ∧
      (∀ y, Reachable ex_mem y → id a ≤ id y) ∧ (∀ y, Reachable ex_mem y → id y ≤ id z) :=
  ⟨by decide, by decide, by decide,
    first_is_minimum id ex_mem ex_tree 3 (by decide) (by decide) (by decide) (by decide)⟩

/-! ## Termination -/

/-- C18: on a well-formed tree the loops of `rb_first`, `rb_last`, `rb_next`,
`rb_prev` and the successor search of `rb_erase_node` terminate within
`height - 1` iterations (so that at most height-of-the-tree many links are
followed, the first link included), and with any larger bound: each
operation returns. -/
theorem primitives_terminate (m : Mem) (t : Tree) (fuel : Nat) (hwf : Wf m t)
    (hf : t.height ≤ fuel + 1) :
    (∃ r, rb_first fuel m = some r) ∧ (∃ r, rb_last fuel m = some r) ∧
    (∀ x, Reachable m x →
      (∃ r, rb_next fuel m x = some r) ∧ (∃ r, rb_prev fuel m x = some r) ∧
      (∀ c, (m.heap x).right = some c → ∃ s, descend_left m.heap fuel c = some s) ∧
      (∃ m2, rb_erase_node fuel x m = some m2)) := by
  refine ⟨⟨_, first_list m t fuel hwf hf⟩, ⟨_, last_list m t fuel hwf hf⟩, ?_⟩
  intro x hx
  rw [reachable_iff m t hwf] at hx
  obtain ⟨p, l, r, e⟩ := mem_split t x hx
  subst e
  have hh := length_add_height_le p (Tree.node l x r)
  simp only [Tree.height] at hh
  have hr : r.height ≤ fuel := by omega
  refine ⟨⟨_, next_focus m p l x r fuel hwf hf⟩, ⟨_, prev_focus m p l x r fuel hwf hf⟩, ?_, ?_⟩
  · intro c hc
    have h := hwf
    rw [wf_fill] at h
    obtain ⟨_, ⟨_, _, hright, _, hsr⟩, _⟩ := h
    cases r with
    | nil => simp [Tree.ptr, hc] at hright
    | node rl rx rr =>
      simp only [Tree.ptr, hc, Option.some.injEq] at hright
      subst hright
      exact ⟨_, descend_left_split_min m.heap rl c rr (some x) fuel hsr (by omega)⟩
  · obtain ⟨m2, h1, _⟩ := erase_focus m p l x r fuel hwf (by omega)
    exact ⟨m2, h1⟩

/-- C18, at the tree `((1 2 3) 4 (5 6 7))` of height 3 with 2 iterations. -/
theorem primitives_terminate_witness :
    Wf ex_mem ex_tree ∧ ex_tree.height = 3 ∧
    (∃ r, rb_first 2 ex_mem = some r) ∧ (∃ r, rb_last 2 ex_mem = some r) ∧
    (∀ x, Reachable ex_mem x →
      (∃ r, rb_next 2 ex_mem x = some r) ∧ (∃ r, rb_prev 2 ex_mem x = some r) ∧
      (∀ c, (ex_mem.heap x).right = some c → ∃ s, descend_left ex_mem.heap 2 c = some s) ∧
      (∃ m2, rb_erase_node 2 x ex_mem = some m2)) :=
  ⟨by decide, by decide, primitives_terminate ex_mem ex_tree 2 (by decide) (by decide)⟩

/-! ## Number of nodes after a removal -/

/-- C20: for a well-formed tree with `n >= 1` nodes and a node `x` in it,
after `rb_erase_node(x, root)` exactly `n - 1` nodes are reachable from the
root handle, and `rb_empty(root)` is true if and only if `n == 1`. -/
theorem erase_node_count (m : Mem) (t : Tree) (x : Nat) (fuel : Nat) (hwf : Wf m t)
    (hx : x ∈ t.inorder) (hf : t.height ≤ fuel) :
    (∀ y, Reachable m y ↔ y ∈ t.inorder) ∧ t.inorder.Nodup ∧ 1 ≤ t.inorder.length ∧
    ∃ (m2 : Mem) (nodes : List Nat), rb_erase_node fuel x m = some m2 ∧ nodes.Nodup ∧
      (∀ y, Reachable m2 y ↔ y ∈ nodes) ∧ nodes.length = t.inorder.length - 1 ∧
      (rb_empty m2.root = true ↔ t.inorder.length = 1) := by
  obtain ⟨m2, t2, h1, h2, h3, _⟩ := erase_wf m t x fuel hwf hx hf
  have hpos : 1 ≤ t.inorder.length := List.length_pos_of_mem hx
  have hlen : t2.inorder.length = t.inorder.length - 1 := by
    rw [h3, List.length_erase_of_mem hx]
  refine ⟨reachable_iff m t hwf, hwf.2.2, hpos, m2, t2.inorder, h1, h2.2.2,
    reachable_iff m2 t2 h2, hlen, ?_⟩
  rw [rb_empty, h2.1]
  cases t2 with
  | nil =>
    simp only [Tree.inorder, List.length_nil] at hlen
    simp only [Tree.ptr, Option.isNone_none, true_iff]
    omega
  | node l y r =>
    simp only [Tree.inorder, List.length_append, List.length_cons] at hlen
    simp only [Tree.ptr, Option.isNone_some, Bool.false_eq_true, false_iff]
    omega

/-- C20, at the tree `((1 2 3) 4 (5 6 7))` (seven nodes, six after the
removal of node 4) and at the single node left by linking node 1 into the
empty tree (one node, none after its removal). -/
theorem erase_node_count_witness :
    (Wf ex_mem ex_tree ∧ ex_tree.inorder.length = 7 ∧
      ∃ (m2 : Mem) (nodes : List Nat), rb_erase_node 3 4 ex_mem = some m2 ∧ nodes.Nodup ∧
        (∀ y, Reachable m2 y ↔ y ∈ nodes) ∧ nodes.length = ex_tree.inorder.length - 1 ∧
        (rb_empty m2.root = true ↔ ex_tree.inorder.length = 1)) ∧
    (Wf (rb_link_node 1 none Slot.root empty_mem) (leaf 1) ∧
      ∃ (m2 : Mem) (nodes : List Nat), rb_erase_node 1 1 (rb_link_node 1 none Slot.root empty_mem) = some m2 ∧
        nodes.Nodup ∧ (∀ y, Reachable m2 y ↔ y ∈ nodes) ∧
        nodes.length = (leaf 1).inorder.length - 1 ∧
        (rb_empty m2.root = true ↔ (leaf 1).inorder.length = 1)) :=
  ⟨⟨by decide, by decide,
      (erase_node_count ex_mem ex_tree 4 3 (by decide) (by decide) (by decide)).2.2.2⟩,
    ⟨by decide,
      (erase_node_count (rb_link_node 1 none Slot.root empty_mem) (leaf 1) 1 1 (by decide)
        (by decide) (by decide)).2.2.2⟩⟩

/-! ## Linking into an occupied slot -/

/-- Linking a new node into the slot at the end of a path, whatever the slot
holds: the tree reachable from the root handle has the new node as a leaf in
place of the former subtree. -/
theorem link_over_wf (m : Mem) (p : List Frame) (sub : Tree) (n : Nat)
    (hwf : Wf m (fill p sub)) (hn : n ∉ (fill p sub).inorder) :
    Wf (rb_link_node n (path_par p) (path_slot p) m) (fill p (leaf n)) := by
  rw [inorder_fill] at hn
  rw [wf_fill] at hwf ⊢
  obtain ⟨hp, _, hnd⟩ := hwf
  have hnd2 : (before p ++ after p).Nodup := by
    have h3 := List.nodup_append.mp hnd
    have h4 := List.nodup_append.mp h3.2.1
    refine List.nodup_append.mpr ⟨h3.1, h4.2.1, ?_⟩
    intro a ha hb
    exact h3.2.2 ha (by simp [hb])
  have hn2 : n ∉ before p ++ after p := by
    simp only [List.mem_append, not_or] at hn ⊢
    tauto
  have hpn : path_par p ≠ some n := fun e => hn2 (path_par_mem e)
  have h3 : ShapePath (((m.set_parent n (path_par p)).set_left n none).set_right n none) p
      sub.ptr := by
    refine @shapePath_congr m (((m.set_parent n (path_par p)).set_left n none).set_right n none)
      rfl p _ (fun k hk => ?_) hp
    have hkn : k ≠ n := fun e => hn2 (e ▸ hk)
    apply rb_node_ext <;> simp [hkn]
  refine ⟨?_, ?_, ?_⟩
  · exact shapePath_store _ sub.ptr (some n) p h3 hnd2
  · simp only [leaf, Shape, Tree.ptr, rb_link_node, and_true]
    rw [store_heap_ne _ _ _ hpn]
    simp
  · simp only [leaf, Tree.inorder, List.nil_append]
    have e : before p ++ ([n] ++ after p) = before p ++ n :: after p := by simp
    rw [e]
    apply List.nodup_middle.mpr
    exact List.nodup_cons.mpr ⟨hn2, hnd2⟩

/-- In a well-formed memory the parent field of every node of the tree names
a node that has it as a child. -/
theorem wf_child_of_parent (m : Mem) (t : Tree) (hwf : Wf m t) : ChildOfParent m t.inorder := by
  intro b hb a hpar
  obtain ⟨p, l, r, e⟩ := mem_split t b hb
  subst e
  rw [wf_fill] at hwf
  obtain ⟨hp, ⟨hparent, _⟩, _⟩ := hwf
  rw [hparent] at hpar
  cases p with
  | nil => simp [path_par] at hpar
  | cons f p =>
    simp only [path_par, Option.some.injEq] at hpar
    cases f with
    | L y ry =>
      simp only [Frame.top] at hpar
      subst hpar
      exact Or.inl hp.1
    | R ly y =>
      simp only [Frame.top] at hpar
      subst hpar
      exact Or.inr hp.1

/-- Effects of linking a new node into the occupied slot at the end of a
non-empty path. -/
theorem link_occupied (m : Mem) (f : Frame) (p : List Frame) (sub : Tree) (n c : Nat)
    (hwf : Wf m (fill (f :: p) sub)) (hc : sub.ptr = some c)
    (hn : n ∉ (fill (f :: p) sub).inorder) :
    Wf (rb_link_node n (some f.top) (path_slot (f :: p)) m) (fill (f :: p) (leaf n)) ∧
      ((rb_link_node n (some f.top) (path_slot (f :: p)) m).heap c).parent = some f.top ∧
      ((rb_link_node n (some f.top) (path_slot (f :: p)) m).heap f.top).left ≠ some c ∧
      ((rb_link_node n (some f.top) (path_slot (f :: p)) m).heap f.top).right ≠ some c ∧
      (∀ y ∈ sub.inorder, ¬ Reachable (rb_link_node n (some f.top) (path_slot (f :: p)) m) y) := by
  have hlink := link_over_wf m (f :: p) sub n hwf hn
  have hwf0 := hwf
  rw [wf_fill] at hwf0
  obtain ⟨hp, hsub, hnd⟩ := hwf0
  rw [inorder_fill] at hn
  have hcin : c ∈ sub.inorder := ptr_mem hc
  have hcn : c ≠ n := by
    rintro rfl
    exact hn (by simp [hcin])
  have hdisj : ∀ y ∈ sub.inorder, y ∉ before (f :: p) ++ after (f :: p) := by
    intro y hy hmem
    have h3 := List.nodup_append.mp hnd
    have h4 := List.nodup_append.mp h3.2.1
    rcases List.mem_append.mp hmem with h | h
    · exact h3.2.2 h (by simp [hy])
    · exact h4.2.2 hy h
  have hlink2 := hlink
  rw [wf_fill] at hlink2
  obtain ⟨hp2, _, _⟩ := hlink2
  change Wf (rb_link_node n (some f.top) (path_slot (f :: p)) m) (fill (f :: p) (leaf n)) at hlink
  refine ⟨hlink, ?_, ?_, ?_, ?_⟩
  · have h1 : (m.heap c).parent = some f.top := shape_ptr_parent hsub hc
    cases f <;> simp [rb_link_node, Mem.store, path_slot, hcn, h1]
  · cases f with
    | L y ry =>
      have := hp2.1
      simp only [leaf, Tree.ptr] at this
      simp only [Frame.top]
      change ((rb_link_node n (some y) (path_slot (Frame.L y ry :: p)) m).heap y).left = some n
        at this
      rw [this]
      simp only [ne_eq, Option.some.injEq]
      exact fun e => hcn e.symm
    | R ly y =>
      have := hp2.2.1
      simp only [Frame.top]
      change ((rb_link_node n (some y) (path_slot (Frame.R ly y :: p)) m).heap y).left = ly.ptr
        at this
      rw [this]
      intro e
      exact hdisj c hcin (by simp [before, ptr_mem e])
  · cases f with
    | L y ry =>
      have := hp2.2.1
      simp only [Frame.top]
      change ((rb_link_node n (some y) (path_slot (Frame.L y ry :: p)) m).heap y).right = ry.ptr
        at this
      rw [this]
      intro e
      exact hdisj c hcin (by simp [after, ptr_mem e])
    | R ly y =>
      have := hp2.1
      simp only [leaf, Tree.ptr] at this
      simp only [Frame.top]
      change ((rb_link_node n (some y) (path_slot (Frame.R ly y :: p)) m).heap y).right = some n
        at this
      rw [this]
      simp only [ne_eq, Option.some.injEq]
      exact fun e => hcn e.symm
  · intro y hy hreach
    rw [reachable_iff _ _ hlink, inorder_fill] at hreach
    simp only [leaf, Tree.inorder, List.nil_append, List.mem_append, List.mem_cons,
      List.not_mem_nil, or_false] at hreach
    have hyn : y ≠ n := by
      rintro rfl
      exact hn (by simp [hy])
    have := hdisj y hy
    simp only [List.mem_append, not_or] at this
    tauto

/-- C19: `rb_link_node` performs no check and reports no failure (it always
returns the memory it has written); for a well-formed tree, a node `p` in it
with a child slot that holds `c`, and a node `n` not in the tree, after
`rb_link_node(n, p, that slot)` the slot holds `n`, `c.parent` is still `p`
although neither `p.left` nor `p.right` is `c`, so the links of the former
nodes are no longer mutually consistent, and `c` with its whole subtree is no
longer reachable from the root handle. -/
theorem link_occupied_corrupts (m : Mem) (t : Tree) (p c n : Nat) (slot : Slot) (hwf : Wf m t)
    (hp : p ∈ t.inorder) (hn : n ∉ t.inorder)
    (hslot : slot = Slot.left p ∨ slot = Slot.right p) (hocc : m.load slot = some c) :
    (Reachable m c ∧ ChildOfParent m t.inorder) ∧
    (rb_link_node n (some p) slot m).load slot = some n ∧
    ((rb_link_node n (some p) slot m).heap c).parent = some p ∧
    ((rb_link_node n (some p) slot m).heap p).left ≠ some c ∧
    ((rb_link_node n (some p) slot m).heap p).right ≠ some c ∧
    ¬ ChildOfParent (rb_link_node n (some p) slot m) t.inorder ∧
    (∀ y ds, follow m ds (some c) = some y → ¬ Reachable (rb_link_node n (some p) slot m) y) := by
  obtain ⟨path, l, r, e⟩ := mem_split t p hp
  subst e
  have hwf0 := hwf
  rw [wf_fill] at hwf0
  obtain ⟨_, ⟨_, hl, hr, hsl, hsr⟩, _⟩ := hwf0
  have key : ∀ (f : Frame) (sub : Tree), f.top = p → path_slot (f :: path) = slot →
      fill (f :: path) sub = fill path (Tree.node l p r) → sub.ptr = some c →
      Shape m.heap sub (some p) →
      (Reachable m c ∧ ChildOfParent m (fill path (Tree.node l p r)).inorder) ∧
      (rb_link_node n (some p) slot m).load slot = some n ∧
      ((rb_link_node n (some p) slot m).heap c).parent = some p ∧
      ((rb_link_node n (some p) slot m).heap p).left ≠ some c ∧
      ((rb_link_node n (some p) slot m).heap p).right ≠ some c ∧
      ¬ ChildOfParent (rb_link_node n (some p) slot m) (fill path (Tree.node l p r)).inorder ∧
      (∀ y ds, follow m ds (some c) = some y →
        ¬ Reachable (rb_link_node n (some p) slot m) y) := by
    intro f sub hf hsl2 hfill hc hshape
    subst hf hsl2
    rw [← hfill] at hwf hn
    obtain ⟨h1, h2, h3, h4, h5⟩ := link_occupied m f path sub n c hwf hc hn
    have hcin : c ∈ (fill (f :: path) sub).inorder := by
      rw [inorder_fill]
      simp [ptr_mem hc]
    rw [← hfill]
    refine ⟨⟨(reachable_iff m _ hwf c).mpr hcin, wf_child_of_parent m _ hwf⟩, ?_, h2, h3, h4,
      ?_, ?_⟩
    · cases f <;> simp [rb_link_node, Mem.store, Mem.load, path_slot]
    · intro hcop
      rcases hcop c hcin f.top h2 with h | h
      · exact h3 h
      · exact h4 h
    · intro y ds hy
      exact h5 y (follow_shape m y ds sub (some f.top) hshape (by rw [hc]; exact hy))
  rcases hslot with hs | hs
  · subst hs
    have hc : l.ptr = some c := by rw [← hl]; exact hocc
    exact key (Frame.L p r) l rfl rfl rfl hc hsl
  · subst hs
    have hc : r.ptr = some c := by rw [← hr]; exact hocc
    exact key (Frame.R l p) r rfl rfl rfl hc hsr

/-- C19, linking node 8 into the left slot of node 4 of the tree
`((1 2 3) 4 (5 6 7))`, which holds node 2. -/
theorem link_occupied_corrupts_witness :
    Wf ex_mem ex_tree ∧ 4 ∈ ex_tree.inorder ∧ 8 ∉ ex_tree.inorder ∧
    ex_mem.load (Slot.left 4) = some 2 ∧
    ((Reachable ex_mem 2 ∧ ChildOfParent ex_mem ex_tree.inorder) ∧
    (rb_link_node 8 (some 4) (Slot.left 4) ex_mem).load (Slot.left 4) = some 8 ∧
    ((rb_link_node 8 (some 4) (Slot.left 4) ex_mem).heap 2).parent = some 4 ∧
    ((rb_link_node 8 (some 4) (Slot.left 4) ex_mem).heap 4).left ≠ some 2 ∧
    ((rb_link_node 8 (some 4) (Slot.left 4) ex_mem).heap 4).right ≠ some 2 ∧
    ¬ ChildOfParent (rb_link_node 8 (some 4) (Slot.left 4) ex_mem) ex_tree.inorder ∧
    (∀ y ds, follow ex_mem ds (some 2) = some y →
      ¬ Reachable (rb_link_node 8 (some 4) (Slot.left 4) ex_mem) y)) :=
  ⟨by decide, by decide, by decide, by decide,
    link_occupied_corrupts ex_mem ex_tree 4 2 8 (Slot.left 4) (by decide) (by decide)
      (by decide) (Or.inl rfl) (by decide)⟩

/-! ## The structure left by a removal -/

theorem shapePath_load (m : Mem) (p : List Frame) (c : Option Nat) (h : ShapePath m p c) :
    m.load (path_slot p) = c := by
  cases p with
  | nil => exact h
  | cons f p =>
    cases f with
    | L y r => exact h.1
    | R l y => exact h.1

/-- The slot that `rb_change_child` selects for a node of a well-formed tree
is the slot of the path to it, and it holds the node. -/
theorem slot_of_focus (m : Mem) (p : List Frame) (l : Tree) (x : Nat) (r : Tree)
    (hwf : Wf m (fill p (Tree.node l x r))) :
    slot_of m x = path_slot p ∧ m.load (path_slot p) = some x := by
  rw [wf_fill] at hwf
  obtain ⟨hp, ⟨hpar, _⟩, hnd⟩ := hwf
  refine ⟨?_, shapePath_load m p _ hp⟩
  cases p with
  | nil => simp [slot_of, hpar, path_par, path_slot]
  | cons f p =>
    cases f with
    | L y ry =>
      have h1 : (m.heap y).left = some x := hp.1
      simp [slot_of, hpar, path_par, path_slot, Frame.top, h1]
    | R ly y =>
      have h1 : (m.heap y).left = ly.ptr := hp.2.1
      have hne : ¬ (m.heap y).left = some x := by
        rw [h1]
        intro e
        have hxl := ptr_mem e
        have h3 := List.nodup_append.mp hnd
        exact @h3.2.2 x (by simp [before, hxl]) (by simp [Tree.inorder])
      simp [slot_of, hpar, path_par, path_slot, Frame.top, hne]

theorem change_child_store (m m1 : Mem) (x : Nat) (v : Option Nat)
    (h : ∀ k, (m1.heap k).left = (m.heap k).left) :
    rb_change_child x v (m.heap x).parent m1 = m1.store (slot_of m x) v := by
  unfold rb_change_child slot_of
  cases (m.heap x).parent with
  | none => rfl
  | some q =>
    simp only [h q]
    split <;> rfl

theorem store_load_same (m : Mem) (s : Slot) (v : Option Nat) : (m.store s v).load s = v := by
  cases s <;> simp [Mem.store, Mem.load]

theorem store_load_ne (m : Mem) (s s2 : Slot) (v : Option Nat) (h : s2 ≠ s) :
    (m.store s v).load s2 = m.load s2 := by
  cases s with
  | root =>
    cases s2 with
    | root => exact absurd rfl h
    | left k => rfl
    | right k => rfl
  | left q =>
    cases s2 with
    | root => rfl
    | left k =>
      have : k ≠ q := fun e => h (by rw [e])
      simp [Mem.store, Mem.load, this]
    | right k => simp [Mem.store, Mem.load]
  | right q =>
    cases s2 with
    | root => rfl
    | left k => simp [Mem.store, Mem.load]
    | right k =>
      have : k ≠ q := fun e => h (by rw [e])
      simp [Mem.store, Mem.load, this]

theorem store_parent (m : Mem) (s : Slot) (v : Option Nat) (k : Nat) :
    ((m.store s v).heap k).parent = (m.heap k).parent := by
  cases s <;> simp [Mem.store]

theorem set_parent_load (m : Mem) (n : Nat) (v : Option Nat) (s : Slot) :
    (m.set_parent n v).load s = m.load s := by
  cases s <;> simp [Mem.load]

theorem focus_parent_ne (m : Mem) (p : List Frame) (l : Tree) (x : Nat) (r : Tree)
    (hwf : Wf m (fill p (Tree.node l x r))) : path_par p ≠ some x := by
  intro e
  have h := path_par_mem e
  rw [wf_fill] at hwf
  have h2 := (nodup_remove_mid hwf.2.2).2
  simp only [List.mem_append, not_or] at h h2
  tauto

/-- Removal of a node with at most one child, whose only child pointer (or
`NULL`) is `ch`: the memory afterwards is the former one with the parent field
of the child and the slot of the node rewritten. -/
theorem erase_splice_frame (m : Mem) (t : Tree) (x : Nat) (ch : Option Nat) (fuel : Nat)
    (hwf : Wf m t) (hx : x ∈ t.inorder)
    (hch : ((m.heap x).left = none ∧ (m.heap x).right = ch) ∨
      ((m.heap x).left = ch ∧ (m.heap x).right = none)) :
    ch ≠ some x ∧ m.load (slot_of m x) = some x ∧
      rb_erase_node fuel x m =
        some ((m.set_parent_opt ch (m.heap x).parent).store (slot_of m x) ch) ∧
      ((m.set_parent_opt ch (m.heap x).parent).store (slot_of m x) ch).heap x = m.heap x := by
  obtain ⟨p, l, r, e⟩ := mem_split t x hx
  subst e
  obtain ⟨hslot, hload⟩ := slot_of_focus m p l x r hwf
  have hpne := focus_parent_ne m p l x r hwf
  have hwf0 := hwf
  rw [wf_fill] at hwf0
  obtain ⟨_, ⟨hpar, hl, hr, _, _⟩, hnd⟩ := hwf0
  have hxl : x ∉ l.inorder := by
    intro h
    have h3 := List.nodup_append.mp (List.nodup_append.mp hnd).2.1
    exact (List.nodup_append.mp h3.1).2.2 h (by simp)
  have hxr : x ∉ r.inorder := by
    intro h
    have h3 := List.nodup_append.mp (List.nodup_append.mp hnd).2.1
    have h4 := List.nodup_append.mp h3.1
    exact (List.nodup_cons.mp h4.2.1).1 h
  have hne : ch ≠ some x := by
    intro e
    rcases hch with ⟨_, h⟩ | ⟨h, _⟩
    · rw [hr] at h
      exact hxr (ptr_mem (h.trans e))
    · rw [hl] at h
      exact hxl (ptr_mem (h.trans e))
  refine ⟨hne, by rw [hslot]; exact hload, ?_, ?_⟩
  · have hcs := change_child_store m (m.set_parent_opt ch (m.heap x).parent) x ch (by simp)
    rw [← hcs]
    rcases hch with ⟨h1, h2⟩ | ⟨h1, h2⟩
    · cases ch with
      | none => simp [rb_erase_node, h1, h2, Mem.set_parent_opt]
      | some c =>
        have hxc : x ≠ c := fun e => hne (by rw [e])
        simp [rb_erase_node, h1, h2, Mem.set_parent_opt, hxc]
    · cases ch with
      | none => simp [rb_erase_node, h1, h2, Mem.set_parent_opt]
      | some c =>
        have hxc : x ≠ c := fun e => hne (by rw [e])
        simp [rb_erase_node, h1, h2, Mem.set_parent_opt, hxc]
  · rw [hslot, store_heap_ne _ _ _ hpne]
    exact set_parent_opt_heap_ne m ch _ hne

/-- C16: removal of a node `x` of a well-formed tree with at most one child
is a local splice.  Without child, only the slot that referred to `x` changes,
to `NULL`; with exactly one child `c`, only that slot, which now holds `c`,
and `c.parent`, which now equals the former parent of `x`, change.  Every
other slot (root handle, left and right field of every node), every other
parent field and all fields of `x` are unchanged. -/
theorem erase_local_splice (m : Mem) (t : Tree) (x : Nat) (fuel : Nat) (hwf : Wf m t)
    (hx : x ∈ t.inorder) :
    ((m.heap x).left = none → (m.heap x).right = none →
      ∃ m2, rb_erase_node fuel x m = some m2 ∧
        m.load (slot_of m x) = some x ∧ m2.load (slot_of m x) = none ∧
        (∀ s, s ≠ slot_of m x → m2.load s = m.load s) ∧
        (∀ k, (m2.heap k).parent = (m.heap k).parent) ∧ m2.heap x = m.heap x) ∧
    (∀ c, ((m.heap x).left = some c ∧ (m.heap x).right = none) ∨
        ((m.heap x).left = none ∧ (m.heap x).right = some c) →
      ∃ m2, rb_erase_node fuel x m = some m2 ∧
        m.load (slot_of m x) = some x ∧ m2.load (slot_of m x) = some c ∧
        (m2.heap c).parent = (m.heap x).parent ∧
        (∀ s, s ≠ slot_of m x → m2.load s = m.load s) ∧
        (∀ k, k ≠ c → (m2.heap k).parent = (m.heap k).parent) ∧ m2.heap x = m.heap x) := by
  constructor
  · intro h1 h2
    obtain ⟨_, hload, herase, hsame⟩ :=
      erase_splice_frame m t x none fuel hwf hx (Or.inl ⟨h1, h2⟩)
    refine ⟨_, herase, hload, store_load_same _ _ _, ?_, ?_, hsame⟩
    · intro s hs
      rw [store_load_ne _ _ _ _ hs]
      rfl
    · intro k
      rw [store_parent]
      rfl
  · intro c hc
    have hch : ((m.heap x).left = none ∧ (m.heap x).right = some c) ∨
        ((m.heap x).left = some c ∧ (m.heap x).right = none) := by tauto
    obtain ⟨_, hload, herase, hsame⟩ := erase_splice_frame m t x (some c) fuel hwf hx hch
    refine ⟨_, herase, hload, store_load_same _ _ _, ?_, ?_, ?_, hsame⟩
    · rw [store_parent]
      simp [Mem.set_parent_opt]
    · intro s hs
      rw [store_load_ne _ _ _ _ hs]
      exact set_parent_load m c _ s
    · intro k hk
      rw [store_parent]
      simp [Mem.set_parent_opt, hk]

/-- C16, at the tree `((1 2 3) 4 (5 6 7))`: removal of the leaf 1, and
removal of node 2 after the leaf 1 has been removed (one child, right). -/
theorem erase_local_splice_witness :
    (Wf ex_mem ex_tree ∧ 1 ∈ ex_tree.inorder ∧
      ∃ m2, rb_erase_node 3 1 ex_mem = some m2 ∧
        ex_mem.load (slot_of ex_mem 1) = some 1 ∧ m2.load (slot_of ex_mem 1) = none ∧
        (∀ s, s ≠ slot_of ex_mem 1 → m2.load s = ex_mem.load s) ∧
        (∀ k, (m2.heap k).parent = (ex_mem.heap k).parent) ∧ m2.heap 1 = ex_mem.heap 1) ∧
    (Wf (ex_mem.set_left 2 none) (Tree.node (Tree.node Tree.nil 2 (leaf 3)) 4
        (Tree.node (leaf 5) 6 (leaf 7))) ∧
      ∃ m2, rb_erase_node 3 2 (ex_mem.set_left 2 none) = some m2 ∧
        (ex_mem.set_left 2 none).load (slot_of (ex_mem.set_left 2 none) 2) = some 2 ∧
        m2.load (slot_of (ex_mem.set_left 2 none) 2) = some 3 ∧
        (m2.heap 3).parent = ((ex_mem.set_left 2 none).heap 2).parent ∧
        (∀ s, s ≠ slot_of (ex_mem.set_left 2 none) 2 →
          m2.load s = (ex_mem.set_left 2 none).load s) ∧
        (∀ k, k ≠ 3 → (m2.heap k).parent = ((ex_mem.set_left 2 none).heap k).parent) ∧
        m2.heap 2 = (ex_mem.set_left 2 none).heap 2) :=
  ⟨⟨by decide, by decide,
      (erase_local_splice ex_mem ex_tree 1 3 (by decide) (by decide)).1 (by decide)
        (by decide)⟩,
    ⟨by decide,
      (erase_local_splice (ex_mem.set_left 2 none) (Tree.node (Tree.node Tree.nil 2 (leaf 3)) 4
        (Tree.node (leaf 5) 6 (leaf 7))) 2 3 (by decide) (by decide)).2 3
        (Or.inr ⟨by decide, by decide⟩)⟩⟩

/-- In a well-formed tree no node is its own parent or child. -/
theorem wf_no_self (m : Mem) (t : Tree) (x : Nat) (hwf : Wf m t) (hx : x ∈ t.inorder) :
    (m.heap x).parent ≠ some x ∧ (m.heap x).left ≠ some x ∧ (m.heap x).right ≠ some x := by
  obtain ⟨p, l, r, e⟩ := mem_split t x hx
  subst e
  have hpne := focus_parent_ne m p l x r hwf
  rw [wf_fill] at hwf
  obtain ⟨_, ⟨hpar, hl, hr, _, _⟩, hnd⟩ := hwf
  have h3 := List.nodup_append.mp (List.nodup_append.mp hnd).2.1
  have h4 := List.nodup_append.mp h3.1
  refine ⟨by rw [hpar]; exact hpne, ?_, ?_⟩
  · rw [hl]
    intro e
    exact h4.2.2 (ptr_mem e) (by simp)
  · rw [hr]
    intro e
    exact (List.nodup_cons.mp h4.2.1).1 (ptr_mem e)

theorem spine_head : ∀ (q : List Frame) (a : Nat) (b : Tree), before q = [] →
    ∃ ps rps q2, q ++ [Frame.L a b] = Frame.L ps rps :: q2
  | [], a, b, _ => ⟨a, b, [], rfl⟩
  | Frame.L y r :: q, a, b, _ => ⟨y, r, q ++ [Frame.L a b], rfl⟩
  | Frame.R l y :: q, a, b, h => by simp [before] at h

/-- Removal of a node with two children, in terms of the tree: the leftmost
node of the right subtree takes the place of the node. -/
theorem erase_two_wf (m : Mem) (p : List Frame) (ll : Tree) (lx : Nat) (lr : Tree) (x : Nat)
    (rl : Tree) (rx : Nat) (rr : Tree) (fuel : Nat)
    (hwf : Wf m (fill p (Tree.node (Tree.node ll lx lr) x (Tree.node rl rx rr))))
    (hf : (Tree.node rl rx rr).height ≤ fuel + 1) :
    ∃ m2, rb_erase_node fuel x m = some m2 ∧
      Wf m2 (fill p (Tree.node (Tree.node ll lx lr) (split_min rl rx rr).1
        (split_min rl rx rr).2)) ∧
      descend_left m.heap fuel rx = some (split_min rl rx rr).1 := by
  obtain ⟨m2, h1, h2⟩ := erase_focus m p (Tree.node ll lx lr) x (Tree.node rl rx rr) fuel hwf hf
  refine ⟨m2, h1, h2, ?_⟩
  rw [wf_fill] at hwf
  exact descend_left_split_min m.heap rl rx rr (some x) fuel hwf.2.1.2.2.2.2 hf

/-- The former place of the successor when it is not the right child of the
removed node: its former parent holds the former right child of the successor
in its left field, and that child has the former parent as parent. -/
theorem erase_two_gap (m m2 : Mem) (p : List Frame) (l : Tree) (x : Nat)
    (rll : Tree) (rlx : Nat) (rlr : Tree) (rx : Nat) (rr : Tree)
    (hwf : Wf m (fill p (Tree.node l x (Tree.node (Tree.node rll rlx rlr) rx rr))))
    (hwf2 : Wf m2 (fill p (Tree.node l (split_min rll rlx rlr).1
      (Tree.node (split_min rll rlx rlr).2 rx rr)))) :
    ∃ ps, (m.heap (split_min rll rlx rlr).1).parent = some ps ∧
      (m.heap ps).left = some (split_min rll rlx rlr).1 ∧
      (m2.heap ps).left = (m.heap (split_min rll rlx rlr).1).right ∧
      (∀ c, (m.heap (split_min rll rlx rlr).1).right = some c →
        (m2.heap c).parent = some ps) := by
  obtain ⟨q, sr, e1, e2, hq⟩ := split_min_spine rll rlx rlr
  obtain ⟨ps, rps, q2, hq2⟩ := spine_head q rx rr hq
  have eP : ∀ (y : Nat) (u : Tree), fill p (Tree.node l y (Tree.node (fill q u) rx rr)) =
      fill (Frame.L ps rps :: (q2 ++ Frame.R l y :: p)) u := by
    intro y u
    have : Frame.L ps rps :: (q2 ++ Frame.R l y :: p) =
        (q ++ [Frame.L rx rr]) ++ Frame.R l y :: p := by rw [hq2]; rfl
    rw [this, fill_append, fill_append]
    rfl
  rw [e1, eP, wf_fill] at hwf
  rw [e2, eP, wf_fill] at hwf2
  obtain ⟨hp, ⟨hpar, _, hr, _, _⟩, _⟩ := hwf
  obtain ⟨hp2, hs2, _⟩ := hwf2
  refine ⟨ps, hpar, hp.1, ?_, ?_⟩
  · rw [hr]
    exact hp2.1
  · intro c hc
    rw [hr] at hc
    exact shape_ptr_parent hs2 hc

/-- C14: removal of a node `x` of a well-formed tree with both children
promotes the in-order successor `s`, the leftmost node of the right subtree
of `x` (`s == rb_next(x)`).  Afterwards the slot that held `x` holds `s`,
`s.parent` is the former parent of `x`, `s.left` is the former left child of
`x`, whose parent is now `s`; and when `s` was not the right child of `x`, the
former slot of `s` (the left field of its former parent) holds the former
right child of `s`, whose parent is now the former parent of `s`, while
`s.right` is the former right child of `x`, whose parent is now `s`.  The
predecessor is not chosen. -/
theorem erase_promotes_successor (m : Mem) (t : Tree) (x xl xr : Nat) (fuel : Nat)
    (hwf : Wf m t) (hx : x ∈ t.inorder) (hl : (m.heap x).left = some xl)
    (hr : (m.heap x).right = some xr) (hf : t.height ≤ fuel) :
    ∃ s m2, descend_left m.heap fuel xr = some s ∧ rb_next fuel m x = some (some s) ∧
      rb_erase_node fuel x m = some m2 ∧
      m.load (slot_of m x) = some x ∧ m2.load (slot_of m x) = some s ∧
      (m2.heap s).parent = (m.heap x).parent ∧
      (m2.heap s).left = some xl ∧ (m2.heap xl).parent = some s ∧
      (s ≠ xr → ∃ ps, (m.heap s).parent = some ps ∧ (m.heap ps).left = some s ∧
        (m2.heap ps).left = (m.heap s).right ∧
        (∀ c, (m.heap s).right = some c → (m2.heap c).parent = some ps) ∧
        (m2.heap s).right = some xr ∧ (m2.heap xr).parent = some s) ∧
      (∃ pr, rb_prev fuel m x = some (some pr) ∧ pr ≠ s ∧ m2.load (slot_of m x) ≠ some pr) := by
  obtain ⟨p, l, r, e⟩ := mem_split t x hx
  subst e
  obtain ⟨hslot, hload⟩ := slot_of_focus m p l x r hwf
  have hhf := length_add_height_le p (Tree.node l x r)
  simp only [Tree.height] at hhf
  have hwf0 := hwf
  rw [wf_fill] at hwf0
  obtain ⟨_, ⟨hpar, hleft, hright, _, _⟩, hnd⟩ := hwf0
  cases l with
  | nil => simp [Tree.ptr, hl] at hleft
  | node ll lx lr =>
    cases r with
    | nil => simp [Tree.ptr, hr] at hright
    | node rl rx rr =>
      simp only [Tree.ptr, hl, hr, Option.some.injEq] at hleft hright
      subst hleft hright
      obtain ⟨m2, h1, h2, h3⟩ := erase_two_wf m p ll xl lr x rl xr rr fuel hwf (by omega)
      have hin := split_min_inorder rl xr rr
      have hnext := next_focus m p (Tree.node ll xl lr) x (Tree.node rl xr rr) fuel hwf
        (by omega)
      rw [hin] at hnext
      have hprev := prev_focus m p (Tree.node ll xl lr) x (Tree.node rl xr rr) fuel hwf
        (by omega)
      have hwf2 := h2
      rw [wf_fill] at hwf2
      obtain ⟨hp2, ⟨hpar2, hleft2, hright2, hsl2, hsr2⟩, _⟩ := hwf2
      have hload2 := shapePath_load m2 p _ hp2
      simp only [Tree.ptr] at hload2 hleft2
      obtain ⟨pr, hpr⟩ : ∃ pr, (before p ++ (Tree.node ll xl lr).inorder).getLast? = some pr := by
        cases h : (before p ++ (Tree.node ll xl lr).inorder).getLast? with
        | none =>
          have := List.getLast?_eq_none_iff.mp h
          simp [Tree.inorder] at this
        | some pr => exact ⟨pr, rfl⟩
      have hprs : pr ≠ (split_min rl xr rr).1 := by
        intro e
        obtain ⟨ini, hini⟩ := List.getLast?_eq_some_iff.mp hpr
        have hmem : pr ∈ before p ++ (Tree.node ll xl lr).inorder := by rw [hini]; simp
        have hs : (split_min rl xr rr).1 ∈ (Tree.node rl xr rr).inorder := by rw [hin]; simp
        rw [← e] at hs
        have h5 := List.nodup_append.mp hnd
        have h6 := List.nodup_append.mp h5.2.1
        have h7 := List.nodup_append.mp h6.1
        rcases List.mem_append.mp hmem with hm | hm
        · exact h5.2.2 hm (by simp [Tree.inorder] at hs ⊢; tauto)
        · exact h7.2.2 hm (by simp [Tree.inorder] at hs ⊢; tauto)
      refine ⟨(split_min rl xr rr).1, m2, h3, by simpa using hnext, h1,
        by rw [hslot]; exact hload, by rw [hslot]; exact hload2,
        by rw [hpar2, hpar], hleft2, shape_ptr_parent hsl2 rfl, ?_,
        ⟨pr, by rw [hprev, hpr], hprs, ?_⟩⟩
      · intro hne
        cases rl with
        | nil => exact absurd rfl hne
        | node rll rlx rlr =>
          obtain ⟨ps, g1, g2, g3, g4⟩ := erase_two_gap m m2 p (Tree.node ll xl lr) x rll rlx rlr
            xr rr hwf h2
          exact ⟨ps, g1, g2, g3, g4, hright2, shape_ptr_parent hsr2 rfl⟩
      · rw [hslot, hload2]
        simp only [ne_eq, Option.some.injEq]
        exact fun e => hprs e.symm

/-- C14, at the tree `((1 2 3) 4 (5 6 7))` and its top node: the successor 5
is not the right child 6 of node 4. -/
theorem erase_promotes_successor_witness :
    Wf ex_mem ex_tree ∧ 4 ∈ ex_tree.inorder ∧ (ex_mem.heap 4).left = some 2 ∧
    (ex_mem.heap 4).right = some 6 ∧
    ∃ s m2, descend_left ex_mem.heap 3 6 = some s ∧ rb_next 3 ex_mem 4 = some (some s) ∧
      rb_erase_node 3 4 ex_mem = some m2 ∧
      ex_mem.load (slot_of ex_mem 4) = some 4 ∧ m2.load (slot_of ex_mem 4) = some s ∧
      (m2.heap s).parent = (ex_mem.heap 4).parent ∧
      (m2.heap s).left = some 2 ∧ (m2.heap 2).parent = some s ∧
      (s ≠ 6 → ∃ ps, (ex_mem.heap s).parent = some ps ∧ (ex_mem.heap ps).left = some s ∧
        (m2.heap ps).left = (ex_mem.heap s).right ∧
        (∀ c, (ex_mem.heap s).right = some c → (m2.heap c).parent = some ps) ∧
        (m2.heap s).right = some 6 ∧ (m2.heap 6).parent = some s) ∧
      (∃ pr, rb_prev 3 ex_mem 4 = some (some pr) ∧ pr ≠ s ∧
        m2.load (slot_of ex_mem 4) ≠ some pr) :=
  ⟨by decide, by decide, by decide, by decide,
    erase_promotes_successor ex_mem ex_tree 4 2 6 3 (by decide) (by decide) (by decide)
      (by decide) (by decide)⟩

/-- C15: removal of a node `x` of a well-formed tree with both children whose
right child `s` has no left child: afterwards `s` occupies the former slot of
`x`, `s.parent` is the former parent of `x`, `s.left` is the former left child
of `x`, whose parent is now `s`, and `s.right` is the former right child of
`s` (possibly `NULL`), whose parent, when present, is `s` and not `x`; `s` is
neither its own parent nor its own child. -/
theorem erase_successor_right_child (m : Mem) (t : Tree) (x xl s : Nat) (fuel : Nat)
    (hwf : Wf m t) (hx : x ∈ t.inorder) (hl : (m.heap x).left = some xl)
    (hr : (m.heap x).right = some s) (hsl : (m.heap s).left = none) (hf : t.height ≤ fuel) :
    ∃ m2, rb_erase_node fuel x m = some m2 ∧
      m.load (slot_of m x) = some x ∧ m2.load (slot_of m x) = some s ∧
      (m2.heap s).parent = (m.heap x).parent ∧
      (m2.heap s).left = some xl ∧ (m2.heap xl).parent = some s ∧
      (m2.heap s).right = (m.heap s).right ∧
      (∀ c, (m.heap s).right = some c →
        (m2.heap c).parent = some s ∧ (m2.heap c).parent ≠ some x) ∧
      (m2.heap s).parent ≠ some s ∧ (m2.heap s).left ≠ some s ∧
      (m2.heap s).right ≠ some s := by
  obtain ⟨p, l, r, e⟩ := mem_split t x hx
  subst e
  obtain ⟨hslot, hload⟩ := slot_of_focus m p l x r hwf
  have hhf := length_add_height_le p (Tree.node l x r)
  simp only [Tree.height] at hhf
  have hwf0 := hwf
  rw [wf_fill] at hwf0
  obtain ⟨_, ⟨hpar, hleft, hright, _, hsr⟩, hnd⟩ := hwf0
  cases l with
  | nil => simp [Tree.ptr, hl] at hleft
  | node ll lx lr =>
    cases r with
    | nil => simp [Tree.ptr, hr] at hright
    | node rl rx rr =>
      simp only [Tree.ptr, hl, hr, Option.some.injEq] at hleft hright
      subst hleft hright
      have hrl : rl = Tree.nil := ptr_eq_none (by rw [← hsr.2.1, hsl])
      subst hrl
      obtain ⟨m2, h1, h2, _⟩ := erase_two_wf m p ll xl lr x Tree.nil s rr fuel hwf (by omega)
      simp only [split_min] at h2
      have hself := wf_no_self m2 _ s h2 (by rw [inorder_fill]; simp [Tree.inorder])
      have hxs : s ≠ x := by
        intro e
        have h5 := List.nodup_append.mp (List.nodup_append.mp hnd).2.1
        have h6 := List.nodup_append.mp h5.1
        exact (List.nodup_cons.mp h6.2.1).1 (by simp [Tree.inorder, e])
      have hwf2 := h2
      rw [wf_fill] at hwf2
      obtain ⟨hp2, ⟨hpar2, hleft2, hright2, hsl2, hsr2⟩, _⟩ := hwf2
      have hload2 := shapePath_load m2 p _ hp2
      simp only [Tree.ptr] at hload2 hleft2
      refine ⟨m2, h1, by rw [hslot]; exact hload, by rw [hslot]; exact hload2,
        by rw [hpar2, hpar], hleft2, shape_ptr_parent hsl2 rfl, by rw [hright2, hsr.2.2.1], ?_,
        hself.1, hself.2.1, hself.2.2⟩
      intro c hc
      rw [hsr.2.2.1] at hc
      have := shape_ptr_parent hsr2 hc
      refine ⟨this, ?_⟩
      rw [this]
      simp only [ne_eq, Option.some.injEq]
      exact hxs

/-- C15, at the tree `((1 2 3) 4 (6 7))`, obtained from the seven-node memory
by clearing the left field of node 6, and its top node 4: the right child 6
has no left child and the right child 7. -/
theorem erase_successor_right_child_witness :
    Wf (ex_mem.set_left 6 none)
      (Tree.node (Tree.node (leaf 1) 2 (leaf 3)) 4 (Tree.node Tree.nil 6 (leaf 7))) ∧
    ((ex_mem.set_left 6 none).heap 4).left = some 2 ∧
    ((ex_mem.set_left 6 none).heap 4).right = some 6 ∧
    ((ex_mem.set_left 6 none).heap 6).left = none ∧
    ((ex_mem.set_left 6 none).heap 6).right = some 7 ∧
    ∃ m2, rb_erase_node 3 4 (ex_mem.set_left 6 none) = some m2 ∧
      (ex_mem.set_left 6 none).load (slot_of (ex_mem.set_left 6 none) 4) = some 4 ∧
      m2.load (slot_of (ex_mem.set_left 6 none) 4) = some 6 ∧
      (m2.heap 6).parent = ((ex_mem.set_left 6 none).heap 4).parent ∧
      (m2.heap 6).left = some 2 ∧ (m2.heap 2).parent = some 6 ∧
      (m2.heap 6).right = ((ex_mem.set_left 6 none).heap 6).right ∧
      (∀ c, ((ex_mem.set_left 6 none).heap 6).right = some c →
        (m2.heap c).parent = some 6 ∧ (m2.heap c).parent ≠ some 4) ∧
      (m2.heap 6).parent ≠ some 6 ∧ (m2.heap 6).left ≠ some 6 ∧
      (m2.heap 6).right ≠ some 6 :=
  ⟨by decide, by decide, by decide, by decide, by decide,
    erase_successor_right_child (ex_mem.set_left 6 none)
      (Tree.node (Tree.node (leaf 1) 2 (leaf 3)) 4 (Tree.node Tree.nil 6 (leaf 7))) 4 2 6 3
      (by decide) (by decide) (by decide) (by decide) (by decide) (by decide)⟩

/-! ## Red-black invariants -/

@[simp] theorem is_red_nil : CTree.nil.is_red = false := rfl

@[simp] theorem is_red_red (l : CTree) (x : Nat) (r : CTree) :
    (CTree.node Colour.red l x r).is_red = true := rfl

@[simp] theorem is_red_black (l : CTree) (x : Nat) (r : CTree) :
    (CTree.node Colour.black l x r).is_red = false := rfl

theorem cfill_append : ∀ (q p : List CFrame) (t : CTree), cfill (q ++ p) t = cfill p (cfill q t)
  | [], _, _ => rfl
  | f :: q, p, t => by
    simp only [List.cons_append, cfill]
    exact cfill_append q p (f.plug t)

/-- The descent ends at an absent-child position of the tree. -/
theorem rb_descend_spec (key : Nat → Nat) (k : Nat) : ∀ (t : CTree) (p : List CFrame),
    cfill (rb_descend key k t p) CTree.nil = cfill p t
  | CTree.nil, _ => rfl
  | CTree.node c l x r, p => by
    by_cases h : k < key x
    · simp only [rb_descend, h, if_true]
      rw [rb_descend_spec key k l]
      rfl
    · simp only [rb_descend, h, if_false]
      rw [rb_descend_spec key k r]
      rfl

/-- The leftmost node of a non-empty tree has no left child, and the path to
it leads back to the tree. -/
theorem cmin_path_spec : ∀ (t : CTree) (p : List CFrame), t ≠ CTree.nil →
    ∃ q sc s sr, cmin_path t p = some (q ++ p, CTree.node sc CTree.nil s sr) ∧
      cfill q (CTree.node sc CTree.nil s sr) = t ∧
      ∃ k, ∀ u : CTree, (cfill q u).inorder = u.inorder ++ k
  | CTree.nil, _, h => absurd rfl h
  | CTree.node c CTree.nil x r, p, _ => ⟨[], c, x, r, rfl, rfl, [], fun u => by simp [cfill]⟩
  | CTree.node c (CTree.node lc ll lx lr) x r, p, _ => by
    obtain ⟨q, sc, s, sr, h1, h2, k, h3⟩ :=
      cmin_path_spec (CTree.node lc ll lx lr) (CFrame.L c x r :: p) (by simp)
    refine ⟨q ++ [CFrame.L c x r], sc, s, sr, ?_, ?_, k ++ x :: r.inorder, fun u => ?_⟩
    · simp only [cmin_path, h1, List.append_assoc, List.singleton_append]
    · rw [cfill_append, h2]
      rfl
    · rw [cfill_append]
      simp only [cfill, CFrame.plug, CTree.inorder, h3, List.append_assoc]

/-- The located node sits at the end of the located path. -/
theorem rb_locate_spec (x : Nat) : ∀ (t : CTree) (p q : List CFrame) (sub : CTree),
    rb_locate x t p = some (q, sub) → cfill q sub = cfill p t
  | CTree.nil, _, _, _, h => by simp [rb_locate] at h
  | CTree.node c l y r, p, q, sub, h => by
    by_cases e : y = x
    · simp only [rb_locate, e, if_true, Option.some.injEq, Prod.mk.injEq] at h
      rw [← h.1, ← h.2, e]
    · simp only [rb_locate, e, if_false] at h
      cases hl : rb_locate x l (CFrame.L c y r :: p) with
      | some found =>
        rw [hl] at h
        simp only [Option.some.injEq] at h
        rw [h] at hl
        exact rb_locate_spec x l _ q sub hl
      | none =>
        rw [hl] at h
        exact rb_locate_spec x r _ q sub h

theorem blacken_inorder (t : CTree) : t.blacken.inorder = t.inorder := by
  cases t <;> rfl

/-- The in-order listing around the hole of a path. -/
theorem cfill_inorder : ∀ p : List CFrame, ∃ a b : List Nat,
    ∀ t : CTree, (cfill p t).inorder = a ++ t.inorder ++ b
  | [] => ⟨[], [], fun t => by simp [cfill]⟩
  | CFrame.L c x r :: p => by
    obtain ⟨a, b, h⟩ := cfill_inorder p
    exact ⟨a, x :: r.inorder ++ b, fun t => by
      simp [cfill, CFrame.plug, h, CTree.inorder, List.append_assoc]⟩
  | CFrame.R c l x :: p => by
    obtain ⟨a, b, h⟩ := cfill_inorder p
    exact ⟨a ++ l.inorder ++ [x], b, fun t => by
      simp [cfill, CFrame.plug, h, CTree.inorder, List.append_assoc]⟩

theorem cfill_inorder_congr (p : List CFrame) (t u : CTree) (h : t.inorder = u.inorder) :
    (cfill p t).inorder = (cfill p u).inorder := by
  obtain ⟨a, b, e⟩ := cfill_inorder p
  rw [e, e, h]

theorem insert_rotate_inorder (f1 f2 : CFrame) (t : CTree) :
    (insert_rotate f1 f2 t).inorder = (f2.plug (f1.plug t)).inorder := by
  cases f1 <;> cases f2 <;> cases t <;>
    simp [insert_rotate, CFrame.plug, CTree.inorder, List.append_assoc]

/-- The upward walk of rebalance-after-insert changes shape and colours only:
the in-order sequence stays. -/
theorem insert_fixup_inorder : ∀ (p : List CFrame) (t : CTree),
    (insert_fixup p t).inorder = (cfill p t).inorder
  | [], _ => rfl
  | [_], _ => rfl
  | f1 :: f2 :: rest, t => by
    by_cases hb : f1.colour = Colour.black
    · simp only [insert_fixup, hb, if_true]
    · by_cases hu : f2.sibling.is_red = true
      · cases f1 <;> cases f2 <;>
        · simp only [CFrame.colour, CFrame.sibling] at hb hu
          simp only [insert_fixup, CFrame.colour, CFrame.sibling, hb, hu, if_false, if_true]
          rw [insert_fixup_inorder rest]
          simp only [cfill, CFrame.plug]
          apply cfill_inorder_congr
          simp [CTree.inorder, blacken_inorder, List.append_assoc]
      · simp only [insert_fixup, hb, hu, if_false, Bool.false_eq_true]
        simp only [cfill]
        exact cfill_inorder_congr rest _ _ (insert_rotate_inorder f1 f2 t)

/-- Insertion with rebalancing puts the new node somewhere into the in-order
sequence and keeps the rest. -/
theorem rb_insert_inorder (key : Nat → Nat) (x : Nat) (t : CTree) :
    ∃ a b, t.inorder = a ++ b ∧ (rb_insert key x t).inorder = a ++ x :: b := by
  have e := rb_descend_spec key (key x) t []
  simp only [cfill] at e
  obtain ⟨a, b, h⟩ := cfill_inorder (rb_descend key (key x) t [])
  refine ⟨a, b, ?_, ?_⟩
  · rw [← e, h]
    simp [CTree.inorder]
  · simp only [rb_insert, rb_insert_color, blacken_inorder, insert_fixup_inorder, h]
    simp [CTree.inorder]

theorem delete_left_inorder (c : Colour) (t : CTree) (x : Nat) (s : CTree) :
    (delete_left c t x s).1.inorder = t.inorder ++ x :: s.inorder := by
  cases s with
  | nil => simp [delete_left, CTree.inorder]
  | node sc sl sx sr =>
    by_cases hfar : sr.is_red = true
    · simp [delete_left, hfar, CTree.inorder, blacken_inorder, List.append_assoc]
    · cases sl with
      | nil => simp [delete_left, hfar, CTree.inorder, List.append_assoc]
      | node slc sll slx slr =>
        cases slc <;> simp [delete_left, hfar, CTree.inorder, List.append_assoc]

theorem delete_right_inorder (c : Colour) (t : CTree) (x : Nat) (s : CTree) :
    (delete_right c t x s).1.inorder = s.inorder ++ x :: t.inorder := by
  cases s with
  | nil => simp [delete_right, CTree.inorder]
  | node sc sl sx sr =>
    by_cases hfar : sl.is_red = true
    · simp [delete_right, hfar, CTree.inorder, blacken_inorder, List.append_assoc]
    · cases sr with
      | nil => simp [delete_right, hfar, CTree.inorder, List.append_assoc]
      | node src srl srx srr =>
        cases src <;> simp [delete_right, hfar, CTree.inorder, List.append_assoc]

/-- Rebalance-after-delete changes shape and colours only: the in-order
sequence stays. -/
theorem rb_erase_color_inorder : ∀ (p : List CFrame) (t : CTree),
    (rb_erase_color p t).inorder = (cfill p t).inorder
  | [], t => blacken_inorder t
  | CFrame.L c x s :: rest, t => by
    by_cases hr : t.is_red = true
    · simp only [rb_erase_color, hr, if_true]
      exact cfill_inorder_congr _ _ _ (blacken_inorder t)
    · have hstep : (cfill rest (delete_left c t x s).1).inorder =
          (cfill (CFrame.L c x s :: rest) t).inorder :=
        cfill_inorder_congr rest _ _ (by
          rw [delete_left_inorder]
          rfl)
      cases s with
      | nil =>
        simp only [rb_erase_color, hr, if_false, Bool.false_eq_true]
        split
        · rw [rb_erase_color_inorder rest]
          exact hstep
        · exact hstep
      | node sc sl sx sr =>
        cases sc with
        | red =>
          simp only [rb_erase_color, hr, if_false, Bool.false_eq_true]
          apply cfill_inorder_congr
          simp [CTree.inorder, delete_left_inorder, CFrame.plug, List.append_assoc]
        | black =>
          simp only [rb_erase_color, hr, if_false, Bool.false_eq_true]
          split
          · rw [rb_erase_color_inorder rest]
            exact hstep
          · exact hstep
  | CFrame.R c s x :: rest, t => by
    by_cases hr : t.is_red = true
    · simp only [rb_erase_color, hr, if_true]
      exact cfill_inorder_congr _ _ _ (blacken_inorder t)
    · have hstep : (cfill rest (delete_right c t x s).1).inorder =
          (cfill (CFrame.R c s x :: rest) t).inorder :=
        cfill_inorder_congr rest _ _ (by
          rw [delete_right_inorder]
          rfl)
      cases s with
      | nil =>
        simp only [rb_erase_color, hr, if_false, Bool.false_eq_true]
        split
        · rw [rb_erase_color_inorder rest]
          exact hstep
        · exact hstep
      | node sc sl sx sr =>
        cases sc with
        | red =>
          simp only [rb_erase_color, hr, if_false, Bool.false_eq_true]
          apply cfill_inorder_congr
          simp [CTree.inorder, delete_right_inorder, CFrame.plug, List.append_assoc]
        | black =>
          simp only [rb_erase_color, hr, if_false, Bool.false_eq_true]
          split
          · rw [rb_erase_color_inorder rest]
            exact hstep
          · exact hstep

theorem erase_rebalance_inorder (c : Colour) (p : List CFrame) (t : CTree) :
    (erase_rebalance c p t).inorder = (cfill p t).inorder := by
  cases c
  · simp [erase_rebalance]
  · simp [erase_rebalance, rb_erase_color_inorder]

/-- Erase with rebalancing removes the node at the end of the path from the
in-order sequence and keeps the rest. -/
theorem rb_erase_at_inorder (p : List CFrame) (c : Colour) (l : CTree) (x : Nat) (r : CTree) :
    ∃ a b, (cfill p (CTree.node c l x r)).inorder = a ++ x :: b ∧
      (rb_erase_at p (CTree.node c l x r)).inorder = a ++ b := by
  obtain ⟨a, b, h⟩ := cfill_inorder p
  match l, r with
  | CTree.nil, r =>
    exact ⟨a, r.inorder ++ b, by simp [h, CTree.inorder],
      by simp [rb_erase_at, rb_unlink, erase_rebalance_inorder, h]⟩
  | CTree.node lc ll lx lr, CTree.nil =>
    exact ⟨a ++ (CTree.node lc ll lx lr).inorder, b, by simp [h, CTree.inorder],
      by simp [rb_erase_at, rb_unlink, erase_rebalance_inorder, h]⟩
  | CTree.node lc ll lx lr, CTree.node rc rl rx rr =>
    obtain ⟨q, sc, s, sr, h1, h2, k, h3⟩ := cmin_path_spec (CTree.node rc rl rx rr) [] (by simp)
    rw [List.append_nil] at h1
    refine ⟨a ++ (CTree.node lc ll lx lr).inorder, s :: sr.inorder ++ k ++ b, ?_, ?_⟩
    · rw [h, ← h2]
      simp [CTree.inorder, h3, List.append_assoc]
    · simp only [rb_erase_at, rb_unlink, h1, erase_rebalance_inorder, cfill_append, cfill,
        CFrame.plug, h]
      simp [CTree.inorder, h3, List.append_assoc]

/-- A node of the tree is located, and the located subtree starts at it. -/
theorem rb_locate_found (x : Nat) : ∀ (t : CTree) (p : List CFrame), x ∈ t.inorder →
    ∃ q c l r, rb_locate x t p = some (q, CTree.node c l x r)
  | CTree.nil, _, h => by simp [CTree.inorder] at h
  | CTree.node c l y r, p, h => by
    by_cases e : y = x
    · exact ⟨p, c, l, r, by simp [rb_locate, e]⟩
    · simp only [CTree.inorder, List.mem_append, List.mem_cons] at h
      cases hl : rb_locate x l (CFrame.L c y r :: p) with
      | some found =>
        by_cases hx : x ∈ l.inorder
        · obtain ⟨q, c2, l2, r2, h2⟩ := rb_locate_found x l (CFrame.L c y r :: p) hx
          exact ⟨q, c2, l2, r2, by simp [rb_locate, e, h2]⟩
        · rcases h with h | h | h
          · exact absurd h hx
          · exact absurd h.symm e
          · obtain ⟨q, sub⟩ := found
            have : ∀ (t2 : CTree) (p2 q2 : List CFrame) (sub2 : CTree),
                rb_locate x t2 p2 = some (q2, sub2) → x ∈ t2.inorder := by
              intro t2
              induction t2 with
              | nil => intro p2 q2 sub2 h2; simp [rb_locate] at h2
              | node c3 l3 y3 r3 ih1 ih2 =>
                intro p2 q2 sub2 h2
                by_cases e3 : y3 = x
                · simp [CTree.inorder, e3]
                · simp only [rb_locate, e3, if_false] at h2
                  cases hl3 : rb_locate x l3 (CFrame.L c3 y3 r3 :: p2) with
                  | some f3 =>
                    have := ih1 _ f3.1 f3.2 hl3
                    simp [CTree.inorder, this]
                  | none =>
                    rw [hl3] at h2
                    have := ih2 _ q2 sub2 h2
                    simp [CTree.inorder, this]
            exact absurd (this l _ q sub hl) hx
      | none =>
        rcases h with h | h | h
        · obtain ⟨q, c2, l2, r2, h2⟩ := rb_locate_found x l (CFrame.L c y r :: p) h
          rw [hl] at h2
          simp at h2
        · exact absurd h.symm e
        · obtain ⟨q, c2, l2, r2, h2⟩ := rb_locate_found x r (CFrame.R c l y :: p) h
          exact ⟨q, c2, l2, r2, by simp [rb_locate, e, hl, h2]⟩

/-- Erase with rebalance-after-delete removes the node from the in-order
sequence and keeps the rest. -/
theorem rb_erase_inorder (x : Nat) (t : CTree) (h : x ∈ t.inorder) :
    ∃ a b, t.inorder = a ++ x :: b ∧ (rb_erase x t).inorder = a ++ b := by
  obtain ⟨q, c, l, r, hl⟩ := rb_locate_found x t [] h
  have e := rb_locate_spec x t [] q _ hl
  simp only [cfill] at e
  obtain ⟨a, b, h1, h2⟩ := rb_erase_at_inorder q c l x r
  exact ⟨a, b, by rw [← e, h1], by simp only [rb_erase, hl, h2]⟩

/-! ## The structural steps on the memory

The structural part of the red-black operations is the one of the functions
of `rbtree.h`: on a memory that stores the link structure of a coloured tree,
comparison descent with `rb_link_node`, and `rb_erase_node`, produce the link
structure on which the rebalancing starts. -/

theorem shape_inorder : ∀ t : CTree, t.shape.inorder = t.inorder
  | CTree.nil => rfl
  | CTree.node _ l x r => by
    simp only [CTree.shape, Tree.inorder, CTree.inorder, shape_inorder l, shape_inorder r]

theorem shape_cfill : ∀ (p : List CFrame) (t : CTree),
    (cfill p t).shape = fill (p.map CFrame.shape) t.shape
  | [], _ => rfl
  | CFrame.L c x r :: p, t => by
    simp only [cfill, List.map_cons, fill, shape_cfill p]
    rfl
  | CFrame.R c l x :: p, t => by
    simp only [cfill, List.map_cons, fill, shape_cfill p]
    rfl

/-- The comparison descent on the memory ends at the slot at the end of the
path of the descent on the coloured tree. -/
theorem find_slot_descend (key : Nat → Nat) (m : Mem) (k : Nat) : ∀ (t : CTree)
    (p : List CFrame) (fuel : Nat), Shape m.heap t.shape (path_par (p.map CFrame.shape)) →
      t.shape.height ≤ fuel →
      find_slot key m.heap k fuel t.shape.ptr (path_par (p.map CFrame.shape))
          (path_slot (p.map CFrame.shape)) =
        some (path_par ((rb_descend key k t p).map CFrame.shape),
          path_slot ((rb_descend key k t p).map CFrame.shape))
  | CTree.nil, p, fuel, _, _ => by
    cases fuel <;> simp [CTree.shape, Tree.ptr, find_slot, rb_descend]
  | CTree.node c l x r, p, fuel, hs, hf => by
    obtain ⟨_, hl, hr, hsl, hsr⟩ := hs
    cases fuel with
    | zero => simp [CTree.shape, Tree.height] at hf
    | succ fuel =>
      simp only [CTree.shape, Tree.height] at hf
      by_cases h : k < key x
      · have ih := find_slot_descend key m k l (CFrame.L c x r :: p) fuel hsl (by omega)
        simp only [CTree.shape, Tree.ptr, find_slot, rb_descend, h, if_true, hl]
        exact ih
      · have ih := find_slot_descend key m k r (CFrame.R c l x :: p) fuel hsr (by omega)
        simp only [CTree.shape, Tree.ptr, find_slot, rb_descend, h, if_false, hr]
        exact ih

/-- Insertion on the memory, comparison descent followed by `rb_link_node`,
produces the link structure of the coloured tree with the new red leaf, on
which rebalance-after-insert starts. -/
theorem rb_insert_links (key : Nat → Nat) (m : Mem) (t : CTree) (node fuel : Nat)
    (hwf : Wf m t.shape) (hn : node ∉ t.inorder) (hf : t.shape.height ≤ fuel) :
    ∃ m2, insert_node key fuel node m = some m2 ∧
      Wf m2 (cfill (rb_descend key (key node) t [])
        (CTree.node Colour.red CTree.nil node CTree.nil)).shape := by
  have h1 := find_slot_descend key m (key node) t [] fuel hwf.2.1 hf
  have e := rb_descend_spec key (key node) t []
  simp only [cfill] at e
  have e2 := congrArg CTree.shape e
  rw [shape_cfill] at e2
  have hwf2 : Wf m (fill ((rb_descend key (key node) t []).map CFrame.shape) Tree.nil) := by
    rw [show Tree.nil = CTree.nil.shape from rfl, e2]
    exact hwf
  have hn2 : node ∉ (fill ((rb_descend key (key node) t []).map CFrame.shape) Tree.nil).inorder := by
    rw [show Tree.nil = CTree.nil.shape from rfl, e2, shape_inorder]
    exact hn
  refine ⟨rb_link_node node (path_par ((rb_descend key (key node) t []).map CFrame.shape))
    (path_slot ((rb_descend key (key node) t []).map CFrame.shape)) m, ?_, ?_⟩
  · change find_slot key m.heap (key node) fuel t.shape.ptr none Slot.root = _ at h1
    simp only [insert_node, hwf.1, h1]
  · rw [shape_cfill]
    exact link_wf m _ node hwf2 hn2

/-- The leftmost node found on the coloured tree is the one `split_min`
detaches from the link structure. -/
theorem cmin_path_shape : ∀ (l : CTree) (c : Colour) (x : Nat) (r : CTree) (p q2 : List CFrame)
    (sc : Colour) (a : CTree) (s : Nat) (sr : CTree),
    cmin_path (CTree.node c l x r) p = some (q2, CTree.node sc a s sr) →
    ∃ q, q2 = q ++ p ∧ split_min l.shape x r.shape = (s, (cfill q sr).shape)
  | CTree.nil, c, x, r, p, q2, sc, a, s, sr, h => by
    simp only [cmin_path, Option.some.injEq, Prod.mk.injEq, CTree.node.injEq] at h
    obtain ⟨h1, _, _, h2, h3⟩ := h
    exact ⟨[], by simp [h1], by simp [CTree.shape, split_min, cfill, h2, h3]⟩
  | CTree.node lc ll lx lr, c, x, r, p, q2, sc, a, s, sr, h => by
    simp only [cmin_path] at h
    obtain ⟨q, h1, h2⟩ := cmin_path_shape ll lc lx lr (CFrame.L c x r :: p) q2 sc a s sr h
    refine ⟨q ++ [CFrame.L c x r], by simp [h1], ?_⟩
    simp only [CTree.shape, split_min, h2, cfill_append, cfill, CFrame.plug]

/-- The structural part of erase on the coloured tree has the link structure
that `erase_top` describes. -/
theorem rb_unlink_shape (p : List CFrame) (c : Colour) (l : CTree) (x : Nat) (r : CTree) :
    (cfill (rb_unlink p (CTree.node c l x r)).2.1 (rb_unlink p (CTree.node c l x r)).2.2).shape =
      fill (p.map CFrame.shape) (erase_top l.shape r.shape) := by
  match l, r with
  | CTree.nil, r => simp [rb_unlink, shape_cfill, CTree.shape, erase_top]
  | CTree.node lc ll lx lr, CTree.nil => simp [rb_unlink, shape_cfill, CTree.shape, erase_top]
  | CTree.node lc ll lx lr, CTree.node rc rl rx rr =>
    obtain ⟨q, sc, s, sr, h1, _, _⟩ := cmin_path_spec (CTree.node rc rl rx rr) [] (by simp)
    obtain ⟨q3, h2, h3⟩ := cmin_path_shape rl rc rx rr [] _ sc CTree.nil s sr h1
    simp only [List.append_nil] at h1 h2
    subst h2
    simp only [rb_unlink, h1, cfill_append, cfill, CFrame.plug, shape_cfill, CTree.shape,
      erase_top, h3]

/-- On a memory that stores the link structure of a coloured tree,
`rb_erase_node` returns and produces the link structure at which
rebalance-after-delete starts. -/
theorem rb_erase_unlinks (m : Mem) (p : List CFrame) (c : Colour) (l : CTree) (x : Nat)
    (r : CTree) (fuel : Nat) (hwf : Wf m (cfill p (CTree.node c l x r)).shape)
    (hfuel : r.shape.height ≤ fuel + 1) :
    ∃ m2, rb_erase_node fuel x m = some m2 ∧
      Wf m2 (cfill (rb_unlink p (CTree.node c l x r)).2.1
        (rb_unlink p (CTree.node c l x r)).2.2).shape := by
  rw [shape_cfill] at hwf
  rw [rb_unlink_shape]
  exact erase_focus m (p.map CFrame.shape) l.shape x r.shape fuel hwf hfuel

/-! ## The red-black conditions in every reachable state -/

end RbTree
